import Mathlib

/-!
# Hex engine (`game.c`): win detection, move validation, auto-move generator

Shallow embedding of the C program.  Conventions:

* C `int` values are `Int`.  Board coordinates, stack counters and `height * width`
  stay far below `2^31` for the dimensions the program admits (`1 ≤ H, W ≤ 1000`), so
  they are left unwrapped; the auto-move arithmetic on the unbounded move counter is
  wrapped to 32 bits explicitly (`wrap32`).
* A C `int*` buffer is a map `Int → Int` from index to content.  `realloc` in `push` is
  taken to keep the buffer contents and only the recorded `logSize` changes.
* The board is a map from (row, column) to a character together with the allocated
  dimensions; reading or writing outside `0 ≤ row < height`, `0 ≤ column < width` is
  undefined behaviour and is reported as `Result.outOfBounds`.
* Loops take a fuel argument counting the iterations (pops) they may still perform.
-/

namespace Hex

/-- Outcome of running a piece of the program. -/
inductive Result (α : Type) where
  | ok (a : α)
  | outOfBounds
  | divisionByZero
  | outOfFuel
  deriving DecidableEq, Repr

namespace Result

/-- Sequencing of fallible computations. -/
def bind {α β : Type} (x : Result α) (f : α → Result β) : Result β :=
  match x with
  | ok a => f a
  | outOfBounds => outOfBounds
  | divisionByZero => divisionByZero
  | outOfFuel => outOfFuel

/-- Apply a function to the value of a successful run. -/
def map {α β : Type} (f : α → β) (x : Result α) : Result β :=
  match x with
  | ok a => ok (f a)
  | outOfBounds => outOfBounds
  | divisionByZero => divisionByZero
  | outOfFuel => outOfFuel

end Result

instance : Monad Result where
  pure := Result.ok
  bind := Result.bind

/-- A board coordinate (row, column). -/
abbrev Cell := Int × Int

/-- Mirror of `struct Player`. -/
structure Player where
  isManual : Bool
  moveCounter : Int
  playerName : Char

/-- Mirror of `struct Game`; `players0` is `players[0]` ('O'), `players1` is `players[1]` ('X'). -/
structure Game where
  height : Int
  width : Int
  board : Int → Int → Char
  players0 : Player
  players1 : Player
  isXTurn : Bool
  winner : Char

/-- Mirror of `struct Stack`. -/
structure Stack where
  rows : Int → Int
  columns : Int → Int
  rowLog : Int → Int
  columnLog : Int → Int
  logCount : Int
  logSize : Int
  count : Int
  maxSize : Int

/-- The cell lies inside the allocated board. -/
def inBounds (game : Game) (row column : Int) : Prop :=
  0 ≤ row ∧ row < game.height ∧ 0 ≤ column ∧ column < game.width

instance (game : Game) (row column : Int) : Decidable (inBounds game row column) :=
  inferInstanceAs (Decidable (0 ≤ row ∧ row < game.height ∧ 0 ≤ column ∧ column < game.width))

/-- The read `game->board[row][column]`. -/
def readBoard (game : Game) (row column : Int) : Result Char :=
  if inBounds game row column then .ok (game.board row column) else .outOfBounds

/-- The write `game->board[row][column] = value`. -/
def writeBoard (game : Game) (row column : Int) (value : Char) : Result Game :=
  if inBounds game row column then
    .ok { game with board := fun r c => if r = row ∧ c = column then value else game.board r c }
  else .outOfBounds

/-- The store `buffer[index] = value` into an `int` buffer. -/
def store (buffer : Int → Int) (index value : Int) : Int → Int :=
  fun i => if i = index then value else buffer i

/-- Two's-complement wrap of a C `int` result. -/
def wrap32 (x : Int) : Int := (x + 2147483648) % 4294967296 - 2147483648

/-- Mirror of `initialize_game`. -/
def initialize_game (height width : Int) : Game :=
  { height := height
    width := width
    isXTurn := false
    board := fun _ _ => '.'
    players0 := { isManual := false, moveCounter := 0, playerName := 'O' }
    players1 := { isManual := false, moveCounter := 0, playerName := 'X' }
    winner := '.' }

/-- Mirror of `initialize_stack`; the fresh buffers are taken to hold zeros. -/
def initialize_stack (game : Game) : Stack :=
  { rows := fun _ => 0
    columns := fun _ => 0
    rowLog := fun _ => 0
    columnLog := fun _ => 0
    count := 0
    logCount := 0
    logSize := game.height * game.width
    maxSize := game.height * game.width }

/-- The scan `for (i = 0; i < logCount; i++)` of `push`: is (row, column) in the log? -/
def inLog (stack : Stack) (row column : Int) : Bool :=
  (List.range stack.logCount.toNat).any
    fun i => decide (stack.rowLog i = row ∧ stack.columnLog i = column)

/-- Mirror of `push` for the calls that stay inside the two log blocks.  The buffers are
total maps, so the `realloc` of the log buffers (entered when `logCount == maxSize`) shows
in `logSize` only and the log entries survive it.  The source asks `realloc` for
`logSize * 2` bytes, without the factor `sizeof(int)`: `Sized.push` below tracks the size
of the blocks, and is the mirror of the calls that enter this branch; whenever it returns,
it returns the stack given here. -/
def push (stack : Stack) (row column : Int) : Stack :=
  if stack.count = stack.maxSize then stack
  else
    let stack := if stack.logCount = stack.maxSize then
      { stack with logSize := stack.logSize * 2 } else stack
    if inLog stack row column then stack
    else
      { stack with
        rowLog := store stack.rowLog stack.logCount row
        columnLog := store stack.columnLog stack.logCount column
        logCount := stack.logCount + 1
        rows := store stack.rows stack.count row
        columns := store stack.columns stack.count column
        count := stack.count + 1 }

/-- Mirror of `pop`; `row`, `column` are the values held by the out-parameters on entry. -/
def pop (stack : Stack) (row column : Int) : Stack × Int × Int :=
  if stack.count = 0 then (stack, row, column)
  else
    ({ stack with count := stack.count - 1 },
      stack.rows (stack.count - 1), stack.columns (stack.count - 1))

/-- Guarded push used by the neighbour generators: `if (board[row][column] == value) push`. -/
def pushIfMark (stack : Stack) (game : Game) (value : Char) (row column : Int) :
    Result Stack := do
  let cell ← readBoard game row column
  if cell = value then pure (push stack row column) else pure stack

/-- Mirror of `add_top_cells_to_stack`. -/
def add_top_cells_to_stack (stack : Stack) (row column : Int) (game : Game)
    (value : Char) : Result Stack := do
  let stack ←
    if column > 0 then do
      let stack ← pushIfMark stack game value row (column - 1)
      if row > 0 then pushIfMark stack game value (row - 1) (column - 1) else pure stack
    else pure stack
  let stack ← if row > 0 then pushIfMark stack game value (row - 1) column else pure stack
  if column < game.width - 1 then pushIfMark stack game value row (column + 1)
  else pure stack

/-- Mirror of `add_bottom_cells_to_stack`. -/
def add_bottom_cells_to_stack (stack : Stack) (row column : Int) (game : Game)
    (value : Char) : Result Stack := do
  let stack ← if column > 0 then pushIfMark stack game value row (column - 1) else pure stack
  let stack ←
    if row < game.height - 1 then do
      let stack ← pushIfMark stack game value (row + 1) column
      if column < game.width - 1 then pushIfMark stack game value (row + 1) (column + 1)
      else pure stack
    else pure stack
  if column < game.width - 1 then pushIfMark stack game value row (column + 1)
  else pure stack

/-- Mirror of `add_left_cells_to_stack`. -/
def add_left_cells_to_stack (stack : Stack) (row column : Int) (game : Game)
    (value : Char) : Result Stack := do
  let stack ← if column > 0 then pushIfMark stack game value row (column - 1) else pure stack
  let stack ←
    if row > 0 ∧ column > 0 then pushIfMark stack game value (row - 1) (column - 1)
    else pure stack
  if row < game.height - 1 then pushIfMark stack game value (row + 1) column
  else pure stack

/-- Mirror of `add_right_cells_to_stack`. -/
def add_right_cells_to_stack (stack : Stack) (row column : Int) (game : Game)
    (value : Char) : Result Stack := do
  let stack ←
    if column < game.width - 1 then pushIfMark stack game value row (column + 1)
    else pure stack
  let stack ← if row > 0 then pushIfMark stack game value (row - 1) column else pure stack
  if row < game.height - 1 ∧ column < game.width - 1 then
    pushIfMark stack game value (row + 1) (column + 1)
  else pure stack

/-- The test `coordinate == target && game->board[row][column] == value` (short-circuit). -/
def atEdge (game : Game) (value : Char) (coordinate target row column : Int) :
    Result Bool :=
  if coordinate = target then do
    let cell ← readBoard game row column
    pure (decide (cell = value))
  else pure false

/-- Mirror of `check_top`; returns the answer and the stack as the loop left it. -/
def check_top : Nat → Stack → Char → Game → Result (Bool × Stack)
  | fuel, stack, value, game =>
    if stack.count > 0 then
      match fuel with
      | 0 => .outOfFuel
      | fuel + 1 =>
        match pop stack (-1) (-1) with
        | (stack, row, column) => do
          if ← atEdge game value row 0 row column then pure (true, stack)
          else
            let stack ← add_top_cells_to_stack stack row column game value
            check_top fuel stack value game
    else pure (false, stack)

/-- Mirror of `check_bottom`. -/
def check_bottom : Nat → Stack → Char → Game → Result (Bool × Stack)
  | fuel, stack, value, game =>
    if stack.count > 0 then
      match fuel with
      | 0 => .outOfFuel
      | fuel + 1 =>
        match pop stack (-1) (-1) with
        | (stack, row, column) => do
          if ← atEdge game value row (game.height - 1) row column then pure (true, stack)
          else
            let stack ← add_bottom_cells_to_stack stack row column game value
            check_bottom fuel stack value game
    else pure (false, stack)

/-- Mirror of `check_left`. -/
def check_left : Nat → Stack → Char → Game → Result (Bool × Stack)
  | fuel, stack, value, game =>
    if stack.count > 0 then
      match fuel with
      | 0 => .outOfFuel
      | fuel + 1 =>
        match pop stack (-1) (-1) with
        | (stack, row, column) => do
          if ← atEdge game value column 0 row column then pure (true, stack)
          else
            let stack ← add_left_cells_to_stack stack row column game value
            check_left fuel stack value game
    else pure (false, stack)

/-- Mirror of `check_right` (the source initialises `column` to 1 there). -/
def check_right : Nat → Stack → Char → Game → Result (Bool × Stack)
  | fuel, stack, value, game =>
    if stack.count > 0 then
      match fuel with
      | 0 => .outOfFuel
      | fuel + 1 =>
        match pop stack (-1) 1 with
        | (stack, row, column) => do
          if ← atEdge game value column (game.width - 1) row column then pure (true, stack)
          else
            let stack ← add_right_cells_to_stack stack row column game value
            check_right fuel stack value game
    else pure (false, stack)

/-- The reset `stack->count = 0; stack->logCount = 0; push(stack, row, column)`. -/
def reseed (stack : Stack) (row column : Int) : Stack :=
  push { stack with count := 0, logCount := 0 } row column

/-- Mirror of `check_game_over`; returns the answer and the game (winner possibly set). -/
def check_game_over (fuel : Nat) (row column : Int) (value : Char) (game : Game) :
    Result (Bool × Game) := do
  let stack := push (initialize_stack game) row column
  if value = 'X' then
    let (top, stack) ← check_top fuel stack value game
    if top then
      let (bottom, _) ← check_bottom fuel (reseed stack row column) value game
      if bottom then pure (true, { game with winner := value }) else pure (false, game)
    else pure (false, game)
  else
    let (left, stack) ← check_left fuel stack value game
    if left then
      let (right, _) ← check_right fuel (reseed stack row column) value game
      if right then pure (true, { game with winner := value }) else pure (false, game)
    else pure (false, game)

/-- Mirror of `is_move_valid` (its parameters are named `height`, `width` in the source). -/
def is_move_valid (height width : Int) (game : Game) : Result Bool :=
  if height ≥ game.height ∨ width ≥ game.width then pure false
  else if height < 0 ∨ width < 0 then pure false
  else do
    let cell ← readBoard game height width
    if cell ≠ '.' then pure false else pure true

/-- C division `a / b` (truncating), undefined for a zero divisor. -/
def cDiv (a b : Int) : Result Int :=
  if b = 0 then .divisionByZero else .ok (Int.tdiv a b)

/-- C remainder `a % b` (sign of the dividend), undefined for a zero divisor. -/
def cMod (a b : Int) : Result Int :=
  if b = 0 then .divisionByZero else .ok (Int.tmod a b)

/-- Mirror of `get_auto_move_for_o`: the candidate (row, column) and the updated game. -/
def get_auto_move_for_o (game : Game) : Result (Int × Int × Game) := do
  let m := if game.height ≥ game.width then game.height else game.width
  let t := wrap32 (Int.tmod (wrap32 (game.players0.moveCounter * 9)) 1000037 + 17)
  let q ← cDiv t m
  let height ← cMod q game.height
  let width ← cMod t game.width
  pure (height, width,
    { game with players0 :=
        { game.players0 with moveCounter := wrap32 (game.players0.moveCounter + 1) } })

/-- Mirror of `get_auto_move_for_x`. -/
def get_auto_move_for_x (game : Game) : Result (Int × Int × Game) := do
  let m := if game.height ≥ game.width then game.height else game.width
  let t := wrap32 (Int.tmod (wrap32 (game.players1.moveCounter * 7)) 1000213 + 81)
  let q ← cDiv t m
  let height ← cMod q game.height
  let width ← cMod t game.width
  pure (height, width,
    { game with players1 :=
        { game.players1 with moveCounter := wrap32 (game.players1.moveCounter + 1) } })

/-! ## Specification-level views of the search state -/

/-- The first `n` entries of a pair of parallel buffers, most recent (index `n - 1`) first. -/
def entries (f g : Int → Int) : Nat → List Cell
  | 0 => []
  | n + 1 => (f n, g n) :: entries f g n

/-- The cells on the work stack, top of the stack first. -/
def Stack.cells (stack : Stack) : List Cell :=
  entries stack.rows stack.columns stack.count.toNat

/-- The cells in the visited log, most recently logged first. -/
def Stack.logged (stack : Stack) : List Cell :=
  entries stack.rowLog stack.columnLog stack.logCount.toNat

/-- A search frontier seen as two lists: pending cells (top first) and visited log. -/
structure Front where
  stk : List Cell
  log : List Cell

/-- The frontier held by a stack. -/
def Stack.front (stack : Stack) : Front := ⟨stack.cells, stack.logged⟩

/-- What `push` does to the frontier of a stack of capacity `maxSize`. -/
def Front.push (maxSize : Int) (F : Front) (c : Cell) : Front :=
  if (F.stk.length : Int) = maxSize then F
  else if c ∈ F.log then F
  else ⟨c :: F.stk, c :: F.log⟩

/-- Both counters of the stack are non-negative. -/
def Stack.WF (stack : Stack) : Prop := 0 ≤ stack.count ∧ 0 ≤ stack.logCount

/-- Several pushes in a row. -/
def pushAll (stack : Stack) (cells : List Cell) : Stack :=
  cells.foldl (fun s c => push s c.1 c.2) stack

/-- The loop shared by the four `check_*` functions, with the edge test, the neighbour
generator and the initial values of `row`, `column` as parameters; it also records the
popped cells, most recent first. -/
def searchLoop (test : Int → Int → Result Bool) (add : Stack → Int → Int → Result Stack)
    (row0 column0 : Int) : Nat → Stack → List Cell → Result (Bool × Stack × List Cell)
  | fuel, stack, visited =>
    if stack.count > 0 then
      match fuel with
      | 0 => .outOfFuel
      | fuel + 1 =>
        match pop stack row0 column0 with
        | (stack, row, column) => do
          if ← test row column then pure (true, stack, (row, column) :: visited)
          else
            let stack ← add stack row column
            searchLoop test add row0 column0 fuel stack ((row, column) :: visited)
    else pure (false, stack, visited)

/-- The same loop on frontiers: `edge` is the edge test, `nbrs c` the cells handed to
`push` after popping `c`; `none` when the fuel runs out. -/
def frontLoop (maxSize : Int) (edge : Cell → Bool) (nbrs : Cell → List Cell) :
    Nat → Front → List Cell → Option (Bool × Front × List Cell)
  | _, ⟨[], log⟩, visited => some (false, ⟨[], log⟩, visited)
  | 0, ⟨_ :: _, _⟩, _ => none
  | fuel + 1, ⟨c :: stk, log⟩, visited =>
    if edge c then some (true, ⟨stk, log⟩, c :: visited)
    else frontLoop maxSize edge nbrs fuel
      ((nbrs c).foldl (Front.push maxSize) ⟨stk, log⟩) (c :: visited)

/-- The cell (row, column) if it holds `value`, as a list of at most one cell. -/
def markCell (game : Game) (value : Char) (row column : Int) : List Cell :=
  if game.board row column = value then [(row, column)] else []

/-- The cells `add_top_cells_to_stack` hands to `push` for a popped cell, in order. -/
def top_cells (game : Game) (value : Char) (cell : Cell) : List Cell :=
  (if cell.2 > 0 then
      markCell game value cell.1 (cell.2 - 1) ++
        (if cell.1 > 0 then markCell game value (cell.1 - 1) (cell.2 - 1) else [])
    else []) ++
  (if cell.1 > 0 then markCell game value (cell.1 - 1) cell.2 else []) ++
  (if cell.2 < game.width - 1 then markCell game value cell.1 (cell.2 + 1) else [])

/-- The cells `add_bottom_cells_to_stack` hands to `push` for a popped cell, in order. -/
def bottom_cells (game : Game) (value : Char) (cell : Cell) : List Cell :=
  (if cell.2 > 0 then markCell game value cell.1 (cell.2 - 1) else []) ++
  (if cell.1 < game.height - 1 then
      markCell game value (cell.1 + 1) cell.2 ++
        (if cell.2 < game.width - 1 then markCell game value (cell.1 + 1) (cell.2 + 1) else [])
    else []) ++
  (if cell.2 < game.width - 1 then markCell game value cell.1 (cell.2 + 1) else [])

/-- The cells `add_left_cells_to_stack` hands to `push` for a popped cell, in order. -/
def left_cells (game : Game) (value : Char) (cell : Cell) : List Cell :=
  (if cell.2 > 0 then markCell game value cell.1 (cell.2 - 1) else []) ++
  (if cell.1 > 0 ∧ cell.2 > 0 then markCell game value (cell.1 - 1) (cell.2 - 1) else []) ++
  (if cell.1 < game.height - 1 then markCell game value (cell.1 + 1) cell.2 else [])

/-- The cells `add_right_cells_to_stack` hands to `push` for a popped cell, in order. -/
def right_cells (game : Game) (value : Char) (cell : Cell) : List Cell :=
  (if cell.2 < game.width - 1 then markCell game value cell.1 (cell.2 + 1) else []) ++
  (if cell.1 > 0 then markCell game value (cell.1 - 1) cell.2 else []) ++
  (if cell.1 < game.height - 1 ∧ cell.2 < game.width - 1 then
      markCell game value (cell.1 + 1) (cell.2 + 1) else [])

/-- The edge test of a search as a predicate on cells: the coordinate picked by `coord`
equals `target` and the cell holds `value`. -/
def edgeCell (game : Game) (value : Char) (coord : Cell → Int) (target : Int)
    (cell : Cell) : Bool :=
  decide (coord cell = target ∧ game.board cell.1 cell.2 = value)

/-- Invariant of a search frontier: pending cells are logged, nothing is logged or pending
twice, and every logged cell satisfies `inB` (lies on the board). -/
structure FrontInv (inB : Cell → Prop) (F : Front) : Prop where
  sub : ∀ c ∈ F.stk, c ∈ F.log
  nodupLog : F.log.Nodup
  nodupStk : F.stk.Nodup
  inb : ∀ c ∈ F.log, inB c
  len : F.stk.length ≤ F.log.length

/-- How a frontier `F'` obtained from `F` by pushes relates to `F`. -/
structure Grows (F F' : Front) : Prop where
  log_mono : ∀ c ∈ F.log, c ∈ F'.log
  stk_mono : ∀ c ∈ F.stk, c ∈ F'.stk
  stk_new : ∀ c ∈ F'.stk, c ∈ F.stk ∨ (c ∉ F.log ∧ c ∈ F'.log)
  log_new : ∀ c ∈ F'.log, c ∈ F.log ∨ c ∈ F'.stk
  gap : F'.log.length + F.stk.length = F.log.length + F'.stk.length

/-- Every logged cell is still pending or has been expanded: it failed the edge test and
all its neighbours are logged. -/
def Expanded (edge : Cell → Bool) (nbrs : Cell → List Cell) (F : Front) : Prop :=
  ∀ c ∈ F.log, c ∈ F.stk ∨ (edge c = false ∧ ∀ d ∈ nbrs c, d ∈ F.log)

/-- The cell `e` can be reached from `a` by repeatedly moving to a cell of `nbrs`. -/
def Reaches (nbrs : Cell → List Cell) (a e : Cell) : Prop :=
  Relation.ReflTransGen (fun x y => y ∈ nbrs x) a e

/-! ## Vocabulary of the claims -/

/-- A game whose board is given row by row (cells not listed are '.'). -/
def gameOfRows (height width : Int) (rows : List (List Char)) : Game :=
  { initialize_game height width with
    board := fun r c => (rows.getD r.toNat []).getD c.toNat '.' }

/-- The six-neighbour hex adjacency: `b` is one of
(r, c-1), (r, c+1), (r-1, c), (r-1, c-1), (r+1, c), (r+1, c+1) for `a = (r, c)`. -/
def hexAdjacent (a b : Cell) : Prop :=
  b = (a.1, a.2 - 1) ∨ b = (a.1, a.2 + 1) ∨ b = (a.1 - 1, a.2) ∨ b = (a.1 - 1, a.2 - 1) ∨
    b = (a.1 + 1, a.2) ∨ b = (a.1 + 1, a.2 + 1)

instance : DecidableRel hexAdjacent := fun a b =>
  inferInstanceAs (Decidable (b = (a.1, a.2 - 1) ∨ b = (a.1, a.2 + 1) ∨ b = (a.1 - 1, a.2) ∨
    b = (a.1 - 1, a.2 - 1) ∨ b = (a.1 + 1, a.2) ∨ b = (a.1 + 1, a.2 + 1)))

/-- The cell is on the board and holds `mark`. -/
def marked (game : Game) (mark : Char) (c : Cell) : Prop :=
  inBounds game c.1 c.2 ∧ game.board c.1 c.2 = mark

instance (game : Game) (mark : Char) (c : Cell) : Decidable (marked game mark c) :=
  inferInstanceAs (Decidable (inBounds game c.1 c.2 ∧ game.board c.1 c.2 = mark))

/-- An unbroken chain: every cell is on the board and holds `mark`, and consecutive cells
are hex-adjacent. -/
def IsChain (game : Game) (mark : Char) (path : List Cell) : Prop :=
  (∀ c ∈ path, marked game mark c) ∧ path.Chain' hexAdjacent

/-- There is a chain of `mark` cells from `a` to `b`. -/
def Connected (game : Game) (mark : Char) (a b : Cell) : Prop :=
  ∃ path, IsChain game mark path ∧ path.head? = some a ∧ path.getLast? = some b

/-- Push (row, column) if it is on the board and holds `value`. -/
def pushIfOnBoard (stack : Stack) (game : Game) (value : Char) (row column : Int) :
    Result Stack :=
  if inBounds game row column then pushIfMark stack game value row column else pure stack

/-- The neighbour generator of the specification's alternative search: it pushes the full
six-neighbour set (r,c-1), (r,c+1), (r-1,c), (r-1,c-1), (r+1,c), (r+1,c+1), filtered to
bounds and to cells holding `value`. -/
def add_six_cells_to_stack (stack : Stack) (row column : Int) (game : Game)
    (value : Char) : Result Stack := do
  let stack ← pushIfOnBoard stack game value row (column - 1)
  let stack ← pushIfOnBoard stack game value row (column + 1)
  let stack ← pushIfOnBoard stack game value (row - 1) column
  let stack ← pushIfOnBoard stack game value (row - 1) (column - 1)
  let stack ← pushIfOnBoard stack game value (row + 1) column
  pushIfOnBoard stack game value (row + 1) (column + 1)

/-- The same stack search as `check_top` / `check_bottom` / `check_left` / `check_right`
(selected by the edge test `test`), pushing the full six-neighbour set instead. -/
def check_six (test : Int → Int → Result Bool) (fuel : Nat) (stack : Stack) (value : Char)
    (game : Game) : Result (Bool × Stack) :=
  (searchLoop test (fun s r c => add_six_cells_to_stack s r c game value) (-1) (-1)
    fuel stack []).map (fun x => (x.1, x.2.1))

/-- The loop of `check_top` together with the list of cells it pops. -/
def top_search (game : Game) (value : Char) :
    Nat → Stack → List Cell → Result (Bool × Stack × List Cell) :=
  searchLoop (fun r c => atEdge game value r 0 r c)
    (fun s r c => add_top_cells_to_stack s r c game value) (-1) (-1)

/-- The loop of `check_bottom` together with the list of cells it pops. -/
def bottom_search (game : Game) (value : Char) :
    Nat → Stack → List Cell → Result (Bool × Stack × List Cell) :=
  searchLoop (fun r c => atEdge game value r (game.height - 1) r c)
    (fun s r c => add_bottom_cells_to_stack s r c game value) (-1) (-1)

/-- The loop of `check_left` together with the list of cells it pops. -/
def left_search (game : Game) (value : Char) :
    Nat → Stack → List Cell → Result (Bool × Stack × List Cell) :=
  searchLoop (fun r c => atEdge game value c 0 r c)
    (fun s r c => add_left_cells_to_stack s r c game value) (-1) (-1)

/-- The loop of `check_right` together with the list of cells it pops. -/
def right_search (game : Game) (value : Char) :
    Nat → Stack → List Cell → Result (Bool × Stack × List Cell) :=
  searchLoop (fun r c => atEdge game value c (game.width - 1) r c)
    (fun s r c => add_right_cells_to_stack s r c game value) (-1) 1

/-- State of a stack during a search on `game`: counters non-negative, capacity `H * W`,
pending cells logged, no cell logged or pending twice, logged cells on the board. -/
def SearchState (game : Game) (stack : Stack) : Prop :=
  stack.WF ∧ stack.maxSize = game.height * game.width ∧
    FrontInv (fun c => inBounds game c.1 c.2) stack.front

/-- The 3×3 position
```
. . X
X . X
X X X
```
in which (1,0) is joined to the top row only through the bottom row. -/
def detourGame : Game :=
  gameOfRows 3 3 [['.', '.', 'X'], ['X', '.', 'X'], ['X', 'X', 'X']]

/-- The answer of a frontier loop as a `Result`: running out of fuel, or the boolean. -/
def frontAnswer : Option (Bool × Front × List Cell) → Result Bool
  | none => .outOfFuel
  | some r => .ok r.1

/-! ## Neighbour relations of the four searches -/

/-- Characters of a C string, a line or a file. -/
abbrev Text := List Char

/-- The string terminator. -/
def NUL : Char := Char.ofNat 0

/-- The C string in a buffer that holds `buffer` followed by a terminator: the characters
before the first terminator. -/
def cString (buffer : Text) : Text := buffer.takeWhile (fun c => c ≠ NUL)

/-- Core of `fgets`: take at most `room` characters, stopping after a newline; returns the
characters stored and the rest of the stream. -/
def readLine : Nat → Text → Text × Text
  | 0, stream => ([], stream)
  | _ + 1, [] => ([], [])
  | room + 1, c :: stream =>
    if c = '\n' then ([c], stream)
    else (c :: (readLine room stream).1, (readLine room stream).2)

/-- The call `fgets(buffer, size, stream)`: `none` (NULL) at end of input, otherwise the
characters stored in the buffer (at most `size - 1`) and the rest of the stream. -/
def fgets (size : Nat) (stream : Text) : Option (Text × Text) :=
  if stream = [] then none else some (readLine (size - 1) stream)

/-- The C library `isspace` in the "C" locale. -/
def isSpace (c : Char) : Bool :=
  c = ' ' || c = '\t' || c = '\n' || c = Char.ofNat 11 || c = Char.ofNat 12 || c = '\r'

/-- Value of a run of decimal digits. -/
def digitsValue (digits : Text) : Nat :=
  digits.foldl (fun acc c => acc * 10 + (c.toNat - 48)) 0

/-- Saturation of `strtol` to the range of a 64-bit `long`. -/
def clampLong (x : Int) : Int :=
  if x > 9223372036854775807 then 9223372036854775807
  else if x < -9223372036854775808 then -9223372036854775808
  else x

/-- The call `strtol(s, &error, 10)`: the value and the string `error` points at.
Leading white space and one sign are skipped; without any digit the value is 0 and
`error` is `s` itself. -/
def strtol (s : Text) : Int × Text :=
  let body := s.dropWhile isSpace
  let unsigned :=
    if body.head? = some '-' ∨ body.head? = some '+' then body.tail else body
  let digits := unsigned.takeWhile Char.isDigit
  if digits = [] then (0, s)
  else
    (clampLong (if body.head? = some '-' then -(digitsValue digits : Int)
      else (digitsValue digits : Int)),
      unsigned.dropWhile Char.isDigit)

/-- The tokens successive `strtok` calls return for a C string: the maximal non-empty
runs of characters that are not delimiters (`current` is the run being read, reversed). -/
def tokensOf (delimiters : Text) : Text → Text → List Text
  | [], current => if current = [] then [] else [current.reverse]
  | c :: rest, current =>
    if c ∈ delimiters then
      if current = [] then tokensOf delimiters rest []
      else current.reverse :: tokensOf delimiters rest []
    else tokensOf delimiters rest (c :: current)

/-- Mirror of `split_string`: the tokens and the updated `*tokenCount` (incremented once
for the first `strtok` call, even when it returns NULL, and once per further token).
The array has 50 slots and the loop also stores the final NULL, so 50 or more tokens
write past it. -/
def split_string (line : Text) (tokenCount : Int) (delimitter : Text) :
    Result (List Text × Int) :=
  if (tokensOf delimitter (cString line) []).length ≥ 50 then .outOfBounds
  else
    .ok (tokensOf delimitter (cString line) [],
      tokenCount + (if tokensOf delimitter (cString line) [] = [] then 1
        else ((tokensOf delimitter (cString line) []).length : Int)))

/-- Decimal digits of a natural number, most significant first (`fuel` bounds the length). -/
def natDigits : Nat → Nat → Text → Text
  | 0, _, acc => acc
  | fuel + 1, n, acc =>
    if n / 10 = 0 then Char.ofNat (48 + n % 10) :: acc
    else natDigits fuel (n / 10) (Char.ofNat (48 + n % 10) :: acc)

/-- What `printf("%d", x)` writes. -/
def printInt (x : Int) : Text :=
  if x < 0 then '-' :: natDigits (x.natAbs + 1) x.natAbs []
  else natDigits (x.toNat + 1) x.toNat []

/-! ## Players, saving and loading -/

/-- Mirror of `initialize_player`. -/
def initialize_player (playerType : Text) (player : Player) (moves : Int) : Player :=
  { player with moveCounter := moves, isManual := decide (playerType.headD NUL = 'm') }

/-- The text `save_game` writes to the file it opens: the header line
`turn,height,width,movesO,movesX` and one line per board row. -/
def save_game (game : Game) : Text :=
  printInt (if game.isXTurn then 1 else 0) ++ [','] ++ printInt game.height ++ [','] ++
    printInt game.width ++ [','] ++ printInt game.players0.moveCounter ++ [','] ++
    printInt game.players1.moveCounter ++ ['\n'] ++
    (List.range game.height.toNat).flatMap fun i =>
      (List.range game.width.toNat).map (fun j => game.board i j) ++ ['\n']

/-- Contents of a character buffer after `fgets` stored `chunk` and the terminator in it;
the bytes behind the terminator keep what the buffer held before. -/
def storeLine (buffer : Nat → Char) (chunk : Text) : Nat → Char :=
  fun i => if i < chunk.length then chunk.getD i NUL else if i = chunk.length then NUL
    else buffer i

/-- The read `line[index]` of the 150-byte line buffer of `load_game`. -/
def lineChar (line : Nat → Char) (index : Int) : Result Char :=
  if 0 ≤ index ∧ index < 150 then .ok (line index.toNat) else .outOfBounds

/-- The loop `for (i = 0; i < width; i++)` of `add_row_from_file`, with `remaining`
iterations to go from index `i`. -/
def add_row_loop (line : Nat → Char) (lineCount : Int) : Nat → Int → Game → Result (Int × Game)
  | 0, _, game => pure (0, game)
  | remaining + 1, i, game => do
    let c ← lineChar line i
    if c ≠ 'O' ∧ c ≠ 'X' ∧ c ≠ '.' then pure (-1, game)
    else
      let game ← writeBoard game (lineCount - 1) i c
      add_row_loop line lineCount remaining (i + 1) game

/-- Mirror of `add_row_from_file`: the return value and the game with the cells written. -/
def add_row_from_file (line : Nat → Char) (lineCount : Int) (game : Game) :
    Result (Int × Game) := do
  let unterminated ←
    if lineCount < game.height then do
      let c ← lineChar line game.width
      pure (decide (c ≠ '\n'))
    else pure false
  if unterminated then pure (-1, game)
  else if lineCount > game.height then pure (-1, game)
  else add_row_loop line lineCount game.width.toNat 0 game

/-- The value `(int)strtol(token, &error, 10)` together with the test `*error != '\0'`. -/
def readInt (token : Text) : Int × Bool :=
  (wrap32 (strtol token).1, decide ((strtol token).2 ≠ []))

/-- The first iteration of the loop of `load_game` (`lineIndex == 0`): `none` stands for
`return -1`, otherwise the initialised game and the two move counts read. -/
def load_header (line : Text) : Result (Option (Game × Int × Int)) := do
  let (lineSplit, tokenCount) ← split_string line 0 [',']
  if tokenCount ≠ 5 then pure none
  else
    let playerTurn := readInt (lineSplit.getD 0 [])
    if playerTurn.2 ∨ (playerTurn.1 ≠ 0 ∧ playerTurn.1 ≠ 1) then pure none
    else
      let height := readInt (lineSplit.getD 1 [])
      if height.2 ∨ height.1 ≤ 0 ∨ height.1 > 1000 then pure none
      else
        let width := readInt (lineSplit.getD 2 [])
        if width.2 ∨ width.1 ≤ 0 ∨ width.1 > 1000 then pure none
        else
          let oMoveCount := readInt (lineSplit.getD 3 [])
          if oMoveCount.2 ∨ oMoveCount.1 < 0 ∨ oMoveCount.1 > 1000 then pure none
          else
            let xMoveCount := readInt ((lineSplit.getD 4 []).dropLast)
            if xMoveCount.2 ∨ xMoveCount.1 < 0 ∨ xMoveCount.1 > 1000 then pure none
            else
              pure (some ({ initialize_game height.1 width.1 with
                isXTurn := decide (playerTurn.1 > 0) }, oMoveCount.1, xMoveCount.1))

/-- The later iterations of the loop of `load_game` (`lineIndex ≥ 1`), at most `fuel` of
them: the return value so far (-1, or 0 when the input is exhausted) and the game. -/
def load_rows : Nat → Text → (Nat → Char) → Int → Game → Result (Int × Game)
  | fuel, stream, line, lineIndex, game =>
    match fgets 145 stream with
    | none => pure (0, game)
    | some (chunk, rest) =>
      match fuel with
      | 0 => .outOfFuel
      | fuel + 1 => do
        let (status, game) ← add_row_from_file (storeLine line chunk) lineIndex game
        if status < 0 then pure (-1, game)
        else load_rows fuel rest (storeLine line chunk) (lineIndex + 1) game

/-- Mirror of `load_game`: the return value and the caller's `game` pointer (`none` while
it is unset).  `scratch` is the line buffer as the header processing leaves it (`strtok`
and the newline strip write into it).  With no line at all the final
`initialize_player` calls go through the unset pointer. -/
def load_game (fuel : Nat) (gameFile : Text) (scratch : Nat → Char) :
    Result (Int × Option Game) :=
  match fgets 145 gameFile with
  | none => .outOfBounds
  | some (chunk, rest) => do
    match ← load_header chunk with
    | none => pure (-1, none)
    | some (game, oMoveCount, xMoveCount) => do
      let (status, game) ← load_rows fuel rest scratch 1 game
      if status < 0 then pure (-1, some game)
      else
        pure (0, some { game with
          players0 := initialize_player ['a'] game.players0 oMoveCount
          players1 := initialize_player ['a'] game.players1 xMoveCount })

/-! ## Moves and turns -/

/-- The manual branch of the body of the do-while of `get_move`: one line is read from
`input` into the 70-byte buffer.  `none` is end of input (the program exits); otherwise
the values of `height`, `width` after the branch (unchanged when the branch ends in
`continue`: a save request or a line that does not split into two tokens) and the rest of
the input.  A line that starts with the terminator makes
`buffer[strlen(buffer) - 1]` read in front of the buffer. -/
def get_move_manual (height width : Int) (input : Text) : Result (Option (Int × Int × Text)) :=
  match fgets 65 input with
  | none => pure none
  | some (chunk, rest) =>
    if cString chunk = [] then .outOfBounds
    else
      let buffer :=
        if (cString chunk).getLast? = some '\n' then (cString chunk).dropLast else cString chunk
      if buffer.head? = some 's' then pure (some (height, width, rest))
      else do
        let (line, tokenCount) ← split_string buffer 0 [' ']
        if tokenCount ≠ 2 then pure (some (height, width, rest))
        else
          let height := if (readInt (line.getD 0 [])).2 then -1 else (readInt (line.getD 0 [])).1
          let width := if (readInt (line.getD 1 [])).2 then -1 else (readInt (line.getD 1 [])).1
          pure (some (height, width, rest))

/-- The body of the do-while of `get_move` up to the validity test; `who` tells which
player the `player` pointer designates (`true`: `players[1]`).  A manual player reads a
line, an automatic one calls the generator selected by the turn flag.  `none` is end of
input; otherwise `height`, `width`, the game and the rest of the input. -/
def get_move_body (who : Bool) (height width : Int) (game : Game) (input : Text) :
    Result (Option (Int × Int × Game × Text)) :=
  if (if who then game.players1 else game.players0).isManual then
    (get_move_manual height width input).bind fun r =>
      match r with
      | none => .ok none
      | some (height, width, input) => .ok (some (height, width, game, input))
  else if game.isXTurn then
    (get_auto_move_for_x game).bind fun r => .ok (some (r.1, r.2.1, r.2.2, input))
  else
    (get_auto_move_for_o game).bind fun r => .ok (some (r.1, r.2.1, r.2.2, input))

/-- The do-while of `get_move`, at most `fuel` passes.  `none` is end of input; otherwise
the accepted `height`, `width`, the game and the rest of the input. -/
def get_move_loop (who : Bool) :
    Nat → Int → Int → Game → Text → Result (Option (Int × Int × Game × Text))
  | 0, _, _, _, _ => .outOfFuel
  | fuel + 1, height, width, game, input =>
    (get_move_body who height width game input).bind fun candidate =>
      match candidate with
      | none => .ok none
      | some (height, width, game, input) =>
        (is_move_valid height width game).bind fun valid =>
          if valid then .ok (some (height, width, game, input))
          else get_move_loop who fuel height width game input

/-- How a call of `get_move` ends. -/
inductive MoveOutcome where
  | endOfInput
  | placed (gameOver : Bool) (game : Game) (input : Text)

/-- Mirror of `get_move`; `fuel` bounds the passes of the do-while and the pops of each
search of the win check. -/
def get_move (fuel : Nat) (who : Bool) (game : Game) (input : Text) : Result MoveOutcome :=
  (get_move_loop who fuel (-1) (-1) game input).bind fun r =>
    match r with
    | none => .ok .endOfInput
    | some (height, width, game, input) =>
      (writeBoard game height width
          (if who then game.players1 else game.players0).playerName).bind fun game =>
        (check_game_over fuel height width
            (if who then game.players1 else game.players0).playerName game).bind fun r =>
          .ok (.placed r.1 r.2 input)

/-- Mirror of `start_game`, at most `turns` passes of its loop: the exit code of the
program (0 after a win, 6 when the input ends during a manual move) and the final game. -/
def start_game (fuel : Nat) : Nat → Game → Text → Result (Int × Game)
  | 0, _, _ => .outOfFuel
  | turns + 1, game, input =>
    (get_move fuel game.isXTurn game input).bind fun r =>
      match r with
      | .endOfInput => .ok (6, game)
      | .placed isGameOver game input =>
        if isGameOver then .ok (0, { game with isXTurn := !game.isXTurn })
        else start_game fuel turns { game with isXTurn := !game.isXTurn } input

/-- The states at the head of the loop of `start_game` in a session that starts from
`game0` with input `input0`: the start, and every state reached by a move that did not
end the game followed by the flip of the turn flag. -/
inductive LoopHead (game0 : Game) (input0 : Text) : Game → Text → Prop where
  | start : LoopHead game0 input0 game0 input0
  | next {game : Game} {input : Text} (fuel : Nat) (game' : Game) (input' : Text) :
      LoopHead game0 input0 game input →
      get_move fuel game.isXTurn game input = .ok (.placed false game' input') →
      LoopHead game0 input0 { game' with isXTurn := !game'.isXTurn } input'

/-- How the part of `main` before `start_game` ends: with an exit code, or with the game
handed to `start_game`. -/
inductive Setup where
  | exit (code : Int)
  | play (game : Game)

/-- The two `initialize_player` calls of `main`, made after the game was created or
loaded: both move counters are set to 0. -/
def main_players (argv : List Text) (game : Game) : Game :=
  { game with
    players0 := initialize_player (argv.getD 1 []) game.players0 0
    players1 := initialize_player (argv.getD 2 []) game.players1 0 }

/-- Mirror of `main` up to the call of `start_game`.  `argv` are the program arguments
(`argv[0]` included), `fopen` gives the contents of the file of a given name, if it can
be opened. -/
def main_setup (fuel : Nat) (argv : List Text) (fopen : Text → Option Text)
    (scratch : Nat → Char) : Result Setup :=
  if argv.length ≠ 4 ∧ argv.length ≠ 5 then .ok (.exit 1)
  else if (argv.getD 1 []).length ≠ 1 ∨ (argv.getD 2 []).length ≠ 1 then .ok (.exit 2)
  else if ((argv.getD 1 []).headD NUL ≠ 'm' ∧ (argv.getD 1 []).headD NUL ≠ 'a') ∨
      ((argv.getD 2 []).headD NUL ≠ 'm' ∧ (argv.getD 2 []).headD NUL ≠ 'a') then .ok (.exit 2)
  else if argv.length = 5 then
    if (readInt (argv.getD 3 [])).2 ∨ (readInt (argv.getD 3 [])).1 ≤ 0 ∨
        (readInt (argv.getD 3 [])).1 > 1000 then .ok (.exit 3)
    else if (readInt (argv.getD 4 [])).2 ∨ (readInt (argv.getD 4 [])).1 ≤ 0 ∨
        (readInt (argv.getD 4 [])).1 > 1000 then .ok (.exit 3)
    else
      .ok (.play (main_players argv
        { initialize_game (readInt (argv.getD 3 [])).1 (readInt (argv.getD 4 [])).1 with
          isXTurn := false }))
  else
    match fopen (argv.getD 3 []) with
    | none => .ok (.exit 4)
    | some gameFile =>
      (load_game fuel gameFile scratch).bind fun r =>
        if r.1 < 0 then .ok (.exit 5)
        else
          match r.2 with
          | none => .outOfBounds
          | some game => .ok (.play (main_players argv game))

/-- The game with the two move counters replaced; everything else is kept. -/
def withCounters (game : Game) (movesO movesX : Int) : Game :=
  { game with
    players0 := { game.players0 with moveCounter := movesO }
    players1 := { game.players1 with moveCounter := movesX } }

/-- A 2×2 game between two manual players, as `main` sets it up for the arguments
`m m 2 2`. -/
def manualGame : Game :=
  main_players [['h', 'e', 'x'], ['m'], ['m'], ['2'], ['2']]
    { initialize_game 2 2 with isXTurn := false }

/-- Input for `manualGame`: 'O' takes (0,0), 'X' takes (1,0), 'O' takes (0,1) and joins
column 0 to column 1. -/
def manualInput : Text :=
  ['0', ' ', '0', '\n', '1', ' ', '0', '\n', '0', ' ', '1', '\n']

/-- Whether a completed `get_move` ended the game; `none` at end of input. -/
def MoveOutcome.gameOver? : MoveOutcome → Option Bool
  | .endOfInput => none
  | .placed gameOver _ _ => some gameOver

/-- The position the generator of the side to move (`get_auto_move_for_x` when `side` is
true, `get_auto_move_for_o` otherwise) yields on `game` when that side's move counter
is `k`. -/
def candidate (side : Bool) (game : Game) (k : Int) : Result (Int × Int) :=
  if side then
    (get_auto_move_for_x (withCounters game game.players0.moveCounter k)).map
      fun x => (x.1, x.2.1)
  else
    (get_auto_move_for_o (withCounters game k game.players1.moveCounter)).map
      fun x => (x.1, x.2.1)

/-- The move counter of a side (`true`: `players[1]`). -/
def sideCounter (side : Bool) (game : Game) : Int :=
  if side then game.players1.moveCounter else game.players0.moveCounter

/-- The position a line typed by a manual player asks for, as `get_move` reads it: `none`
for a save request (first character 's') and for a line that does not split into exactly
two space-separated tokens; otherwise the two tokens read as integers, -1 standing for a
token that is not an integer. -/
def lineRequest (chunk : Text) : Option (Int × Int) :=
  let buffer :=
    if (cString chunk).getLast? = some '\n' then (cString chunk).dropLast else cString chunk
  if buffer.head? = some 's' then none
  else if (tokensOf [' '] (cString buffer) []).length ≠ 2 then none
  else
    some
      (if (readInt ((tokensOf [' '] (cString buffer) []).getD 0 [])).2 then -1
        else (readInt ((tokensOf [' '] (cString buffer) []).getD 0 [])).1,
      if (readInt ((tokensOf [' '] (cString buffer) []).getD 1 [])).2 then -1
        else (readInt ((tokensOf [' '] (cString buffer) []).getD 1 [])).1)

/-- The input `input` is read by successive `fgets(buffer, 65, stdin)` calls as the lines
`lines`, leaving `rest` unread. -/
inductive ReadsAs : Text → List Text → Text → Prop where
  | nil (input : Text) : ReadsAs input [] input
  | cons {input line tail rest : Text} {lines : List Text} :
      fgets 65 input = some (line, tail) → ReadsAs tail lines rest →
      ReadsAs input (line :: lines) rest

/-- The line asks for a position that `is_move_valid` accepts on `game`. -/
def accepted (game : Game) (line : Text) : Bool :=
  match lineRequest line with
  | none => false
  | some (r, c) => decide (is_move_valid r c game = .ok true)

/-- A save file: 'O' to move on an empty 4x4 board, 'O' has made 5 moves and 'X' 3. -/
def savedFile : Text := "0,4,4,5,3\n....\n....\n....\n....\n".toList

/-- The command line `hex a a save`: two automatic players, the game read from `save`. -/
def savedArgv : List Text := ["hex".toList, "a".toList, "a".toList, "save".toList]

/-- A file system whose only file is `save`, holding `savedFile`. -/
def savedFopen (name : Text) : Option Text :=
  if name = "save".toList then some savedFile else none

/-- A line buffer filled with terminators. -/
def blankLine : Nat → Char := fun _ => NUL

/-- The game handed to `start_game`, if the setup did not exit. -/
def Setup.game? : Setup → Option Game
  | .exit _ => none
  | .play game => some game

/-- What a session records besides the board: turn flag, height, width, the move counters
of `players[0]` and `players[1]`, and the candidate the generator of the side to move
yields next. -/
structure Summary where
  isXTurn : Bool
  height : Int
  width : Int
  movesO : Int
  movesX : Int
  next : Result (Int × Int)
  deriving DecidableEq

/-- The summary of a session. -/
def sessionSummary (game : Game) : Summary :=
  { isXTurn := game.isXTurn, height := game.height, width := game.width,
    movesO := game.players0.moveCounter, movesX := game.players1.moveCounter,
    next := candidate game.isXTurn game (sideCounter game.isXTurn game) }

/-- The characters `add_row_from_file` accepts in a board row. -/
def legalCell (c : Char) : Prop := c = 'O' ∨ c = 'X' ∨ c = '.'

instance (c : Char) : Decidable (legalCell c) :=
  inferInstanceAs (Decidable (c = 'O' ∨ c = 'X' ∨ c = '.'))

/-- The header format `load_game` accepts: the line splits on ',' into five tokens, each
read by `(int)strtol` without a rest (the fifth after its last character, the newline,
is removed), with `turn` 0 or 1, `height` and `width` in 1..1000 and both move counts in
0..1000. -/
def HeaderOk (first : Text) (turn height width movesO movesX : Int) : Prop :=
  ∃ t0 t1 t2 t3 t4, tokensOf [','] (cString first) [] = [t0, t1, t2, t3, t4] ∧
    readInt t0 = (turn, false) ∧ (turn = 0 ∨ turn = 1) ∧
    readInt t1 = (height, false) ∧ 0 < height ∧ height ≤ 1000 ∧
    readInt t2 = (width, false) ∧ 0 < width ∧ width ≤ 1000 ∧
    readInt t3 = (movesO, false) ∧ 0 ≤ movesO ∧ movesO ≤ 1000 ∧
    readInt t4.dropLast = (movesX, false) ∧ 0 ≤ movesX ∧ movesX ≤ 1000

/-- What `add_row_from_file` requires of the characters `fgets` delivered for row
`lineCount` (counted from 1): the count is at most `height`, the first `width` characters
exist and are legal cells, and for a row before the `height`-th the character after them
is the newline. -/
def rowOk (height width lineCount : Int) (chunk : Text) : Prop :=
  lineCount ≤ height ∧ width.toNat ≤ chunk.length ∧
    (∀ c ∈ chunk.take width.toNat, legalCell c) ∧
    (lineCount < height → chunk.getD width.toNat NUL = '\n')

instance (height width lineCount : Int) (chunk : Text) :
    Decidable (rowOk height width lineCount chunk) :=
  inferInstanceAs (Decidable (lineCount ≤ height ∧ width.toNat ≤ chunk.length ∧
    (∀ c ∈ chunk.take width.toNat, legalCell c) ∧
    (lineCount < height → chunk.getD width.toNat NUL = '\n')))

/-- The rows part of a save file that `load_game` accepts, read from row `lineCount` on:
every line `fgets(line, 145, gameFile)` delivers satisfies `rowOk` for its number. -/
inductive RowsOk (height width : Int) : Int → Text → Prop where
  | done (lineCount : Int) : RowsOk height width lineCount []
  | row {lineCount : Int} {stream chunk rest : Text} :
      fgets 145 stream = some (chunk, rest) → rowOk height width lineCount chunk →
      RowsOk height width (lineCount + 1) rest → RowsOk height width lineCount stream

/-- The header line `save_game` writes, without its newline. -/
def headerText (turn height width movesO movesX : Int) : Text :=
  printInt turn ++ ',' :: (printInt height ++ ',' :: (printInt width ++ ',' ::
    (printInt movesO ++ ',' :: printInt movesX)))

/-- The cells of board row `i`, as `save_game` writes them. -/
def rowCells (game : Game) (i : Nat) : Text :=
  (List.range game.width.toNat).map fun (j : Nat) => game.board i j

/-- The rows `save_game` writes from row `first` on, `count` of them. -/
def rowsText (game : Game) (first count : Nat) : Text :=
  (List.range' first count).flatMap fun i => rowCells game i ++ ['\n']

/-- A 1x1 session in which 'O' has generated 1001 candidates. -/
def busyGame : Game := withCounters (initialize_game 1 1) 1001 0

/-- An empty board of one row and 144 columns. -/
def wideGame : Game := initialize_game 1 144

/-- State of the stack during a search for `mark` on `game`: counters non-negative,
capacity `H * W`, every pending cell logged, no cell logged or pending twice, and every
logged cell on the board and holding `mark`. -/
def MarkState (game : Game) (mark : Char) (stack : Stack) : Prop :=
  stack.WF ∧ stack.maxSize = game.height * game.width ∧
    FrontInv (fun c => inBounds game c.1 c.2 ∧ game.board c.1 c.2 = mark) stack.front

/-! ## The search with the sizes of the log blocks -/

/-- The size `sizeof(int)` in bytes. -/
def intBytes : Int := 4

/-- A stack together with the allocator's view of the two log blocks `rowLog` and
`columnLog`: `logBytes` is the size in bytes of each of them, as `malloc` and `realloc`
were asked for it, and `logKept` is the number of leading entries that hold a value the
program stored (a `realloc` to fewer bytes cuts the block off, and the bytes a `realloc`
adds are indeterminate).  The blocks `rows` and `columns` keep the `sizeof(int) * maxSize`
bytes of `initialize_stack`. -/
structure Sized where
  stack : Stack
  logBytes : Int
  logKept : Int

/-- Mirror of `initialize_stack`, with the blocks it allocates:
`malloc(sizeof(int) * (height * width))` for each log block, holding no value yet. -/
def Sized.initialize_stack (game : Game) : Sized :=
  { stack := Hex.initialize_stack game
    logBytes := intBytes * (game.height * game.width)
    logKept := 0 }

/-- The calls `realloc(rowLog, logSize * 2)` and `realloc(columnLog, logSize * 2)` of
`push`, followed by `logSize *= 2`: each log block now has `logSize * 2` bytes. -/
def Sized.realloc (s : Sized) : Sized :=
  { stack := { s.stack with logSize := s.stack.logSize * 2 }
    logBytes := s.stack.logSize * 2
    logKept := min s.logKept (s.stack.logSize * 2 / intBytes) }

/-- The statement `if (logCount == maxSize) { realloc ...; logSize *= 2; }` of `push`. -/
def Sized.grow (s : Sized) : Sized :=
  if s.stack.logCount = s.stack.maxSize then Sized.realloc s else s

/-- The scan `for (i = 0; i < logCount; i++)` of `push` from index `i` on, with `remaining`
entries to go: whether (row, column) is found.  Reading an entry outside the block, or one
whose value was not kept, is a fault. -/
def Sized.scan (s : Sized) (row column : Int) : Nat → Nat → Result Bool
  | 0, _ => .ok false
  | remaining + 1, i =>
    if intBytes * ((i : Int) + 1) ≤ s.logBytes ∧ (i : Int) < s.logKept then
      if s.stack.rowLog i = row ∧ s.stack.columnLog i = column then .ok true
      else Sized.scan s row column remaining (i + 1)
    else .outOfBounds

/-- The four stores and two increments at the end of `push`; a store outside its block is
a fault. -/
def Sized.append (s : Sized) (row column : Int) : Result Sized :=
  if 0 ≤ s.stack.logCount ∧ intBytes * (s.stack.logCount + 1) ≤ s.logBytes ∧
      0 ≤ s.stack.count ∧ s.stack.count < s.stack.maxSize then
    .ok
      { stack :=
          { s.stack with
            rowLog := store s.stack.rowLog s.stack.logCount row
            columnLog := store s.stack.columnLog s.stack.logCount column
            logCount := s.stack.logCount + 1
            rows := store s.stack.rows s.stack.count row
            columns := store s.stack.columns s.stack.count column
            count := s.stack.count + 1 }
        logBytes := s.logBytes
        logKept := if s.stack.logCount = s.logKept then s.logKept + 1 else s.logKept }
  else .outOfBounds

/-- Mirror of `push` with the block sizes. -/
def Sized.push (s : Sized) (row column : Int) : Result Sized :=
  if s.stack.count = s.stack.maxSize then .ok s
  else
    (Sized.scan (Sized.grow s) row column s.stack.logCount.toNat 0).bind fun found =>
      if found then .ok (Sized.grow s) else Sized.append (Sized.grow s) row column

/-- Mirror of `pop` with the block sizes. -/
def Sized.pop (s : Sized) (row column : Int) : Result (Sized × Int × Int) :=
  if s.stack.count = 0 then .ok (s, row, column)
  else if 0 ≤ s.stack.count - 1 ∧ s.stack.count - 1 < s.stack.maxSize then
    .ok ({ s with stack := { s.stack with count := s.stack.count - 1 } },
      s.stack.rows (s.stack.count - 1), s.stack.columns (s.stack.count - 1))
  else .outOfBounds

/-- Guarded push of the neighbour generators, with the block sizes. -/
def Sized.pushIfMark (s : Sized) (game : Game) (value : Char) (row column : Int) :
    Result Sized :=
  (readBoard game row column).bind fun cell =>
    if cell = value then Sized.push s row column else .ok s

/-- Mirror of `add_top_cells_to_stack` with the block sizes. -/
def Sized.add_top_cells_to_stack (s : Sized) (row column : Int) (game : Game)
    (value : Char) : Result Sized :=
  (if column > 0 then
      (Sized.pushIfMark s game value row (column - 1)).bind fun s =>
        if row > 0 then Sized.pushIfMark s game value (row - 1) (column - 1) else .ok s
    else .ok s).bind fun s =>
  (if row > 0 then Sized.pushIfMark s game value (row - 1) column else .ok s).bind fun s =>
  if column < game.width - 1 then Sized.pushIfMark s game value row (column + 1) else .ok s

/-- Mirror of `add_bottom_cells_to_stack` with the block sizes. -/
def Sized.add_bottom_cells_to_stack (s : Sized) (row column : Int) (game : Game)
    (value : Char) : Result Sized :=
  (if column > 0 then Sized.pushIfMark s game value row (column - 1) else .ok s).bind fun s =>
  (if row < game.height - 1 then
      (Sized.pushIfMark s game value (row + 1) column).bind fun s =>
        if column < game.width - 1 then Sized.pushIfMark s game value (row + 1) (column + 1)
        else .ok s
    else .ok s).bind fun s =>
  if column < game.width - 1 then Sized.pushIfMark s game value row (column + 1) else .ok s

/-- Mirror of `add_left_cells_to_stack` with the block sizes. -/
def Sized.add_left_cells_to_stack (s : Sized) (row column : Int) (game : Game)
    (value : Char) : Result Sized :=
  (if column > 0 then Sized.pushIfMark s game value row (column - 1) else .ok s).bind fun s =>
  (if row > 0 ∧ column > 0 then Sized.pushIfMark s game value (row - 1) (column - 1)
    else .ok s).bind fun s =>
  if row < game.height - 1 then Sized.pushIfMark s game value (row + 1) column else .ok s

/-- Mirror of `add_right_cells_to_stack` with the block sizes. -/
def Sized.add_right_cells_to_stack (s : Sized) (row column : Int) (game : Game)
    (value : Char) : Result Sized :=
  (if column < game.width - 1 then Sized.pushIfMark s game value row (column + 1)
    else .ok s).bind fun s =>
  (if row > 0 then Sized.pushIfMark s game value (row - 1) column else .ok s).bind fun s =>
  if row < game.height - 1 ∧ column < game.width - 1 then
    Sized.pushIfMark s game value (row + 1) (column + 1)
  else .ok s

/-- One pass of the loop of a `check_*` function: pop, edge test, neighbour generator.  The
flag tells whether the edge test succeeded (the function returns true); the stack is the
one after the pop, and after the generator when the test failed. -/
def Sized.pass (test : Int → Int → Result Bool) (add : Sized → Int → Int → Result Sized)
    (row0 column0 : Int) (s : Sized) : Result (Bool × Sized) :=
  (Sized.pop s row0 column0).bind fun p =>
    (test p.2.1 p.2.2).bind fun reached =>
      if reached then .ok (true, p.1)
      else (add p.1 p.2.1 p.2.2).bind fun s => .ok (false, s)

/-- The loop `while (stack->count > 0)` of a `check_*` function, at most `fuel` passes. -/
def Sized.searchLoop (test : Int → Int → Result Bool)
    (add : Sized → Int → Int → Result Sized) (row0 column0 : Int) :
    Nat → Sized → Result (Bool × Sized)
  | fuel, s =>
    if s.stack.count > 0 then
      match fuel with
      | 0 => .outOfFuel
      | fuel + 1 =>
        (Sized.pass test add row0 column0 s).bind fun r =>
          if r.1 then .ok (true, r.2) else Sized.searchLoop test add row0 column0 fuel r.2
    else .ok (false, s)

/-- The stack after `n` passes of the loop, or after the pass that ends the search. -/
def Sized.passes (test : Int → Int → Result Bool)
    (add : Sized → Int → Int → Result Sized) (row0 column0 : Int) : Nat → Sized → Result Sized
  | 0, s => .ok s
  | n + 1, s =>
    (Sized.pass test add row0 column0 s).bind fun r =>
      if r.1 then .ok r.2 else Sized.passes test add row0 column0 n r.2

/-- Mirror of `check_top` with the block sizes. -/
def Sized.check_top (fuel : Nat) (s : Sized) (value : Char) (game : Game) :
    Result (Bool × Sized) :=
  Sized.searchLoop (fun r c => atEdge game value r 0 r c)
    (fun s r c => Sized.add_top_cells_to_stack s r c game value) (-1) (-1) fuel s

/-- Mirror of `check_bottom` with the block sizes. -/
def Sized.check_bottom (fuel : Nat) (s : Sized) (value : Char) (game : Game) :
    Result (Bool × Sized) :=
  Sized.searchLoop (fun r c => atEdge game value r (game.height - 1) r c)
    (fun s r c => Sized.add_bottom_cells_to_stack s r c game value) (-1) (-1) fuel s

/-- Mirror of `check_left` with the block sizes. -/
def Sized.check_left (fuel : Nat) (s : Sized) (value : Char) (game : Game) :
    Result (Bool × Sized) :=
  Sized.searchLoop (fun r c => atEdge game value c 0 r c)
    (fun s r c => Sized.add_left_cells_to_stack s r c game value) (-1) (-1) fuel s

/-- Mirror of `check_right` with the block sizes. -/
def Sized.check_right (fuel : Nat) (s : Sized) (value : Char) (game : Game) :
    Result (Bool × Sized) :=
  Sized.searchLoop (fun r c => atEdge game value c (game.width - 1) r c)
    (fun s r c => Sized.add_right_cells_to_stack s r c game value) (-1) 1 fuel s

/-- The reset `stack->count = 0; stack->logCount = 0; push(stack, row, column)` with the
block sizes. -/
def Sized.reseed (s : Sized) (row column : Int) : Result Sized :=
  Sized.push { s with stack := { s.stack with count := 0, logCount := 0 } } row column

/-- Mirror of `check_game_over` with the block sizes. -/
def Sized.check_game_over (fuel : Nat) (row column : Int) (value : Char) (game : Game) :
    Result (Bool × Game) :=
  (Sized.push (Sized.initialize_stack game) row column).bind fun s =>
    if value = 'X' then
      (Sized.check_top fuel s value game).bind fun r =>
        if r.1 then
          (Sized.reseed r.2 row column).bind fun s =>
            (Sized.check_bottom fuel s value game).bind fun r =>
              if r.1 then .ok (true, { game with winner := value }) else .ok (false, game)
        else .ok (false, game)
    else
      (Sized.check_left fuel s value game).bind fun r =>
        if r.1 then
          (Sized.reseed r.2 row column).bind fun s =>
            (Sized.check_right fuel s value game).bind fun r =>
              if r.1 then .ok (true, { game with winner := value }) else .ok (false, game)
        else .ok (false, game)

/-- The 2x6 board on which every cell holds 'X'. -/
def fullBoard : Game :=
  gameOfRows 2 6 [['X', 'X', 'X', 'X', 'X', 'X'], ['X', 'X', 'X', 'X', 'X', 'X']]

/-- The stack with which `check_game_over(0, 0, 'X', game)` enters `check_bottom` on
`fullBoard`: the top search has returned true, the counters were reset and the seed was
pushed again. -/
def fullSeed : Result Sized :=
  (Sized.push (Sized.initialize_stack fullBoard) 0 0).bind fun s =>
    (Sized.check_top 12 s 'X' fullBoard).bind fun r => Sized.reseed r.2 0 0

/-- The state of that bottom search when the visited log is full: five passes of the loop
are done and a sixth cell is popped (returned with the stack); the call of
`add_bottom_cells_to_stack` for it comes next. -/
def fullLogState : Result (Sized × Int × Int) :=
  fullSeed.bind fun s =>
    (Sized.passes (fun r c => atEdge fullBoard 'X' r (fullBoard.height - 1) r c)
      (fun s r c => Sized.add_bottom_cells_to_stack s r c fullBoard 'X') (-1) (-1) 5 s).bind
      fun s => Sized.pop s (-1) (-1)

/-- The answer of that bottom search, run for at most `fuel` passes. -/
def fullBottomSearch (fuel : Nat) : Result Bool :=
  fullSeed.bind fun s => (Sized.check_bottom fuel s 'X' fullBoard).map Prod.fst

/-- State of a sized stack during a search for `mark` on `game` in which the log blocks
were never resized: the stack is in a `MarkState`, the blocks have the size
`sizeof(int) * H * W` that `initialize_stack` gave them, and every log entry in use was
written. -/
def Sized.Whole (game : Game) (mark : Char) (s : Sized) : Prop :=
  MarkState game mark s.stack ∧ s.logBytes = intBytes * s.stack.maxSize ∧
    s.stack.logCount ≤ s.logKept

/-! ## Basic facts about `Result` -/

@[simp] theorem pure_eq_ok {α : Type} (a : α) : (pure a : Result α) = Result.ok a := rfl

@[simp] theorem ok_bind {α β : Type} (a : α) (f : α → Result β) :
    (Result.ok a >>= f) = f a := rfl

@[simp] theorem outOfBounds_bind {α β : Type} (f : α → Result β) :
    ((Result.outOfBounds : Result α) >>= f) = Result.outOfBounds := rfl

@[simp] theorem divisionByZero_bind {α β : Type} (f : α → Result β) :
    ((Result.divisionByZero : Result α) >>= f) = Result.divisionByZero := rfl

@[simp] theorem outOfFuel_bind {α β : Type} (f : α → Result β) :
    ((Result.outOfFuel : Result α) >>= f) = Result.outOfFuel := rfl

@[simp] theorem map_ok {α β : Type} (f : α → β) (a : α) :
    Result.map f (Result.ok a) = Result.ok (f a) := rfl

theorem readBoard_of_inBounds {game : Game} {row column : Int}
    (h : inBounds game row column) : readBoard game row column = .ok (game.board row column) := by
  simp [readBoard, h]

/-! ## Buffers and their list views -/

theorem entries_store (f g : Int → Int) (k r c : Int) (n : Nat) (h : (n : Int) ≤ k) :
    entries (store f k r) (store g k c) n = entries f g n := by
  induction n with
  | zero => rfl
  | succ n ih =>
    have h1 : (n : Int) ≠ k := by push_cast at h; omega
    have h2 : (n : Int) ≤ k := by push_cast at h; omega
    simp [entries, store, h1, ih h2]

theorem entries_store_succ (f g : Int → Int) (r c : Int) (n : Nat) :
    entries (store f n r) (store g n c) (n + 1) = (r, c) :: entries f g n := by
  simp [entries, store, entries_store f g n r c n le_rfl]

theorem mem_entries (f g : Int → Int) (n : Nat) (x : Cell) :
    x ∈ entries f g n ↔ ∃ i : Nat, i < n ∧ (f i, g i) = x := by
  induction n with
  | zero => simp [entries]
  | succ n ih =>
    simp only [entries, List.mem_cons, ih]
    constructor
    · rintro (h | ⟨i, hi, h⟩)
      · exact ⟨n, Nat.lt_succ_self n, h.symm⟩
      · exact ⟨i, Nat.lt_succ_of_lt hi, h⟩
    · rintro ⟨i, hi, h⟩
      rcases Nat.lt_succ_iff_lt_or_eq.mp hi with h' | h'
      · exact Or.inr ⟨i, h', h⟩
      · subst h'; exact Or.inl h.symm

theorem inLog_iff (stack : Stack) (row column : Int) :
    inLog stack row column = true ↔ (row, column) ∈ stack.logged := by
  simp only [inLog, Stack.logged, mem_entries, List.any_eq_true, List.mem_range,
    decide_eq_true_eq, Prod.mk.injEq]

theorem length_entries (f g : Int → Int) (n : Nat) : (entries f g n).length = n := by
  induction n with
  | zero => rfl
  | succ n ih => simp [entries, ih]

/-- When the stack is not full, `push` works on a stack that differs from the given one
at most in `logSize`. -/
theorem push_of_not_full (s : Stack) (r c : Int) (h1 : s.count ≠ s.maxSize) :
    ∃ b : Stack, b.rows = s.rows ∧ b.columns = s.columns ∧ b.rowLog = s.rowLog ∧
      b.columnLog = s.columnLog ∧ b.logCount = s.logCount ∧ b.count = s.count ∧
      b.maxSize = s.maxSize ∧
      push s r c = if inLog b r c then b else
        { b with
          rowLog := store b.rowLog b.logCount r
          columnLog := store b.columnLog b.logCount c
          logCount := b.logCount + 1
          rows := store b.rows b.count r
          columns := store b.columns b.count c
          count := b.count + 1 } := by
  by_cases h2 : s.logCount = s.maxSize
  · refine ⟨{ s with logSize := s.logSize * 2 }, rfl, rfl, rfl, rfl, rfl, rfl, rfl, ?_⟩
    simp only [push, if_neg h1, if_pos h2]
  · refine ⟨s, rfl, rfl, rfl, rfl, rfl, rfl, rfl, ?_⟩
    simp only [push, if_neg h1, if_neg h2]

theorem push_front (s : Stack) (r c : Int) (h : s.WF) :
    (push s r c).front = s.front.push s.maxSize (r, c) ∧ (push s r c).WF ∧
      (push s r c).maxSize = s.maxSize := by
  obtain ⟨hc, hl⟩ := h
  have hcn : ((s.count.toNat : Nat) : Int) = s.count := Int.toNat_of_nonneg hc
  have hln : ((s.logCount.toNat : Nat) : Int) = s.logCount := Int.toNat_of_nonneg hl
  have hlen : ((s.front.stk.length : Nat) : Int) = s.count := by
    simp only [Stack.front, Stack.cells, length_entries, hcn]
  unfold Front.push
  rw [hlen]
  by_cases h1 : s.count = s.maxSize
  · have hp : push s r c = s := by simp only [push, if_pos h1]
    rw [hp, if_pos h1]
    exact ⟨rfl, ⟨hc, hl⟩, rfl⟩
  · obtain ⟨b, b1, b2, b3, b4, b5, b6, b7, hp⟩ := push_of_not_full s r c h1
    have hbf : b.front = s.front := by
      simp only [Stack.front, Stack.cells, Stack.logged, b1, b2, b3, b4, b5, b6]
    have hin : inLog b r c = true ↔ (r, c) ∈ s.front.log := by
      rw [inLog_iff]
      simp only [Stack.logged, Stack.front, b3, b4, b5]
    rw [hp, if_neg h1]
    by_cases h3 : (r, c) ∈ s.front.log
    · rw [if_pos (hin.mpr h3), if_pos h3]
      exact ⟨hbf, ⟨b6 ▸ hc, b5 ▸ hl⟩, b7⟩
    · have h4 : ¬ (inLog b r c = true) := fun h => h3 (hin.mp h)
      rw [if_neg h4, if_neg h3]
      have e1 : (s.count + 1).toNat = s.count.toNat + 1 := by omega
      have e2 : (s.logCount + 1).toNat = s.logCount.toNat + 1 := by omega
      have k1 := entries_store_succ s.rows s.columns r c s.count.toNat
      rw [hcn] at k1
      have k2 := entries_store_succ s.rowLog s.columnLog r c s.logCount.toNat
      rw [hln] at k2
      refine ⟨?_, ⟨?_, ?_⟩, b7⟩
      · simp only [Stack.front, Stack.cells, Stack.logged, b1, b2, b3, b4, b5, b6, e1, e2,
          k1, k2]
      · show 0 ≤ b.count + 1
        omega
      · show 0 ≤ b.logCount + 1
        omega

theorem pushAll_front (cells : List Cell) (s : Stack) (h : s.WF) :
    (pushAll s cells).front = cells.foldl (Front.push s.maxSize) s.front ∧
      (pushAll s cells).WF ∧ (pushAll s cells).maxSize = s.maxSize := by
  induction cells generalizing s with
  | nil => exact ⟨rfl, h, rfl⟩
  | cons c cells ih =>
    obtain ⟨h1, h2, h3⟩ := push_front s c.1 c.2 h
    obtain ⟨i1, i2, i3⟩ := ih (push s c.1 c.2) h2
    simp only [pushAll, List.foldl_cons] at i1 i2 i3 ⊢
    rw [i1, h1, h3]
    exact ⟨rfl, i2, i3.trans h3⟩

theorem pop_front (s : Stack) (r0 c0 : Int) (h : s.WF) (hpos : s.count > 0) :
    s.front.stk = ((pop s r0 c0).2.1, (pop s r0 c0).2.2) :: (pop s r0 c0).1.front.stk ∧
      (pop s r0 c0).1.front.log = s.front.log ∧ (pop s r0 c0).1.WF ∧
      (pop s r0 c0).1.maxSize = s.maxSize := by
  obtain ⟨hc, hl⟩ := h
  have h0 : s.count ≠ 0 := by omega
  have e1 : s.count.toNat = (s.count - 1).toNat + 1 := by omega
  have e2 : (((s.count - 1).toNat : Nat) : Int) = s.count - 1 := by omega
  have hp : pop s r0 c0 = ({ s with count := s.count - 1 },
      s.rows (s.count - 1), s.columns (s.count - 1)) := by
    simp only [pop, if_neg h0]
  rw [hp]
  refine ⟨?_, rfl, ⟨?_, hl⟩, rfl⟩
  · show entries s.rows s.columns s.count.toNat = _ :: entries s.rows s.columns (s.count - 1).toNat
    rw [e1, entries, e2]
  · show 0 ≤ s.count - 1
    omega

/-! ## The neighbour generators push the listed cells -/

theorem pushAll_append (s : Stack) (a b : List Cell) :
    pushAll s (a ++ b) = pushAll (pushAll s a) b := by
  simp [pushAll, List.foldl_append]

theorem pushIfMark_eq (s : Stack) (game : Game) (value : Char) {row column : Int}
    (h : inBounds game row column) :
    pushIfMark s game value row column = .ok (pushAll s (markCell game value row column)) := by
  unfold pushIfMark markCell
  rw [readBoard_of_inBounds h]
  by_cases hv : game.board row column = value <;> simp [hv, pushAll]

theorem add_top_eq (s : Stack) (game : Game) (value : Char) {row column : Int}
    (h : inBounds game row column) :
    add_top_cells_to_stack s row column game value =
      .ok (pushAll s (top_cells game value (row, column))) := by
  obtain ⟨h1, h2, h3, h4⟩ := h
  have hl : column > 0 → inBounds game row (column - 1) := fun _ => ⟨h1, h2, by omega, by omega⟩
  have htl : column > 0 → row > 0 → inBounds game (row - 1) (column - 1) :=
    fun _ _ => ⟨by omega, by omega, by omega, by omega⟩
  have htr : row > 0 → inBounds game (row - 1) column := fun _ => ⟨by omega, by omega, h3, h4⟩
  have hr : column < game.width - 1 → inBounds game row (column + 1) :=
    fun _ => ⟨h1, h2, by omega, by omega⟩
  unfold add_top_cells_to_stack top_cells
  by_cases c1 : column > 0 <;> by_cases c2 : row > 0 <;> by_cases c3 : column < game.width - 1 <;>
    simp [c1, c2, c3, pushIfMark_eq, hl, htl, htr, hr, pushAll_append, pushAll]

theorem add_bottom_eq (s : Stack) (game : Game) (value : Char) {row column : Int}
    (h : inBounds game row column) :
    add_bottom_cells_to_stack s row column game value =
      .ok (pushAll s (bottom_cells game value (row, column))) := by
  obtain ⟨h1, h2, h3, h4⟩ := h
  have hl : column > 0 → inBounds game row (column - 1) := fun _ => ⟨h1, h2, by omega, by omega⟩
  have hbl : row < game.height - 1 → inBounds game (row + 1) column :=
    fun _ => ⟨by omega, by omega, h3, h4⟩
  have hbr : row < game.height - 1 → column < game.width - 1 →
      inBounds game (row + 1) (column + 1) := fun _ _ => ⟨by omega, by omega, by omega, by omega⟩
  have hr : column < game.width - 1 → inBounds game row (column + 1) :=
    fun _ => ⟨h1, h2, by omega, by omega⟩
  unfold add_bottom_cells_to_stack bottom_cells
  by_cases c1 : column > 0 <;> by_cases c2 : row < game.height - 1 <;>
    by_cases c3 : column < game.width - 1 <;>
    simp [c1, c2, c3, pushIfMark_eq, hl, hbl, hbr, hr, pushAll_append, pushAll]

theorem add_left_eq (s : Stack) (game : Game) (value : Char) {row column : Int}
    (h : inBounds game row column) :
    add_left_cells_to_stack s row column game value =
      .ok (pushAll s (left_cells game value (row, column))) := by
  obtain ⟨h1, h2, h3, h4⟩ := h
  have hl : column > 0 → inBounds game row (column - 1) := fun _ => ⟨h1, h2, by omega, by omega⟩
  have htl : row > 0 ∧ column > 0 → inBounds game (row - 1) (column - 1) :=
    fun _ => ⟨by omega, by omega, by omega, by omega⟩
  have hbl : row < game.height - 1 → inBounds game (row + 1) column :=
    fun _ => ⟨by omega, by omega, h3, h4⟩
  unfold add_left_cells_to_stack left_cells
  by_cases c1 : column > 0 <;> by_cases c2 : row > 0 <;> by_cases c3 : row < game.height - 1 <;>
    simp [c1, c2, c3, pushIfMark_eq, hl, htl, hbl, pushAll_append, pushAll]

theorem add_right_eq (s : Stack) (game : Game) (value : Char) {row column : Int}
    (h : inBounds game row column) :
    add_right_cells_to_stack s row column game value =
      .ok (pushAll s (right_cells game value (row, column))) := by
  obtain ⟨h1, h2, h3, h4⟩ := h
  have hr : column < game.width - 1 → inBounds game row (column + 1) :=
    fun _ => ⟨h1, h2, by omega, by omega⟩
  have htr : row > 0 → inBounds game (row - 1) column := fun _ => ⟨by omega, by omega, h3, h4⟩
  have hbr : row < game.height - 1 ∧ column < game.width - 1 →
      inBounds game (row + 1) (column + 1) := fun _ => ⟨by omega, by omega, by omega, by omega⟩
  unfold add_right_cells_to_stack right_cells
  by_cases c1 : column < game.width - 1 <;> by_cases c2 : row > 0 <;>
    by_cases c3 : row < game.height - 1 <;>
    simp [c1, c2, c3, pushIfMark_eq, htr, hbr, hr, pushAll_append, pushAll]

theorem atEdge_eq (game : Game) (value : Char) (coord : Cell → Int) (target : Int)
    {row column : Int} (h : inBounds game row column) :
    atEdge game value (coord (row, column)) target row column =
      .ok (edgeCell game value coord target (row, column)) := by
  unfold atEdge edgeCell
  rw [readBoard_of_inBounds h]
  by_cases hc : coord (row, column) = target <;> simp [hc]

theorem mem_markCell (game : Game) (value : Char) (row column : Int) (d : Cell) :
    d ∈ markCell game value row column ↔
      (d.1 = row ∧ d.2 = column) ∧ game.board d.1 d.2 = value := by
  obtain ⟨dr, dk⟩ := d
  unfold markCell
  by_cases h : game.board row column = value
  · simp only [if_pos h, List.mem_singleton, Prod.mk.injEq]
    constructor
    · rintro ⟨rfl, rfl⟩; exact ⟨⟨rfl, rfl⟩, h⟩
    · exact fun h => h.1
  · simp only [if_neg h, List.not_mem_nil, false_iff]
    rintro ⟨⟨rfl, rfl⟩, h'⟩; exact h h'

theorem mem_guarded (game : Game) (value : Char) (g : Prop) [Decidable g]
    (row column : Int) (d : Cell) :
    d ∈ (if g then markCell game value row column else []) ↔
      (g ∧ d.1 = row ∧ d.2 = column) ∧ game.board d.1 d.2 = value := by
  by_cases hg : g
  · rw [if_pos hg, mem_markCell]
    simp only [hg, true_and]
  · rw [if_neg hg]
    simp only [List.not_mem_nil, hg, false_and]

theorem mem_top_cells (game : Game) (value : Char) (c d : Cell)
    (h : inBounds game c.1 c.2) :
    d ∈ top_cells game value c ↔
      (d = (c.1, c.2 - 1) ∨ d = (c.1 - 1, c.2 - 1) ∨ d = (c.1 - 1, c.2) ∨ d = (c.1, c.2 + 1)) ∧
        inBounds game d.1 d.2 ∧ game.board d.1 d.2 = value := by
  obtain ⟨r, k⟩ := c
  obtain ⟨dr, dk⟩ := d
  simp only [inBounds] at h
  have e : top_cells game value (r, k) =
      (if k > 0 then markCell game value r (k - 1) else []) ++
      (if k > 0 ∧ r > 0 then markCell game value (r - 1) (k - 1) else []) ++
      (if r > 0 then markCell game value (r - 1) k else []) ++
      (if k < game.width - 1 then markCell game value r (k + 1) else []) := by
    unfold top_cells
    by_cases c1 : k > 0 <;> by_cases c2 : r > 0 <;> simp [c1, c2]
  rw [e]
  simp only [List.mem_append, mem_guarded, inBounds, Prod.mk.injEq]
  by_cases hB : game.board dr dk = value
  · simp only [hB, and_true]; omega
  · simp only [hB, and_false, or_false]

theorem mem_bottom_cells (game : Game) (value : Char) (c d : Cell)
    (h : inBounds game c.1 c.2) :
    d ∈ bottom_cells game value c ↔
      (d = (c.1, c.2 - 1) ∨ d = (c.1 + 1, c.2) ∨ d = (c.1 + 1, c.2 + 1) ∨ d = (c.1, c.2 + 1)) ∧
        inBounds game d.1 d.2 ∧ game.board d.1 d.2 = value := by
  obtain ⟨r, k⟩ := c
  obtain ⟨dr, dk⟩ := d
  simp only [inBounds] at h
  have e : bottom_cells game value (r, k) =
      (if k > 0 then markCell game value r (k - 1) else []) ++
      (if r < game.height - 1 then markCell game value (r + 1) k else []) ++
      (if r < game.height - 1 ∧ k < game.width - 1 then
        markCell game value (r + 1) (k + 1) else []) ++
      (if k < game.width - 1 then markCell game value r (k + 1) else []) := by
    unfold bottom_cells
    by_cases c1 : r < game.height - 1 <;> by_cases c2 : k < game.width - 1 <;> simp [c1, c2]
  rw [e]
  simp only [List.mem_append, mem_guarded, inBounds, Prod.mk.injEq]
  by_cases hB : game.board dr dk = value
  · simp only [hB, and_true]; omega
  · simp only [hB, and_false, or_false]

theorem mem_left_cells (game : Game) (value : Char) (c d : Cell)
    (h : inBounds game c.1 c.2) :
    d ∈ left_cells game value c ↔
      (d = (c.1, c.2 - 1) ∨ d = (c.1 - 1, c.2 - 1) ∨ d = (c.1 + 1, c.2)) ∧
        inBounds game d.1 d.2 ∧ game.board d.1 d.2 = value := by
  obtain ⟨r, k⟩ := c
  obtain ⟨dr, dk⟩ := d
  simp only [inBounds] at h
  simp only [left_cells, List.mem_append, mem_guarded, inBounds, Prod.mk.injEq]
  by_cases hB : game.board dr dk = value
  · simp only [hB, and_true]; omega
  · simp only [hB, and_false, or_false]

theorem mem_right_cells (game : Game) (value : Char) (c d : Cell)
    (h : inBounds game c.1 c.2) :
    d ∈ right_cells game value c ↔
      (d = (c.1, c.2 + 1) ∨ d = (c.1 - 1, c.2) ∨ d = (c.1 + 1, c.2 + 1)) ∧
        inBounds game d.1 d.2 ∧ game.board d.1 d.2 = value := by
  obtain ⟨r, k⟩ := c
  obtain ⟨dr, dk⟩ := d
  simp only [inBounds] at h
  simp only [right_cells, List.mem_append, mem_guarded, inBounds, Prod.mk.injEq]
  by_cases hB : game.board dr dk = value
  · simp only [hB, and_true]; omega
  · simp only [hB, and_false, or_false]

/-! ## The loop on stacks computes the loop on frontiers -/

theorem Front.push_stk_mem (M : Int) (F : Front) (c d : Cell)
    (h : d ∈ (F.push M c).stk) : d = c ∨ d ∈ F.stk := by
  unfold Front.push at h
  split_ifs at h
  · exact Or.inr h
  · exact Or.inr h
  · simpa using h

theorem foldl_push_stk_mem (M : Int) (cells : List Cell) (F : Front) (d : Cell)
    (h : d ∈ (cells.foldl (Front.push M) F).stk) : d ∈ cells ∨ d ∈ F.stk := by
  induction cells generalizing F with
  | nil => exact Or.inr h
  | cons c cells ih =>
    rcases ih (F.push M c) h with h' | h'
    · exact Or.inl (List.mem_cons_of_mem _ h')
    · rcases Front.push_stk_mem M F c d h' with h'' | h''
      · exact Or.inl (h'' ▸ List.mem_cons_self _ _)
      · exact Or.inr h''

theorem searchLoop_front (game : Game) (M : Int) (test : Int → Int → Result Bool)
    (add : Stack → Int → Int → Result Stack) (row0 column0 : Int)
    (edge : Cell → Bool) (nbrs : Cell → List Cell)
    (htest : ∀ r c, inBounds game r c → test r c = .ok (edge (r, c)))
    (hadd : ∀ s r c, inBounds game r c → add s r c = .ok (pushAll s (nbrs (r, c))))
    (hnb : ∀ c d, inBounds game c.1 c.2 → d ∈ nbrs c → inBounds game d.1 d.2) :
    ∀ (fuel : Nat) (s : Stack) (vis : List Cell), s.WF → s.maxSize = M →
      (∀ c ∈ s.front.stk, inBounds game c.1 c.2) →
      match frontLoop M edge nbrs fuel s.front vis with
      | none => searchLoop test add row0 column0 fuel s vis = .outOfFuel
      | some (b, F, vis') => ∃ s', searchLoop test add row0 column0 fuel s vis = .ok (b, s', vis') ∧
          s'.front = F ∧ s'.WF ∧ s'.maxSize = M := by
  intro fuel
  induction fuel with
  | zero =>
    intro s vis hwf hM hin
    by_cases hpos : s.count > 0
    · obtain ⟨h1, -, -, -⟩ := pop_front s row0 column0 hwf hpos
      have hf : s.front = ⟨((pop s row0 column0).2.1, (pop s row0 column0).2.2) ::
          (pop s row0 column0).1.front.stk, s.front.log⟩ := by
        rw [← h1]
      rw [hf, frontLoop]
      rw [searchLoop, if_pos hpos]
    · have h0 : s.count.toNat = 0 := by omega
      have hf : s.front = ⟨[], s.front.log⟩ := by
        simp only [Stack.front, Stack.cells, h0, entries]
      rw [hf, frontLoop]
      refine ⟨s, ?_, hf, hwf, hM⟩
      rw [searchLoop, if_neg hpos]; rfl
  | succ fuel ih =>
    intro s vis hwf hM hin
    by_cases hpos : s.count > 0
    · obtain ⟨h1, h2, h3, h4⟩ := pop_front s row0 column0 hwf hpos
      rcases hp : pop s row0 column0 with ⟨s1, row, column⟩
      rw [hp] at h1 h2 h3 h4
      simp only at h1 h2 h3 h4
      have hf : s.front = ⟨(row, column) :: s1.front.stk, s1.front.log⟩ := by
        rw [← h1, h2]
      have hrc : inBounds game row column := hin (row, column) (by rw [h1]; exact List.mem_cons_self _ _)
      rw [hf, frontLoop, searchLoop, if_pos hpos]
      simp only [hp, htest row column hrc, ok_bind]
      by_cases he : edge (row, column) = true
      · simp only [he, if_true, pure_eq_ok]
        exact ⟨s1, rfl, rfl, h3, h4.trans hM⟩
      · simp only [he, if_false, hadd s1 row column hrc, ok_bind, Bool.false_eq_true]
        obtain ⟨p1, p2, p3⟩ := pushAll_front (nbrs (row, column)) s1 h3
        have := ih (pushAll s1 (nbrs (row, column))) ((row, column) :: vis) p2
          (p3.trans (h4.trans hM)) (by
            intro c hc
            rw [p1] at hc
            rcases foldl_push_stk_mem _ _ _ _ hc with h' | h'
            · exact hnb _ _ hrc h'
            · exact hin c (by rw [h1]; exact List.mem_cons_of_mem _ h'))
        rw [p1, h4.trans hM] at this
        exact this
    · have h0 : s.count.toNat = 0 := by omega
      have hf : s.front = ⟨[], s.front.log⟩ := by
        simp only [Stack.front, Stack.cells, h0, entries]
      rw [hf, frontLoop]
      refine ⟨s, ?_, hf, hwf, hM⟩
      rw [searchLoop, if_neg hpos]; rfl

/-! ## The four searches are instances of the shared loop -/

theorem check_top_eq (game : Game) (value : Char) :
    ∀ (fuel : Nat) (s : Stack) (vis : List Cell),
      check_top fuel s value game =
        (searchLoop (fun r c => atEdge game value r 0 r c)
          (fun s r c => add_top_cells_to_stack s r c game value) (-1) (-1) fuel s vis).map
          (fun x => (x.1, x.2.1)) := by
  intro fuel
  induction fuel with
  | zero =>
    intro s vis
    rw [check_top, searchLoop]
    by_cases hpos : s.count > 0
    · simp only [if_pos hpos]; rfl
    · simp only [if_neg hpos]; rfl
  | succ fuel ih =>
    intro s vis
    rw [check_top, searchLoop]
    by_cases hpos : s.count > 0
    · simp only [if_pos hpos]
      rcases pop s (-1) (-1) with ⟨s1, r, c⟩
      simp only
      cases atEdge game value r 0 r c with
      | ok b =>
        cases b with
        | true => rfl
        | false =>
          simp only [ok_bind, Bool.false_eq_true, if_false]
          cases add_top_cells_to_stack s1 r c game value with
          | ok s2 => simp only [ok_bind]; exact ih s2 _
          | outOfBounds => rfl
          | divisionByZero => rfl
          | outOfFuel => rfl
      | outOfBounds => rfl
      | divisionByZero => rfl
      | outOfFuel => rfl
    · simp only [if_neg hpos]; rfl

theorem check_bottom_eq (game : Game) (value : Char) :
    ∀ (fuel : Nat) (s : Stack) (vis : List Cell),
      check_bottom fuel s value game =
        (searchLoop (fun r c => atEdge game value r (game.height - 1) r c)
          (fun s r c => add_bottom_cells_to_stack s r c game value) (-1) (-1) fuel s vis).map
          (fun x => (x.1, x.2.1)) := by
  intro fuel
  induction fuel with
  | zero =>
    intro s vis
    rw [check_bottom, searchLoop]
    by_cases hpos : s.count > 0
    · simp only [if_pos hpos]; rfl
    · simp only [if_neg hpos]; rfl
  | succ fuel ih =>
    intro s vis
    rw [check_bottom, searchLoop]
    by_cases hpos : s.count > 0
    · simp only [if_pos hpos]
      rcases pop s (-1) (-1) with ⟨s1, r, c⟩
      simp only
      cases atEdge game value r (game.height - 1) r c with
      | ok b =>
        cases b with
        | true => rfl
        | false =>
          simp only [ok_bind, Bool.false_eq_true, if_false]
          cases add_bottom_cells_to_stack s1 r c game value with
          | ok s2 => simp only [ok_bind]; exact ih s2 _
          | outOfBounds => rfl
          | divisionByZero => rfl
          | outOfFuel => rfl
      | outOfBounds => rfl
      | divisionByZero => rfl
      | outOfFuel => rfl
    · simp only [if_neg hpos]; rfl

theorem check_left_eq (game : Game) (value : Char) :
    ∀ (fuel : Nat) (s : Stack) (vis : List Cell),
      check_left fuel s value game =
        (searchLoop (fun r c => atEdge game value c 0 r c)
          (fun s r c => add_left_cells_to_stack s r c game value) (-1) (-1) fuel s vis).map
          (fun x => (x.1, x.2.1)) := by
  intro fuel
  induction fuel with
  | zero =>
    intro s vis
    rw [check_left, searchLoop]
    by_cases hpos : s.count > 0
    · simp only [if_pos hpos]; rfl
    · simp only [if_neg hpos]; rfl
  | succ fuel ih =>
    intro s vis
    rw [check_left, searchLoop]
    by_cases hpos : s.count > 0
    · simp only [if_pos hpos]
      rcases pop s (-1) (-1) with ⟨s1, r, c⟩
      simp only
      cases atEdge game value c 0 r c with
      | ok b =>
        cases b with
        | true => rfl
        | false =>
          simp only [ok_bind, Bool.false_eq_true, if_false]
          cases add_left_cells_to_stack s1 r c game value with
          | ok s2 => simp only [ok_bind]; exact ih s2 _
          | outOfBounds => rfl
          | divisionByZero => rfl
          | outOfFuel => rfl
      | outOfBounds => rfl
      | divisionByZero => rfl
      | outOfFuel => rfl
    · simp only [if_neg hpos]; rfl

theorem check_right_eq (game : Game) (value : Char) :
    ∀ (fuel : Nat) (s : Stack) (vis : List Cell),
      check_right fuel s value game =
        (searchLoop (fun r c => atEdge game value c (game.width - 1) r c)
          (fun s r c => add_right_cells_to_stack s r c game value) (-1) 1 fuel s vis).map
          (fun x => (x.1, x.2.1)) := by
  intro fuel
  induction fuel with
  | zero =>
    intro s vis
    rw [check_right, searchLoop]
    by_cases hpos : s.count > 0
    · simp only [if_pos hpos]; rfl
    · simp only [if_neg hpos]; rfl
  | succ fuel ih =>
    intro s vis
    rw [check_right, searchLoop]
    by_cases hpos : s.count > 0
    · simp only [if_pos hpos]
      rcases pop s (-1) 1 with ⟨s1, r, c⟩
      simp only
      cases atEdge game value c (game.width - 1) r c with
      | ok b =>
        cases b with
        | true => rfl
        | false =>
          simp only [ok_bind, Bool.false_eq_true, if_false]
          cases add_right_cells_to_stack s1 r c game value with
          | ok s2 => simp only [ok_bind]; exact ih s2 _
          | outOfBounds => rfl
          | divisionByZero => rfl
          | outOfFuel => rfl
      | outOfBounds => rfl
      | divisionByZero => rfl
      | outOfFuel => rfl
    · simp only [if_neg hpos]; rfl

/-! ## Invariants of the frontier loop -/

theorem Grows.refl (F : Front) : Grows F F :=
  ⟨fun _ h => h, fun _ h => h, fun _ h => Or.inl h, fun _ h => Or.inl h, rfl⟩

theorem Grows.trans {F G K : Front} (a : Grows F G) (b : Grows G K) : Grows F K where
  log_mono c h := b.log_mono c (a.log_mono c h)
  stk_mono c h := b.stk_mono c (a.stk_mono c h)
  stk_new c h := by
    rcases b.stk_new c h with h' | ⟨h1, h2⟩
    · rcases a.stk_new c h' with h'' | ⟨h3, h4⟩
      · exact Or.inl h''
      · exact Or.inr ⟨h3, b.log_mono c h4⟩
    · exact Or.inr ⟨fun hc => h1 (a.log_mono c hc), h2⟩
  log_new c h := by
    rcases b.log_new c h with h' | h'
    · rcases a.log_new c h' with h'' | h''
      · exact Or.inl h''
      · exact Or.inr (b.stk_mono c h'')
    · exact Or.inr h'
  gap := by have := a.gap; have := b.gap; omega

theorem Front.push_inv (M : Int) (inB : Cell → Prop)
    (hcard : ∀ l : List Cell, l.Nodup → (∀ c ∈ l, inB c) → (l.length : Int) ≤ M)
    (F : Front) (c : Cell) (hF : FrontInv inB F) (hc : inB c) :
    F.push M c = (if c ∈ F.log then F else ⟨c :: F.stk, c :: F.log⟩) ∧
      FrontInv inB (F.push M c) ∧ Grows F (F.push M c) ∧ c ∈ (F.push M c).log := by
  by_cases hm : c ∈ F.log
  · have e : F.push M c = F := by
      unfold Front.push; split_ifs <;> rfl
    rw [e, if_pos hm]
    exact ⟨rfl, hF, Grows.refl F, hm⟩
  · have hnd : (c :: F.log).Nodup := List.nodup_cons.mpr ⟨hm, hF.nodupLog⟩
    have hle := hcard (c :: F.log) hnd (by
      intro x hx
      rcases List.mem_cons.mp hx with rfl | hx
      · exact hc
      · exact hF.inb x hx)
    have hlen := hF.len
    have hne : ¬ ((F.stk.length : Int) = M) := by
      simp only [List.length_cons] at hle
      push_cast at hle
      omega
    have e : F.push M c = ⟨c :: F.stk, c :: F.log⟩ := by
      unfold Front.push; rw [if_neg hne, if_neg hm]
    rw [e, if_neg hm]
    refine ⟨rfl, ⟨?_, hnd, ?_, ?_, ?_⟩, ⟨?_, ?_, ?_, ?_, ?_⟩, List.mem_cons_self _ _⟩
    · intro x hx
      rcases List.mem_cons.mp hx with rfl | hx
      · exact List.mem_cons_self _ _
      · exact List.mem_cons_of_mem _ (hF.sub x hx)
    · exact List.nodup_cons.mpr ⟨fun h => hm (hF.sub c h), hF.nodupStk⟩
    · intro x hx
      rcases List.mem_cons.mp hx with rfl | hx
      · exact hc
      · exact hF.inb x hx
    · simp only [List.length_cons]; omega
    · exact fun x hx => List.mem_cons_of_mem _ hx
    · exact fun x hx => List.mem_cons_of_mem _ hx
    · intro x hx
      rcases List.mem_cons.mp hx with rfl | hx
      · exact Or.inr ⟨hm, List.mem_cons_self _ _⟩
      · exact Or.inl hx
    · intro x hx
      rcases List.mem_cons.mp hx with rfl | hx
      · exact Or.inr (List.mem_cons_self _ _)
      · exact Or.inl hx
    · simp only [List.length_cons]; omega

theorem foldl_push_inv (M : Int) (inB : Cell → Prop)
    (hcard : ∀ l : List Cell, l.Nodup → (∀ c ∈ l, inB c) → (l.length : Int) ≤ M)
    (cells : List Cell) (F : Front) (hF : FrontInv inB F) (hc : ∀ c ∈ cells, inB c) :
    FrontInv inB (cells.foldl (Front.push M) F) ∧ Grows F (cells.foldl (Front.push M) F) ∧
      ∀ c ∈ cells, c ∈ (cells.foldl (Front.push M) F).log := by
  induction cells generalizing F with
  | nil => exact ⟨hF, Grows.refl F, fun _ h => absurd h (List.not_mem_nil _)⟩
  | cons c cells ih =>
    obtain ⟨-, h2, h3, h4⟩ := Front.push_inv M inB hcard F c hF (hc c (List.mem_cons_self _ _))
    obtain ⟨i1, i2, i3⟩ := ih (F.push M c) h2 (fun x hx => hc x (List.mem_cons_of_mem _ hx))
    refine ⟨i1, h3.trans i2, ?_⟩
    intro x hx
    rcases List.mem_cons.mp hx with rfl | hx
    · exact i2.log_mono x h4
    · exact i3 x hx

theorem FrontInv.tail {inB : Cell → Prop} {c : Cell} {stk log : List Cell}
    (h : FrontInv inB ⟨c :: stk, log⟩) : FrontInv inB ⟨stk, log⟩ where
  sub x hx := h.sub x (List.mem_cons_of_mem _ hx)
  nodupLog := h.nodupLog
  nodupStk := (List.nodup_cons.mp h.nodupStk).2
  inb := h.inb
  len := by
    have := h.len
    simp only [List.length_cons] at this
    show stk.length ≤ log.length
    omega

/-- Termination: with the invariant, `M - |log| + |stk|` iterations always suffice. -/
theorem frontLoop_terminates (M : Int) (inB : Cell → Prop) (edge : Cell → Bool)
    (nbrs : Cell → List Cell)
    (hcard : ∀ l : List Cell, l.Nodup → (∀ c ∈ l, inB c) → (l.length : Int) ≤ M)
    (hnb : ∀ c d, inB c → d ∈ nbrs c → inB d) :
    ∀ (fuel : Nat) (F : Front) (vis : List Cell), FrontInv inB F →
      (M.toNat - F.log.length) + F.stk.length ≤ fuel →
      ∃ r, frontLoop M edge nbrs fuel F vis = some r := by
  intro fuel
  induction fuel with
  | zero =>
    intro F vis hF hfuel
    obtain ⟨stk, log⟩ := F
    cases stk with
    | nil => exact ⟨_, by rw [frontLoop]⟩
    | cons c stk => simp only [List.length_cons] at hfuel; omega
  | succ fuel ih =>
    intro F vis hF hfuel
    obtain ⟨stk, log⟩ := F
    cases stk with
    | nil => exact ⟨_, by rw [frontLoop]⟩
    | cons c stk =>
      rw [frontLoop]
      by_cases he : edge c = true
      · exact ⟨_, by rw [if_pos he]⟩
      · rw [if_neg he]
        have hc : inB c := hF.inb c (hF.sub c (List.mem_cons_self _ _))
        obtain ⟨i1, i2, -⟩ := foldl_push_inv M inB hcard (nbrs c) ⟨stk, log⟩ hF.tail
          (fun d hd => hnb c d hc hd)
        apply ih _ _ i1
        have hg := i2.gap
        have hl := hcard _ i1.nodupLog i1.inb
        have hl0 := hcard _ hF.nodupLog hF.inb
        simp only [List.length_cons] at hfuel hg hl hl0 ⊢
        omega

/-- Soundness: a `true` answer comes from a cell satisfying the edge test that is
reachable from a pending cell; `P` is any property kept by taking neighbours. -/
theorem frontLoop_true (M : Int) (edge : Cell → Bool) (nbrs : Cell → List Cell)
    (P : Cell → Prop) (hP : ∀ c d, P c → d ∈ nbrs c → P d) :
    ∀ (fuel : Nat) (F : Front) (vis : List Cell) (F' : Front) (vis' : List Cell),
      (∀ c ∈ F.stk, P c) → frontLoop M edge nbrs fuel F vis = some (true, F', vis') →
      ∃ e, P e ∧ edge e = true := by
  intro fuel
  induction fuel with
  | zero =>
    intro F vis F' vis' hF h
    obtain ⟨stk, log⟩ := F
    cases stk with
    | nil => rw [frontLoop] at h; simp at h
    | cons c stk => rw [frontLoop] at h; simp at h
  | succ fuel ih =>
    intro F vis F' vis' hF h
    obtain ⟨stk, log⟩ := F
    cases stk with
    | nil => rw [frontLoop] at h; simp at h
    | cons c stk =>
      rw [frontLoop] at h
      by_cases he : edge c = true
      · exact ⟨c, hF c (List.mem_cons_self _ _), he⟩
      · rw [if_neg he] at h
        refine ih _ _ _ _ ?_ h
        intro x hx
        rcases foldl_push_stk_mem _ _ _ _ hx with h' | h'
        · exact hP c x (hF c (List.mem_cons_self _ _)) h'
        · exact hF x (List.mem_cons_of_mem _ h')

/-- Completeness: after a `false` answer the log is closed under neighbours and holds no
cell passing the edge test. -/
theorem frontLoop_false (M : Int) (inB : Cell → Prop) (edge : Cell → Bool)
    (nbrs : Cell → List Cell)
    (hcard : ∀ l : List Cell, l.Nodup → (∀ c ∈ l, inB c) → (l.length : Int) ≤ M)
    (hnb : ∀ c d, inB c → d ∈ nbrs c → inB d) :
    ∀ (fuel : Nat) (F : Front) (vis : List Cell) (F' : Front) (vis' : List Cell),
      FrontInv inB F → Expanded edge nbrs F →
      frontLoop M edge nbrs fuel F vis = some (false, F', vis') →
      (∀ c ∈ F.log, c ∈ F'.log) ∧
        ∀ c ∈ F'.log, edge c = false ∧ ∀ d ∈ nbrs c, d ∈ F'.log := by
  have base : ∀ (log : List Cell), Expanded edge nbrs ⟨[], log⟩ →
      ∀ c ∈ log, edge c = false ∧ ∀ d ∈ nbrs c, d ∈ log := by
    intro log hE c hc
    rcases hE c hc with h | h
    · exact absurd h (List.not_mem_nil _)
    · exact h
  intro fuel
  induction fuel with
  | zero =>
    intro F vis F' vis' hF hE h
    obtain ⟨stk, log⟩ := F
    cases stk with
    | nil =>
      rw [frontLoop] at h
      simp only [Option.some.injEq, Prod.mk.injEq, true_and] at h
      obtain ⟨rfl, -⟩ := h
      exact ⟨fun _ hc => hc, base log hE⟩
    | cons c stk => rw [frontLoop] at h; simp at h
  | succ fuel ih =>
    intro F vis F' vis' hF hE h
    obtain ⟨stk, log⟩ := F
    cases stk with
    | nil =>
      rw [frontLoop] at h
      simp only [Option.some.injEq, Prod.mk.injEq, true_and] at h
      obtain ⟨rfl, -⟩ := h
      exact ⟨fun _ hc => hc, base log hE⟩
    | cons c stk =>
      rw [frontLoop] at h
      by_cases he : edge c = true
      · rw [if_pos he] at h; simp at h
      · rw [if_neg he] at h
        have hc : inB c := hF.inb c (hF.sub c (List.mem_cons_self _ _))
        obtain ⟨i1, i2, i3⟩ := foldl_push_inv M inB hcard (nbrs c) ⟨stk, log⟩ hF.tail
          (fun d hd => hnb c d hc hd)
        have hE' : Expanded edge nbrs ((nbrs c).foldl (Front.push M) ⟨stk, log⟩) := by
          intro x hx
          rcases i2.log_new x hx with h1 | h1
          · rcases hE x h1 with h2 | ⟨h2, h3⟩
            · rcases List.mem_cons.mp h2 with rfl | h2
              · exact Or.inr ⟨by simpa using he, i3⟩
              · exact Or.inl (i2.stk_mono x h2)
            · exact Or.inr ⟨h2, fun d hd => i2.log_mono d (h3 d hd)⟩
          · exact Or.inl h1
        obtain ⟨j1, j2⟩ := ih _ _ _ _ i1 hE' h
        exact ⟨fun x hx => j1 x (i2.log_mono x hx), j2⟩

/-- The cells popped by the loop are pairwise distinct. -/
theorem frontLoop_pops_nodup (M : Int) (inB : Cell → Prop) (edge : Cell → Bool)
    (nbrs : Cell → List Cell)
    (hcard : ∀ l : List Cell, l.Nodup → (∀ c ∈ l, inB c) → (l.length : Int) ≤ M)
    (hnb : ∀ c d, inB c → d ∈ nbrs c → inB d) :
    ∀ (fuel : Nat) (F : Front) (vis : List Cell) (b : Bool) (F' : Front) (vis' : List Cell),
      FrontInv inB F → vis.Nodup → (∀ c ∈ vis, c ∈ F.log ∧ c ∉ F.stk) →
      frontLoop M edge nbrs fuel F vis = some (b, F', vis') → vis'.Nodup := by
  intro fuel
  induction fuel with
  | zero =>
    intro F vis b F' vis' hF hv hvis h
    obtain ⟨stk, log⟩ := F
    cases stk with
    | nil =>
      rw [frontLoop] at h
      simp only [Option.some.injEq, Prod.mk.injEq] at h
      obtain ⟨-, -, rfl⟩ := h
      exact hv
    | cons c stk => rw [frontLoop] at h; simp at h
  | succ fuel ih =>
    intro F vis b F' vis' hF hv hvis h
    obtain ⟨stk, log⟩ := F
    cases stk with
    | nil =>
      rw [frontLoop] at h
      simp only [Option.some.injEq, Prod.mk.injEq] at h
      obtain ⟨-, -, rfl⟩ := h
      exact hv
    | cons c stk =>
      rw [frontLoop] at h
      have hcv : c ∉ vis := fun hc => (hvis c hc).2 (List.mem_cons_self _ _)
      have hv1 : (c :: vis).Nodup := List.nodup_cons.mpr ⟨hcv, hv⟩
      by_cases he : edge c = true
      · rw [if_pos he] at h
        simp only [Option.some.injEq, Prod.mk.injEq] at h
        obtain ⟨-, -, rfl⟩ := h
        exact hv1
      · rw [if_neg he] at h
        have hc : inB c := hF.inb c (hF.sub c (List.mem_cons_self _ _))
        obtain ⟨i1, i2, -⟩ := foldl_push_inv M inB hcard (nbrs c) ⟨stk, log⟩ hF.tail
          (fun d hd => hnb c d hc hd)
        refine ih _ _ _ _ _ i1 hv1 ?_ h
        intro x hx
        have hxl : x ∈ log := by
          rcases List.mem_cons.mp hx with rfl | hx
          · exact hF.sub x (List.mem_cons_self _ _)
          · exact (hvis x hx).1
        have hxs : x ∉ stk := by
          rcases List.mem_cons.mp hx with rfl | hx
          · exact (List.nodup_cons.mp hF.nodupStk).1
          · exact fun h' => (hvis x hx).2 (List.mem_cons_of_mem _ h')
        refine ⟨i2.log_mono x hxl, fun h' => ?_⟩
        rcases i2.stk_new x h' with h1 | ⟨h1, -⟩
        · exact hxs h1
        · exact h1 hxl

/-! ## Board size bounds the log -/

theorem card_inBounds (game : Game) (hH : 0 ≤ game.height) (hW : 0 ≤ game.width)
    (l : List Cell) (hnd : l.Nodup) (hin : ∀ c ∈ l, inBounds game c.1 c.2) :
    (l.length : Int) ≤ game.height * game.width := by
  have hsub : l.toFinset ⊆ (Finset.Ico 0 game.height) ×ˢ (Finset.Ico 0 game.width) := by
    intro c hc
    have := hin c (List.mem_toFinset.mp hc)
    simp only [Finset.mem_product, Finset.mem_Ico]
    exact ⟨⟨this.1, this.2.1⟩, this.2.2.1, this.2.2.2⟩
  have hcard := Finset.card_le_card hsub
  rw [List.toFinset_card_of_nodup hnd, Finset.card_product, Int.card_Ico, Int.card_Ico] at hcard
  have h1 : ((game.height - 0).toNat : Int) = game.height := by omega
  have h2 : ((game.width - 0).toNat : Int) = game.width := by omega
  calc (l.length : Int) ≤ (((game.height - 0).toNat * (game.width - 0).toNat : Nat) : Int) := by
        exact_mod_cast hcard
    _ = game.height * game.width := by push_cast; rw [h1, h2]

theorem size_pos (game : Game) {row column : Int} (h : inBounds game row column) :
    0 < game.height ∧ 0 < game.width ∧ 0 < game.height * game.width := by
  obtain ⟨h1, h2, h3, h4⟩ := h
  have hH : 0 < game.height := by omega
  have hW : 0 < game.width := by omega
  exact ⟨hH, hW, Int.mul_pos hH hW⟩

/-! ## What a search from a single seed computes -/

theorem searchLoop_spec (game : Game) (test : Int → Int → Result Bool)
    (add : Stack → Int → Int → Result Stack) (row0 column0 : Int)
    (edge : Cell → Bool) (nbrs : Cell → List Cell)
    (htest : ∀ r c, inBounds game r c → test r c = .ok (edge (r, c)))
    (hadd : ∀ s r c, inBounds game r c → add s r c = .ok (pushAll s (nbrs (r, c))))
    (hnb : ∀ c d, inBounds game c.1 c.2 → d ∈ nbrs c → inBounds game d.1 d.2)
    (seed : Cell) (hseed : inBounds game seed.1 seed.2) (s : Stack) (hwf : s.WF)
    (hM : s.maxSize = game.height * game.width) (hfront : s.front = ⟨[seed], [seed]⟩) :
    (∀ fuel, (game.height * game.width).toNat ≤ fuel →
        ∃ r, searchLoop test add row0 column0 fuel s [] = .ok r) ∧
      ∀ fuel b s' vis', searchLoop test add row0 column0 fuel s [] = .ok (b, s', vis') →
        (b = true ↔ ∃ e, Reaches nbrs seed e ∧ edge e = true) ∧ s'.WF ∧
          s'.maxSize = game.height * game.width ∧ vis'.Nodup := by
  obtain ⟨hH, hW, hHW⟩ := size_pos game hseed
  have hcard := card_inBounds game hH.le hW.le
  have hstk : ∀ c ∈ s.front.stk, inBounds game c.1 c.2 := by
    intro c hc
    rw [hfront] at hc
    rw [List.mem_singleton.mp hc]; exact hseed
  have hinv : FrontInv (fun c => inBounds game c.1 c.2) ⟨[seed], [seed]⟩ :=
    ⟨fun c hc => hc, List.nodup_singleton _, List.nodup_singleton _,
      fun c hc => by rw [List.mem_singleton.mp hc]; exact hseed, le_rfl⟩
  have href := fun fuel => searchLoop_front game _ test add row0 column0 edge nbrs htest hadd hnb
    fuel s [] hwf hM hstk
  constructor
  · intro fuel hfuel
    obtain ⟨r, hr⟩ := frontLoop_terminates (game.height * game.width) _ edge nbrs hcard hnb fuel
      ⟨[seed], [seed]⟩ [] hinv (by simp only [List.length_singleton]; omega)
    have := href fuel
    rw [hfront, hr] at this
    obtain ⟨s', h1, -⟩ := this
    exact ⟨_, h1⟩
  · intro fuel b s' vis' hrun
    have := href fuel
    rw [hfront] at this
    rcases hfl : frontLoop (game.height * game.width) edge nbrs fuel ⟨[seed], [seed]⟩ []
      with _ | ⟨b1, F, vis1⟩
    · rw [hfl] at this
      simp only at this
      rw [hrun] at this
      exact absurd this (by simp)
    · rw [hfl] at this
      obtain ⟨s1, h1, h2, h3, h4⟩ := this
      rw [hrun] at h1
      simp only [Result.ok.injEq, Prod.mk.injEq] at h1
      obtain ⟨rfl, rfl, rfl⟩ := h1
      refine ⟨?_, h3, h4, ?_⟩
      · constructor
        · rintro rfl
          exact frontLoop_true _ edge nbrs (Reaches nbrs seed)
            (fun c d hc hd => Relation.ReflTransGen.tail hc hd) fuel _ _ _ _
            (fun c hc => by rw [List.mem_singleton.mp hc]; exact Relation.ReflTransGen.refl) hfl
        · rintro ⟨e, hreach, hedge⟩
          cases b with
          | true => rfl
          | false =>
            exfalso
            obtain ⟨j1, j2⟩ := frontLoop_false _ _ edge nbrs hcard hnb fuel _ _ _ _ hinv
              (fun c hc => Or.inl hc) hfl
            have hall : ∀ x, Reaches nbrs seed x → x ∈ F.log := by
              intro x hx
              induction hx with
              | refl => exact j1 seed (List.mem_singleton_self _)
              | tail _ hstep ih => exact (j2 _ ih).2 _ hstep
            rw [(j2 e (hall e hreach)).1] at hedge
            exact absurd hedge (by simp)
      · exact frontLoop_pops_nodup _ _ edge nbrs hcard hnb fuel _ _ _ _ _ hinv List.nodup_nil
          (fun c hc => absurd hc (List.not_mem_nil _)) hfl

theorem fresh_seed (game : Game) (row column : Int) (h : 0 < game.height * game.width) :
    (push (initialize_stack game) row column).WF ∧
      (push (initialize_stack game) row column).maxSize = game.height * game.width ∧
      (push (initialize_stack game) row column).front = ⟨[(row, column)], [(row, column)]⟩ := by
  have hwf : (initialize_stack game).WF := ⟨le_rfl, le_rfl⟩
  obtain ⟨h1, h2, h3⟩ := push_front (initialize_stack game) row column hwf
  refine ⟨h2, h3, ?_⟩
  rw [h1]
  have hne : ¬ ((0 : Int) = game.height * game.width) := by omega
  simp [Stack.front, Stack.cells, Stack.logged, initialize_stack, entries, Front.push, hne]

theorem reseed_seed (game : Game) (s : Stack) (row column : Int)
    (hM : s.maxSize = game.height * game.width) (h : 0 < game.height * game.width) :
    (reseed s row column).WF ∧ (reseed s row column).maxSize = game.height * game.width ∧
      (reseed s row column).front = ⟨[(row, column)], [(row, column)]⟩ := by
  have hwf : ({ s with count := 0, logCount := 0 } : Stack).WF := ⟨le_rfl, le_rfl⟩
  obtain ⟨h1, h2, h3⟩ := push_front { s with count := 0, logCount := 0 } row column hwf
  refine ⟨h2, h3.trans hM, ?_⟩
  unfold reseed
  rw [h1]
  have hne : ¬ ((0 : Int) = s.maxSize) := by omega
  simp [Stack.front, Stack.cells, Stack.logged, entries, Front.push, hne]

/-- Specification of a `check_*` function that is an instance of the shared loop:
it answers when given `H * W` units of fuel, and its answer says whether a cell passing
the edge test can be reached from the seed through the pushed neighbours. -/
theorem check_spec (game : Game) (check : Nat → Stack → Result (Bool × Stack))
    (test : Int → Int → Result Bool)
    (add : Stack → Int → Int → Result Stack) (row0 column0 : Int)
    (edge : Cell → Bool) (nbrs : Cell → List Cell)
    (heq : ∀ fuel s, check fuel s =
      (searchLoop test add row0 column0 fuel s []).map (fun x => (x.1, x.2.1)))
    (htest : ∀ r c, inBounds game r c → test r c = .ok (edge (r, c)))
    (hadd : ∀ s r c, inBounds game r c → add s r c = .ok (pushAll s (nbrs (r, c))))
    (hnb : ∀ c d, inBounds game c.1 c.2 → d ∈ nbrs c → inBounds game d.1 d.2)
    (seed : Cell) (hseed : inBounds game seed.1 seed.2) (s : Stack) (hwf : s.WF)
    (hM : s.maxSize = game.height * game.width) (hfront : s.front = ⟨[seed], [seed]⟩) :
    (∀ fuel, (game.height * game.width).toNat ≤ fuel → ∃ r, check fuel s = .ok r) ∧
      ∀ fuel b s', check fuel s = .ok (b, s') →
        (b = true ↔ ∃ e, Reaches nbrs seed e ∧ edge e = true) ∧ s'.WF ∧
          s'.maxSize = game.height * game.width := by
  obtain ⟨h1, h2⟩ := searchLoop_spec game test add row0 column0 edge nbrs htest hadd hnb seed
    hseed s hwf hM hfront
  constructor
  · intro fuel hfuel
    obtain ⟨r, hr⟩ := h1 fuel hfuel
    exact ⟨_, by rw [heq, hr]; rfl⟩
  · intro fuel b s' hrun
    rw [heq] at hrun
    cases hsl : searchLoop test add row0 column0 fuel s [] with
    | ok r =>
      obtain ⟨b1, s1, vis1⟩ := r
      rw [hsl] at hrun
      simp only [map_ok, Result.ok.injEq, Prod.mk.injEq] at hrun
      obtain ⟨rfl, rfl⟩ := hrun
      obtain ⟨k1, k2, k3, -⟩ := h2 fuel _ _ _ hsl
      exact ⟨k1, k2, k3⟩
    | outOfBounds => rw [hsl] at hrun; exact absurd hrun (by simp [Result.map])
    | divisionByZero => rw [hsl] at hrun; exact absurd hrun (by simp [Result.map])
    | outOfFuel => rw [hsl] at hrun; exact absurd hrun (by simp [Result.map])

theorem check_top_spec (game : Game) (value : Char) (seed : Cell)
    (hseed : inBounds game seed.1 seed.2) (s : Stack) (hwf : s.WF)
    (hM : s.maxSize = game.height * game.width) (hfront : s.front = ⟨[seed], [seed]⟩) :
    (∀ fuel, (game.height * game.width).toNat ≤ fuel →
        ∃ r, check_top fuel s value game = .ok r) ∧
      ∀ fuel b s', check_top fuel s value game = .ok (b, s') →
        (b = true ↔ ∃ e, Reaches (top_cells game value) seed e ∧
          edgeCell game value Prod.fst 0 e = true) ∧ s'.WF ∧
          s'.maxSize = game.height * game.width :=
  check_spec game (fun fuel s => check_top fuel s value game) _ _ _ _ _ _
    (fun fuel s => check_top_eq game value fuel s [])
    (fun _ _ h => atEdge_eq game value Prod.fst 0 h)
    (fun s _ _ h => add_top_eq s game value h)
    (fun c d hc hd => ((mem_top_cells game value c d hc).mp hd).2.1) seed hseed s hwf hM hfront

theorem check_bottom_spec (game : Game) (value : Char) (seed : Cell)
    (hseed : inBounds game seed.1 seed.2) (s : Stack) (hwf : s.WF)
    (hM : s.maxSize = game.height * game.width) (hfront : s.front = ⟨[seed], [seed]⟩) :
    (∀ fuel, (game.height * game.width).toNat ≤ fuel →
        ∃ r, check_bottom fuel s value game = .ok r) ∧
      ∀ fuel b s', check_bottom fuel s value game = .ok (b, s') →
        (b = true ↔ ∃ e, Reaches (bottom_cells game value) seed e ∧
          edgeCell game value Prod.fst (game.height - 1) e = true) ∧ s'.WF ∧
          s'.maxSize = game.height * game.width :=
  check_spec game (fun fuel s => check_bottom fuel s value game) _ _ _ _ _ _
    (fun fuel s => check_bottom_eq game value fuel s [])
    (fun _ _ h => atEdge_eq game value Prod.fst (game.height - 1) h)
    (fun s _ _ h => add_bottom_eq s game value h)
    (fun c d hc hd => ((mem_bottom_cells game value c d hc).mp hd).2.1) seed hseed s hwf hM
    hfront

theorem check_left_spec (game : Game) (value : Char) (seed : Cell)
    (hseed : inBounds game seed.1 seed.2) (s : Stack) (hwf : s.WF)
    (hM : s.maxSize = game.height * game.width) (hfront : s.front = ⟨[seed], [seed]⟩) :
    (∀ fuel, (game.height * game.width).toNat ≤ fuel →
        ∃ r, check_left fuel s value game = .ok r) ∧
      ∀ fuel b s', check_left fuel s value game = .ok (b, s') →
        (b = true ↔ ∃ e, Reaches (left_cells game value) seed e ∧
          edgeCell game value Prod.snd 0 e = true) ∧ s'.WF ∧
          s'.maxSize = game.height * game.width :=
  check_spec game (fun fuel s => check_left fuel s value game) _ _ _ _ _ _
    (fun fuel s => check_left_eq game value fuel s [])
    (fun _ _ h => atEdge_eq game value Prod.snd 0 h)
    (fun s _ _ h => add_left_eq s game value h)
    (fun c d hc hd => ((mem_left_cells game value c d hc).mp hd).2.1) seed hseed s hwf hM hfront

theorem check_right_spec (game : Game) (value : Char) (seed : Cell)
    (hseed : inBounds game seed.1 seed.2) (s : Stack) (hwf : s.WF)
    (hM : s.maxSize = game.height * game.width) (hfront : s.front = ⟨[seed], [seed]⟩) :
    (∀ fuel, (game.height * game.width).toNat ≤ fuel →
        ∃ r, check_right fuel s value game = .ok r) ∧
      ∀ fuel b s', check_right fuel s value game = .ok (b, s') →
        (b = true ↔ ∃ e, Reaches (right_cells game value) seed e ∧
          edgeCell game value Prod.snd (game.width - 1) e = true) ∧ s'.WF ∧
          s'.maxSize = game.height * game.width :=
  check_spec game (fun fuel s => check_right fuel s value game) _ _ _ _ _ _
    (fun fuel s => check_right_eq game value fuel s [])
    (fun _ _ h => atEdge_eq game value Prod.snd (game.width - 1) h)
    (fun s _ _ h => add_right_eq s game value h)
    (fun c d hc hd => ((mem_right_cells game value c d hc).mp hd).2.1) seed hseed s hwf hM
    hfront

/-! ## The whole win check -/

theorem check_game_over_X (fuel : Nat) (row column : Int) (game : Game) :
    check_game_over fuel row column 'X' game =
      (check_top fuel (push (initialize_stack game) row column) 'X' game).bind fun r1 =>
        if r1.1 then
          (check_bottom fuel (reseed r1.2 row column) 'X' game).bind fun r2 =>
            if r2.1 then .ok (true, { game with winner := 'X' }) else .ok (false, game)
        else .ok (false, game) := by
  unfold check_game_over
  simp only [if_true]
  rfl

theorem check_game_over_O (fuel : Nat) (row column : Int) (value : Char) (game : Game)
    (hv : value ≠ 'X') :
    check_game_over fuel row column value game =
      (check_left fuel (push (initialize_stack game) row column) value game).bind fun r1 =>
        if r1.1 then
          (check_right fuel (reseed r1.2 row column) value game).bind fun r2 =>
            if r2.1 then .ok (true, { game with winner := value }) else .ok (false, game)
        else .ok (false, game) := by
  unfold check_game_over
  simp only [if_neg hv]
  rfl

/-- Win check for 'X': it answers with `H * W` units of fuel, and the answer is the
conjunction of the two reachability facts; the winner is set exactly on `true`. -/
theorem check_game_over_X_spec (game : Game) (row column : Int)
    (hseed : inBounds game row column) :
    (∀ fuel, (game.height * game.width).toNat ≤ fuel →
        ∃ r, check_game_over fuel row column 'X' game = .ok r) ∧
      ∀ fuel b g', check_game_over fuel row column 'X' game = .ok (b, g') →
        (b = true ↔
          (∃ e, Reaches (top_cells game 'X') (row, column) e ∧
            edgeCell game 'X' Prod.fst 0 e = true) ∧
          (∃ e, Reaches (bottom_cells game 'X') (row, column) e ∧
            edgeCell game 'X' Prod.fst (game.height - 1) e = true)) ∧
        g' = if b then { game with winner := 'X' } else game := by
  obtain ⟨-, -, hHW⟩ := size_pos game hseed
  obtain ⟨f1, f2, f3⟩ := fresh_seed game row column hHW
  obtain ⟨t1, t2⟩ := check_top_spec game 'X' (row, column) hseed _ f1 f2 f3
  constructor
  · intro fuel hfuel
    rw [check_game_over_X]
    obtain ⟨⟨b1, s1⟩, h1⟩ := t1 fuel hfuel
    obtain ⟨-, k2, k3⟩ := t2 fuel b1 s1 h1
    rw [h1]
    cases b1 with
    | false => exact ⟨_, rfl⟩
    | true =>
      obtain ⟨r1, r2, r3⟩ := reseed_seed game s1 row column k3 hHW
      obtain ⟨u1, -⟩ := check_bottom_spec game 'X' (row, column) hseed _ r1 r2 r3
      obtain ⟨⟨b2, s2⟩, h2⟩ := u1 fuel hfuel
      simp only [Result.bind, if_true, h2]
      cases b2 with
      | false => exact ⟨_, rfl⟩
      | true => exact ⟨_, rfl⟩
  · intro fuel b g' hrun
    rw [check_game_over_X] at hrun
    cases h1 : check_top fuel (push (initialize_stack game) row column) 'X' game with
    | ok r =>
      obtain ⟨b1, s1⟩ := r
      obtain ⟨k1, k2, k3⟩ := t2 fuel b1 s1 h1
      rw [h1] at hrun
      cases b1 with
      | false =>
        simp only [Result.bind, Bool.false_eq_true, if_false, Result.ok.injEq,
          Prod.mk.injEq] at hrun
        obtain ⟨rfl, rfl⟩ := hrun
        refine ⟨⟨fun h => absurd h (by simp), fun h => ?_⟩, by simp⟩
        exact absurd (k1.mpr h.1) (by simp)
      | true =>
        obtain ⟨r1, r2, r3⟩ := reseed_seed game s1 row column k3 hHW
        obtain ⟨-, u2⟩ := check_bottom_spec game 'X' (row, column) hseed _ r1 r2 r3
        simp only [Result.bind, if_true] at hrun
        cases h2 : check_bottom fuel (reseed s1 row column) 'X' game with
        | ok r' =>
          obtain ⟨b2, s2⟩ := r'
          obtain ⟨m1, -, -⟩ := u2 fuel b2 s2 h2
          rw [h2] at hrun
          cases b2 with
          | false =>
            simp only [Bool.false_eq_true, if_false, Result.ok.injEq, Prod.mk.injEq] at hrun
            obtain ⟨rfl, rfl⟩ := hrun
            refine ⟨⟨fun h => absurd h (by simp), fun h => ?_⟩, by simp⟩
            exact absurd (m1.mpr h.2) (by simp)
          | true =>
            simp only [if_true, Result.ok.injEq, Prod.mk.injEq] at hrun
            obtain ⟨rfl, rfl⟩ := hrun
            exact ⟨⟨fun _ => ⟨k1.mp rfl, m1.mp rfl⟩, fun _ => rfl⟩, by simp⟩
        | outOfBounds => rw [h2] at hrun; exact absurd hrun (by simp)
        | divisionByZero => rw [h2] at hrun; exact absurd hrun (by simp)
        | outOfFuel => rw [h2] at hrun; exact absurd hrun (by simp)
    | outOfBounds => rw [h1] at hrun; exact absurd hrun (by simp [Result.bind])
    | divisionByZero => rw [h1] at hrun; exact absurd hrun (by simp [Result.bind])
    | outOfFuel => rw [h1] at hrun; exact absurd hrun (by simp [Result.bind])

/-- Win check for any mark other than 'X': it answers with `H * W` units of fuel, and the answer is the
conjunction of the two reachability facts; the winner is set exactly on `true`. -/
theorem check_game_over_O_spec (game : Game) (row column : Int) (value : Char)
    (hv : value ≠ 'X') (hseed : inBounds game row column) :
    (∀ fuel, (game.height * game.width).toNat ≤ fuel →
        ∃ r, check_game_over fuel row column value game = .ok r) ∧
      ∀ fuel b g', check_game_over fuel row column value game = .ok (b, g') →
        (b = true ↔
          (∃ e, Reaches (left_cells game value) (row, column) e ∧
            edgeCell game value Prod.snd 0 e = true) ∧
          (∃ e, Reaches (right_cells game value) (row, column) e ∧
            edgeCell game value Prod.snd (game.width - 1) e = true)) ∧
        g' = if b then { game with winner := value } else game := by
  obtain ⟨-, -, hHW⟩ := size_pos game hseed
  obtain ⟨f1, f2, f3⟩ := fresh_seed game row column hHW
  obtain ⟨t1, t2⟩ := check_left_spec game value (row, column) hseed _ f1 f2 f3
  constructor
  · intro fuel hfuel
    rw [check_game_over_O _ _ _ _ _ hv]
    obtain ⟨⟨b1, s1⟩, h1⟩ := t1 fuel hfuel
    obtain ⟨-, k2, k3⟩ := t2 fuel b1 s1 h1
    rw [h1]
    cases b1 with
    | false => exact ⟨_, rfl⟩
    | true =>
      obtain ⟨r1, r2, r3⟩ := reseed_seed game s1 row column k3 hHW
      obtain ⟨u1, -⟩ := check_right_spec game value (row, column) hseed _ r1 r2 r3
      obtain ⟨⟨b2, s2⟩, h2⟩ := u1 fuel hfuel
      simp only [Result.bind, if_true, h2]
      cases b2 with
      | false => exact ⟨_, rfl⟩
      | true => exact ⟨_, rfl⟩
  · intro fuel b g' hrun
    rw [check_game_over_O _ _ _ _ _ hv] at hrun
    cases h1 : check_left fuel (push (initialize_stack game) row column) value game with
    | ok r =>
      obtain ⟨b1, s1⟩ := r
      obtain ⟨k1, k2, k3⟩ := t2 fuel b1 s1 h1
      rw [h1] at hrun
      cases b1 with
      | false =>
        simp only [Result.bind, Bool.false_eq_true, if_false, Result.ok.injEq,
          Prod.mk.injEq] at hrun
        obtain ⟨rfl, rfl⟩ := hrun
        refine ⟨⟨fun h => absurd h (by simp), fun h => ?_⟩, by simp⟩
        exact absurd (k1.mpr h.1) (by simp)
      | true =>
        obtain ⟨r1, r2, r3⟩ := reseed_seed game s1 row column k3 hHW
        obtain ⟨-, u2⟩ := check_right_spec game value (row, column) hseed _ r1 r2 r3
        simp only [Result.bind, if_true] at hrun
        cases h2 : check_right fuel (reseed s1 row column) value game with
        | ok r' =>
          obtain ⟨b2, s2⟩ := r'
          obtain ⟨m1, -, -⟩ := u2 fuel b2 s2 h2
          rw [h2] at hrun
          cases b2 with
          | false =>
            simp only [Bool.false_eq_true, if_false, Result.ok.injEq, Prod.mk.injEq] at hrun
            obtain ⟨rfl, rfl⟩ := hrun
            refine ⟨⟨fun h => absurd h (by simp), fun h => ?_⟩, by simp⟩
            exact absurd (m1.mpr h.2) (by simp)
          | true =>
            simp only [if_true, Result.ok.injEq, Prod.mk.injEq] at hrun
            obtain ⟨rfl, rfl⟩ := hrun
            exact ⟨⟨fun _ => ⟨k1.mp rfl, m1.mp rfl⟩, fun _ => rfl⟩, by simp⟩
        | outOfBounds => rw [h2] at hrun; exact absurd hrun (by simp)
        | divisionByZero => rw [h2] at hrun; exact absurd hrun (by simp)
        | outOfFuel => rw [h2] at hrun; exact absurd hrun (by simp)
    | outOfBounds => rw [h1] at hrun; exact absurd hrun (by simp [Result.bind])
    | divisionByZero => rw [h1] at hrun; exact absurd hrun (by simp [Result.bind])
    | outOfFuel => rw [h1] at hrun; exact absurd hrun (by simp [Result.bind])

/-! ## Arithmetic of the auto-move generator -/

theorem wrap32_of_range {x : Int} (h1 : -2147483648 ≤ x) (h2 : x < 2147483648) :
    wrap32 x = x := by
  unfold wrap32
  omega

theorem auto_move_value (height width k a p b : Int) (hH : 1 ≤ height) (hW : 1 ≤ width)
    (hk : 0 ≤ k) (ha : 0 ≤ a) (hp : 0 < p) (hp' : p ≤ 1000213) (hb : 0 ≤ b) (hb' : b ≤ 81)
    (hka : k * a < 2147483648) :
    wrap32 (Int.tmod (wrap32 (k * a)) p + b) = k * a % p + b ∧
      cDiv (k * a % p + b) (if height ≥ width then height else width) =
        .ok ((k * a % p + b) / max height width) ∧
      cMod ((k * a % p + b) / max height width) height =
        .ok ((k * a % p + b) / max height width % height) ∧
      cMod (k * a % p + b) width = .ok ((k * a % p + b) % width) := by
  have hka0 : 0 ≤ k * a := Int.mul_nonneg hk ha
  have e1 : wrap32 (k * a) = k * a := wrap32_of_range (by omega) hka
  have e2 : Int.tmod (k * a) p = k * a % p := Int.tmod_eq_emod hka0 hp.le
  have h3 : 0 ≤ k * a % p := Int.emod_nonneg _ (by omega)
  have h4 : k * a % p < p := Int.emod_lt_of_pos _ hp
  have e3 : wrap32 (k * a % p + b) = k * a % p + b := wrap32_of_range (by omega) (by omega)
  have hm : (if height ≥ width then height else width) = max height width := by
    by_cases h : height ≥ width
    · rw [if_pos h, max_eq_left h]
    · rw [if_neg h, max_eq_right (by omega)]
  have hm0 : 0 < max height width := lt_of_lt_of_le (by omega) (le_max_left height width)
  have ht0 : 0 ≤ k * a % p + b := by omega
  have e4 : Int.tdiv (k * a % p + b) (max height width) = (k * a % p + b) / max height width :=
    Int.tdiv_eq_ediv ht0 hm0.le
  have hq0 : 0 ≤ (k * a % p + b) / max height width := Int.ediv_nonneg ht0 hm0.le
  have e5 : Int.tmod ((k * a % p + b) / max height width) height =
      (k * a % p + b) / max height width % height := Int.tmod_eq_emod hq0 (by omega)
  have e6 : Int.tmod (k * a % p + b) width = (k * a % p + b) % width :=
    Int.tmod_eq_emod ht0 (by omega)
  have n1 : max height width ≠ 0 := by omega
  have n2 : height ≠ 0 := by omega
  have n3 : width ≠ 0 := by omega
  refine ⟨by rw [e1, e2, e3], ?_, ?_, ?_⟩
  · rw [hm]; unfold cDiv; rw [if_neg n1, e4]
  · unfold cMod; rw [if_neg n2, e5]
  · unfold cMod; rw [if_neg n3, e6]

/-! ## Move validation -/

theorem is_move_valid_eq (game : Game) (r c : Int) :
    is_move_valid r c game =
      .ok (decide (0 ≤ r ∧ r < game.height ∧ 0 ≤ c ∧ c < game.width ∧ game.board r c = '.')) := by
  unfold is_move_valid
  by_cases h1 : r ≥ game.height ∨ c ≥ game.width
  · rw [if_pos h1]
    have : ¬ (0 ≤ r ∧ r < game.height ∧ 0 ≤ c ∧ c < game.width ∧ game.board r c = '.') := by
      rintro ⟨-, h2, -, h3, -⟩; omega
    simp [this]
  · rw [if_neg h1]
    by_cases h2 : r < 0 ∨ c < 0
    · rw [if_pos h2]
      have : ¬ (0 ≤ r ∧ r < game.height ∧ 0 ≤ c ∧ c < game.width ∧ game.board r c = '.') := by
        rintro ⟨h3, -, h4, -, -⟩; omega
      simp [this]
    · rw [if_neg h2]
      have hin : inBounds game r c := ⟨by omega, by omega, by omega, by omega⟩
      rw [readBoard_of_inBounds hin]
      obtain ⟨i1, i2, i3, i4⟩ := hin
      by_cases h3 : game.board r c = '.' <;> simp [h3, i1, i2, i3, i4]

/-! ## The answer of a search depends on the frontier only -/

theorem map_fst_eq_ok {α β : Type} {x : Result (α × β)} {a : α}
    (h : x.map Prod.fst = .ok a) : ∃ b, x = .ok (a, b) := by
  cases x with
  | ok r =>
    obtain ⟨a', b⟩ := r
    simp only [map_ok, Result.ok.injEq] at h
    exact ⟨b, by rw [h]⟩
  | outOfBounds => exact absurd h (by simp [Result.map])
  | divisionByZero => exact absurd h (by simp [Result.map])
  | outOfFuel => exact absurd h (by simp [Result.map])

theorem check_answer (game : Game) (check : Nat → Stack → Result (Bool × Stack))
    (test : Int → Int → Result Bool)
    (add : Stack → Int → Int → Result Stack) (row0 column0 : Int)
    (edge : Cell → Bool) (nbrs : Cell → List Cell)
    (heq : ∀ fuel s, check fuel s =
      (searchLoop test add row0 column0 fuel s []).map (fun x => (x.1, x.2.1)))
    (htest : ∀ r c, inBounds game r c → test r c = .ok (edge (r, c)))
    (hadd : ∀ s r c, inBounds game r c → add s r c = .ok (pushAll s (nbrs (r, c))))
    (hnb : ∀ c d, inBounds game c.1 c.2 → d ∈ nbrs c → inBounds game d.1 d.2)
    (fuel : Nat) (s : Stack) (hwf : s.WF) (hM : s.maxSize = game.height * game.width)
    (hstk : ∀ c ∈ s.front.stk, inBounds game c.1 c.2) :
    (check fuel s).map Prod.fst =
      frontAnswer (frontLoop (game.height * game.width) edge nbrs fuel s.front []) := by
  have := searchLoop_front game _ test add row0 column0 edge nbrs htest hadd hnb fuel s [] hwf hM
    hstk
  rw [heq]
  rcases hfl : frontLoop (game.height * game.width) edge nbrs fuel s.front []
    with _ | ⟨b1, F, vis1⟩
  · rw [hfl] at this
    simp only at this
    rw [this]; rfl
  · rw [hfl] at this
    obtain ⟨s1, h1, -⟩ := this
    rw [h1]; rfl

theorem check_top_answer (game : Game) (value : Char) (fuel : Nat) (s : Stack) (hwf : s.WF)
    (hM : s.maxSize = game.height * game.width)
    (hstk : ∀ c ∈ s.front.stk, inBounds game c.1 c.2) :
    (check_top fuel s value game).map Prod.fst =
      frontAnswer (frontLoop (game.height * game.width) (edgeCell game value Prod.fst 0)
        (top_cells game value) fuel s.front []) :=
  check_answer game (fun fuel s => check_top fuel s value game) _ _ _ _ _ _
    (fun fuel s => check_top_eq game value fuel s [])
    (fun _ _ h => atEdge_eq game value Prod.fst 0 h)
    (fun s _ _ h => add_top_eq s game value h)
    (fun c d hc hd => ((mem_top_cells game value c d hc).mp hd).2.1) fuel s hwf hM hstk

theorem check_bottom_answer (game : Game) (value : Char) (fuel : Nat) (s : Stack) (hwf : s.WF)
    (hM : s.maxSize = game.height * game.width)
    (hstk : ∀ c ∈ s.front.stk, inBounds game c.1 c.2) :
    (check_bottom fuel s value game).map Prod.fst =
      frontAnswer (frontLoop (game.height * game.width)
        (edgeCell game value Prod.fst (game.height - 1))
        (bottom_cells game value) fuel s.front []) :=
  check_answer game (fun fuel s => check_bottom fuel s value game) _ _ _ _ _ _
    (fun fuel s => check_bottom_eq game value fuel s [])
    (fun _ _ h => atEdge_eq game value Prod.fst (game.height - 1) h)
    (fun s _ _ h => add_bottom_eq s game value h)
    (fun c d hc hd => ((mem_bottom_cells game value c d hc).mp hd).2.1) fuel s hwf hM hstk

theorem check_left_answer (game : Game) (value : Char) (fuel : Nat) (s : Stack) (hwf : s.WF)
    (hM : s.maxSize = game.height * game.width)
    (hstk : ∀ c ∈ s.front.stk, inBounds game c.1 c.2) :
    (check_left fuel s value game).map Prod.fst =
      frontAnswer (frontLoop (game.height * game.width) (edgeCell game value Prod.snd 0)
        (left_cells game value) fuel s.front []) :=
  check_answer game (fun fuel s => check_left fuel s value game) _ _ _ _ _ _
    (fun fuel s => check_left_eq game value fuel s [])
    (fun _ _ h => atEdge_eq game value Prod.snd 0 h)
    (fun s _ _ h => add_left_eq s game value h)
    (fun c d hc hd => ((mem_left_cells game value c d hc).mp hd).2.1) fuel s hwf hM hstk

theorem check_right_answer (game : Game) (value : Char) (fuel : Nat) (s : Stack) (hwf : s.WF)
    (hM : s.maxSize = game.height * game.width)
    (hstk : ∀ c ∈ s.front.stk, inBounds game c.1 c.2) :
    (check_right fuel s value game).map Prod.fst =
      frontAnswer (frontLoop (game.height * game.width)
        (edgeCell game value Prod.snd (game.width - 1))
        (right_cells game value) fuel s.front []) :=
  check_answer game (fun fuel s => check_right fuel s value game) _ _ _ _ _ _
    (fun fuel s => check_right_eq game value fuel s [])
    (fun _ _ h => atEdge_eq game value Prod.snd (game.width - 1) h)
    (fun s _ _ h => add_right_eq s game value h)
    (fun c d hc hd => ((mem_right_cells game value c d hc).mp hd).2.1) fuel s hwf hM hstk

/-- A stack that was reset and reseeded answers like a newly constructed one. -/
theorem reseed_answer (game : Game) (value : Char) (row column : Int)
    (hseed : inBounds game row column) (fuel : Nat) (s : Stack)
    (hM : s.maxSize = game.height * game.width) :
    (check_top fuel (reseed s row column) value game).map Prod.fst =
        (check_top fuel (push (initialize_stack game) row column) value game).map Prod.fst ∧
      (check_bottom fuel (reseed s row column) value game).map Prod.fst =
        (check_bottom fuel (push (initialize_stack game) row column) value game).map Prod.fst ∧
      (check_left fuel (reseed s row column) value game).map Prod.fst =
        (check_left fuel (push (initialize_stack game) row column) value game).map Prod.fst ∧
      (check_right fuel (reseed s row column) value game).map Prod.fst =
        (check_right fuel (push (initialize_stack game) row column) value game).map Prod.fst := by
  obtain ⟨-, -, hHW⟩ := size_pos game hseed
  obtain ⟨f1, f2, f3⟩ := fresh_seed game row column hHW
  obtain ⟨r1, r2, r3⟩ := reseed_seed game s row column hM hHW
  have hf : ∀ c ∈ (push (initialize_stack game) row column).front.stk,
      inBounds game c.1 c.2 := by
    intro c hc; rw [f3] at hc; rw [List.mem_singleton.mp hc]; exact hseed
  have hr : ∀ c ∈ (reseed s row column).front.stk, inBounds game c.1 c.2 := by
    intro c hc; rw [r3] at hc; rw [List.mem_singleton.mp hc]; exact hseed
  refine ⟨?_, ?_, ?_, ?_⟩
  · rw [check_top_answer game value fuel _ r1 r2 hr, check_top_answer game value fuel _ f1 f2 hf,
      r3, f3]
  · rw [check_bottom_answer game value fuel _ r1 r2 hr,
      check_bottom_answer game value fuel _ f1 f2 hf, r3, f3]
  · rw [check_left_answer game value fuel _ r1 r2 hr,
      check_left_answer game value fuel _ f1 f2 hf, r3, f3]
  · rw [check_right_answer game value fuel _ r1 r2 hr,
      check_right_answer game value fuel _ f1 f2 hf, r3, f3]

/-- The win check answers true exactly when both searches, each run on a newly
constructed stack holding only the seed, answer true (mark 'X'). -/
theorem win_iff_both_X (game : Game) (row column : Int) (fuel : Nat)
    (hseed : inBounds game row column) :
    (check_game_over fuel row column 'X' game).map Prod.fst = .ok true ↔
      (check_top fuel (push (initialize_stack game) row column) 'X' game).map Prod.fst =
          .ok true ∧
        (check_bottom fuel (push (initialize_stack game) row column) 'X' game).map Prod.fst =
          .ok true := by
  obtain ⟨-, -, hHW⟩ := size_pos game hseed
  obtain ⟨f1, f2, f3⟩ := fresh_seed game row column hHW
  obtain ⟨-, t2⟩ := check_top_spec game 'X' (row, column) hseed _ f1 f2 f3
  rw [check_game_over_X]
  cases h1 : check_top fuel (push (initialize_stack game) row column) 'X' game with
  | ok r =>
    obtain ⟨b1, s1⟩ := r
    obtain ⟨-, -, k3⟩ := t2 fuel b1 s1 h1
    rw [← (reseed_answer game 'X' row column hseed fuel s1 k3).2.1]
    cases b1 with
    | false => simp [Result.bind]
    | true =>
      cases h2 : check_bottom fuel (reseed s1 row column) 'X' game with
      | ok r' =>
        obtain ⟨b2, s2⟩ := r'
        cases b2 <;> simp [Result.bind, h2]
      | outOfBounds => simp [Result.bind, h2, Result.map]
      | divisionByZero => simp [Result.bind, h2, Result.map]
      | outOfFuel => simp [Result.bind, h2, Result.map]
  | outOfBounds => simp [Result.bind, Result.map]
  | divisionByZero => simp [Result.bind, Result.map]
  | outOfFuel => simp [Result.bind, Result.map]

/-- The win check answers true exactly when both searches, each run on a newly
constructed stack holding only the seed, answer true (any mark other than 'X'). -/
theorem win_iff_both_O (game : Game) (row column : Int) (value : Char) (fuel : Nat)
    (hv : value ≠ 'X') (hseed : inBounds game row column) :
    (check_game_over fuel row column value game).map Prod.fst = .ok true ↔
      (check_left fuel (push (initialize_stack game) row column) value game).map Prod.fst =
          .ok true ∧
        (check_right fuel (push (initialize_stack game) row column) value game).map Prod.fst =
          .ok true := by
  obtain ⟨-, -, hHW⟩ := size_pos game hseed
  obtain ⟨f1, f2, f3⟩ := fresh_seed game row column hHW
  obtain ⟨-, t2⟩ := check_left_spec game value (row, column) hseed _ f1 f2 f3
  rw [check_game_over_O _ _ _ _ _ hv]
  cases h1 : check_left fuel (push (initialize_stack game) row column) value game with
  | ok r =>
    obtain ⟨b1, s1⟩ := r
    obtain ⟨-, -, k3⟩ := t2 fuel b1 s1 h1
    rw [← (reseed_answer game value row column hseed fuel s1 k3).2.2.2]
    cases b1 with
    | false => simp [Result.bind]
    | true =>
      cases h2 : check_right fuel (reseed s1 row column) value game with
      | ok r' =>
        obtain ⟨b2, s2⟩ := r'
        cases b2 <;> simp [Result.bind, h2]
      | outOfBounds => simp [Result.bind, h2, Result.map]
      | divisionByZero => simp [Result.bind, h2, Result.map]
      | outOfFuel => simp [Result.bind, h2, Result.map]
  | outOfBounds => simp [Result.bind, Result.map]
  | divisionByZero => simp [Result.bind, Result.map]
  | outOfFuel => simp [Result.bind, Result.map]

/-! ## From neighbour steps to chains of hex-adjacent cells -/

theorem connected_of_reaches (game : Game) (mark : Char) (nbrs : Cell → List Cell)
    (hsub : ∀ c d, marked game mark c → d ∈ nbrs c → hexAdjacent c d ∧ marked game mark d)
    (a e : Cell) (ha : marked game mark a) (h : Reaches nbrs a e) :
    Connected game mark a e := by
  revert ha
  refine Relation.ReflTransGen.head_induction_on h ?_ ?_
  · intro he
    refine ⟨[e], ⟨?_, List.chain'_singleton _⟩, rfl, rfl⟩
    intro c hc
    rw [List.mem_singleton.mp hc]; exact he
  · intro a b hab _ ih ha
    obtain ⟨hadj, hb⟩ := hsub a b ha hab
    obtain ⟨path, ⟨hall, hchain⟩, hhead, hlast⟩ := ih hb
    cases path with
    | nil => simp at hhead
    | cons x rest =>
      simp only [List.head?_cons, Option.some.injEq] at hhead
      subst hhead
      refine ⟨a :: x :: rest, ⟨?_, List.chain'_cons.mpr ⟨hadj, hchain⟩⟩, rfl, ?_⟩
      · intro c hc
        rcases List.mem_cons.mp hc with rfl | hc
        · exact ha
        · exact hall c hc
      · rw [List.getLast?_cons_cons]; exact hlast

theorem top_cells_adjacent (game : Game) (mark : Char) (c d : Cell)
    (hc : marked game mark c) (hd : d ∈ top_cells game mark c) :
    hexAdjacent c d ∧ marked game mark d := by
  obtain ⟨h1, h2, h3⟩ := (mem_top_cells game mark c d hc.1).mp hd
  refine ⟨?_, h2, h3⟩
  unfold hexAdjacent
  rcases h1 with h | h | h | h <;> simp [h]

theorem bottom_cells_adjacent (game : Game) (mark : Char) (c d : Cell)
    (hc : marked game mark c) (hd : d ∈ bottom_cells game mark c) :
    hexAdjacent c d ∧ marked game mark d := by
  obtain ⟨h1, h2, h3⟩ := (mem_bottom_cells game mark c d hc.1).mp hd
  refine ⟨?_, h2, h3⟩
  unfold hexAdjacent
  rcases h1 with h | h | h | h <;> simp [h]

theorem left_cells_adjacent (game : Game) (mark : Char) (c d : Cell)
    (hc : marked game mark c) (hd : d ∈ left_cells game mark c) :
    hexAdjacent c d ∧ marked game mark d := by
  obtain ⟨h1, h2, h3⟩ := (mem_left_cells game mark c d hc.1).mp hd
  refine ⟨?_, h2, h3⟩
  unfold hexAdjacent
  rcases h1 with h | h | h <;> simp [h]

theorem right_cells_adjacent (game : Game) (mark : Char) (c d : Cell)
    (hc : marked game mark c) (hd : d ∈ right_cells game mark c) :
    hexAdjacent c d ∧ marked game mark d := by
  obtain ⟨h1, h2, h3⟩ := (mem_right_cells game mark c d hc.1).mp hd
  refine ⟨?_, h2, h3⟩
  unfold hexAdjacent
  rcases h1 with h | h | h <;> simp [h]

theorem edgeCell_true {game : Game} {value : Char} {coord : Cell → Int} {target : Int}
    {e : Cell} (h : edgeCell game value coord target e = true) :
    coord e = target ∧ game.board e.1 e.2 = value := by
  unfold edgeCell at h
  exact of_decide_eq_true h

/-! ## A straight column of 'X' -/

theorem column_reaches_top (game : Game) (c i : Int) (hc : 0 ≤ c ∧ c < game.width)
    (hi : i < game.height)
    (hX : ∀ r k, inBounds game r k → (game.board r k = 'X' ↔ k = c ∧ r ≤ i)) :
    ∀ n : Nat, (n : Int) ≤ i → Reaches (top_cells game 'X') ((n : Int), c) (0, c) := by
  intro n
  induction n with
  | zero => intro _; exact Relation.ReflTransGen.refl
  | succ n ih =>
    intro hn
    push_cast at hn
    have hin : inBounds game ((n : Int) + 1) c := ⟨by omega, by omega, hc.1, hc.2⟩
    have hin' : inBounds game (n : Int) c := ⟨by omega, by omega, hc.1, hc.2⟩
    have hmem : ((n : Int), c) ∈ top_cells game 'X' ((n : Int) + 1, c) := by
      rw [mem_top_cells game 'X' _ _ hin]
      refine ⟨Or.inr (Or.inr (Or.inl ?_)), hin', (hX _ _ hin').mpr ⟨rfl, by omega⟩⟩
      simp
    have := Relation.ReflTransGen.head (r := fun x y => y ∈ top_cells game 'X' x) hmem
      (ih (by omega))
    simpa using this

theorem column_bottom_cells (game : Game) (c i : Int) (hc : 0 ≤ c ∧ c < game.width)
    (hi : 0 ≤ i ∧ i < game.height)
    (hX : ∀ r k, inBounds game r k → (game.board r k = 'X' ↔ k = c ∧ r ≤ i)) (d : Cell) :
    d ∉ bottom_cells game 'X' (i, c) := by
  intro hd
  have hin : inBounds game i c := ⟨hi.1, hi.2, hc.1, hc.2⟩
  obtain ⟨h1, h2, h3⟩ := (mem_bottom_cells game 'X' (i, c) d hin).mp hd
  obtain ⟨e1, e2⟩ := (hX _ _ h2).mp h3
  rcases h1 with h | h | h | h <;> rw [h] at e1 e2 <;> simp at e1 e2

theorem column_chain_result (game : Game) (c i : Int) (fuel : Nat)
    (hc : 0 ≤ c ∧ c < game.width) (hi : 0 ≤ i ∧ i < game.height)
    (hX : ∀ r k, inBounds game r k → (game.board r k = 'X' ↔ k = c ∧ r ≤ i))
    (hfuel : (game.height * game.width).toNat ≤ fuel) :
    (check_game_over fuel i c 'X' game).map Prod.fst = .ok (decide (i = game.height - 1)) := by
  have hin : inBounds game i c := ⟨hi.1, hi.2, hc.1, hc.2⟩
  have hseedX : game.board i c = 'X' := (hX i c hin).mpr ⟨rfl, le_rfl⟩
  obtain ⟨s1, s2⟩ := check_game_over_X_spec game i c hin
  obtain ⟨⟨b, g'⟩, hrun⟩ := s1 fuel hfuel
  obtain ⟨hiff, -⟩ := s2 fuel b g' hrun
  rw [hrun, map_ok]
  have htop : ∃ e, Reaches (top_cells game 'X') (i, c) e ∧
      edgeCell game 'X' Prod.fst 0 e = true := by
    refine ⟨(0, c), ?_, ?_⟩
    · have := column_reaches_top game c i hc hi.2 hX i.toNat (by omega)
      rwa [Int.toNat_of_nonneg hi.1] at this
    · have h0 : inBounds game 0 c := ⟨le_rfl, by omega, hc.1, hc.2⟩
      have : game.board 0 c = 'X' := (hX 0 c h0).mpr ⟨rfl, hi.1⟩
      simp [edgeCell, this]
  have hbot : (∃ e, Reaches (bottom_cells game 'X') (i, c) e ∧
      edgeCell game 'X' Prod.fst (game.height - 1) e = true) ↔ i = game.height - 1 := by
    constructor
    · rintro ⟨e, hreach, hedge⟩
      rcases Relation.ReflTransGen.cases_head hreach with h | ⟨d, hd, -⟩
      · rw [← h] at hedge
        exact (edgeCell_true hedge).1
      · exact absurd hd (column_bottom_cells game c i hc hi hX d)
    · intro h
      exact ⟨(i, c), Relation.ReflTransGen.refl, decide_eq_true ⟨h, hseedX⟩⟩
  have : b = true ↔ i = game.height - 1 := by
    rw [hiff, hbot]
    exact ⟨fun h => h.2, fun h => ⟨htop, h⟩⟩
  congr 1
  cases b with
  | true => exact (decide_eq_true (this.mp rfl)).symm
  | false => exact (decide_eq_false (fun h => absurd (this.mpr h) (by simp))).symm

/-! ## `push` on a search state -/

theorem push_of_logged (s : Stack) (r c : Int) (h : (r, c) ∈ s.logged) :
    (push s r c).count = s.count ∧ (push s r c).logCount = s.logCount ∧
      (push s r c).rows = s.rows ∧ (push s r c).columns = s.columns ∧
      (push s r c).rowLog = s.rowLog ∧ (push s r c).columnLog = s.columnLog ∧
      (push s r c).maxSize = s.maxSize := by
  by_cases h1 : s.count = s.maxSize
  · have hp : push s r c = s := by simp only [push, if_pos h1]
    rw [hp]
    exact ⟨rfl, rfl, rfl, rfl, rfl, rfl, rfl⟩
  · obtain ⟨b, b1, b2, b3, b4, b5, b6, b7, hp⟩ := push_of_not_full s r c h1
    have hin : inLog b r c = true := by
      rw [inLog_iff]
      simpa only [Stack.logged, b3, b4, b5] using h
    rw [hp, if_pos hin]
    exact ⟨b6, b5, b1, b2, b3, b4, b7⟩

theorem searchState_not_full (game : Game) (s : Stack) (hs : SearchState game s) (r c : Int)
    (hin : inBounds game r c) (h : (r, c) ∉ s.logged) : s.count ≠ s.maxSize := by
  obtain ⟨hwf, hM, hinv⟩ := hs
  obtain ⟨hH, hW, -⟩ := size_pos game hin
  have hnd : ((r, c) :: s.logged).Nodup := List.nodup_cons.mpr ⟨h, hinv.nodupLog⟩
  have hle := card_inBounds game hH.le hW.le _ hnd (by
    intro x hx
    rcases List.mem_cons.mp hx with rfl | hx
    · exact hin
    · exact hinv.inb x hx)
  have hlen := hinv.len
  simp only [Stack.front, Stack.cells, Stack.logged, length_entries, List.length_cons] at hle hlen
  have := hwf.1
  push_cast at hle
  omega

theorem push_of_new (game : Game) (s : Stack) (hs : SearchState game s) (r c : Int)
    (hin : inBounds game r c) (h : (r, c) ∉ s.logged) :
    (push s r c).cells = (r, c) :: s.cells ∧ (push s r c).logged = (r, c) :: s.logged ∧
      (push s r c).count = s.count + 1 ∧ (push s r c).logCount = s.logCount + 1 := by
  have h1 := searchState_not_full game s hs r c hin h
  obtain ⟨hwf, hM, hinv⟩ := hs
  obtain ⟨f1, -, -⟩ := push_front s r c hwf
  have hne : ¬ ((s.front.stk.length : Int) = s.maxSize) := by
    have := hwf.1
    simp only [Stack.front, Stack.cells, length_entries]
    omega
  have hf : (push s r c).front = ⟨(r, c) :: s.cells, (r, c) :: s.logged⟩ := by
    rw [f1]
    unfold Front.push
    rw [if_neg hne, if_neg (by exact h)]
    rfl
  obtain ⟨b, b1, b2, b3, b4, b5, b6, b7, hp⟩ := push_of_not_full s r c h1
  have hnin : ¬ (inLog b r c = true) := by
    rw [inLog_iff]
    simpa only [Stack.logged, b3, b4, b5] using h
  refine ⟨congrArg Front.stk hf, congrArg Front.log hf, ?_, ?_⟩
  · rw [hp, if_neg hnin]
    show b.count + 1 = s.count + 1
    rw [b6]
  · rw [hp, if_neg hnin]
    show b.logCount + 1 = s.logCount + 1
    rw [b5]

theorem searchState_push (game : Game) (s : Stack) (hs : SearchState game s) (r c : Int)
    (hin : inBounds game r c) : SearchState game (push s r c) := by
  obtain ⟨hwf, hM, hinv⟩ := hs
  obtain ⟨hH, hW, -⟩ := size_pos game hin
  obtain ⟨f1, f2, f3⟩ := push_front s r c hwf
  refine ⟨f2, f3.trans hM, ?_⟩
  rw [f1, hM]
  exact (Front.push_inv _ _ (card_inBounds game hH.le hW.le) s.front (r, c) hinv hin).2.1

theorem searchState_pop (game : Game) (s : Stack) (hs : SearchState game s) (r0 c0 : Int)
    (hpos : s.count > 0) : SearchState game (pop s r0 c0).1 := by
  obtain ⟨hwf, hM, hinv⟩ := hs
  obtain ⟨p1, p2, p3, p4⟩ := pop_front s r0 c0 hwf hpos
  refine ⟨p3, p4.trans hM, ?_⟩
  have hf : s.front = ⟨((pop s r0 c0).2.1, (pop s r0 c0).2.2) :: (pop s r0 c0).1.front.stk,
      (pop s r0 c0).1.front.log⟩ := by
    rw [← p1, p2]
  rw [hf] at hinv
  exact hinv.tail

theorem searchState_seed (game : Game) (row column : Int) (hseed : inBounds game row column) :
    SearchState game (push (initialize_stack game) row column) ∧
      ∀ s : Stack, s.maxSize = game.height * game.width →
        SearchState game (reseed s row column) := by
  obtain ⟨-, -, hHW⟩ := size_pos game hseed
  have hinv : FrontInv (fun c => inBounds game c.1 c.2) ⟨[(row, column)], [(row, column)]⟩ :=
    ⟨fun c hc => hc, List.nodup_singleton _, List.nodup_singleton _,
      fun c hc => by rw [List.mem_singleton.mp hc]; exact hseed, le_rfl⟩
  constructor
  · obtain ⟨f1, f2, f3⟩ := fresh_seed game row column hHW
    exact ⟨f1, f2, by rw [f3]; exact hinv⟩
  · intro s hM
    obtain ⟨f1, f2, f3⟩ := reseed_seed game s row column hM hHW
    exact ⟨f1, f2, by rw [f3]; exact hinv⟩

theorem searchLoop_pops_nodup (game : Game) (hH : 0 ≤ game.height) (hW : 0 ≤ game.width)
    (test : Int → Int → Result Bool)
    (add : Stack → Int → Int → Result Stack) (row0 column0 : Int)
    (edge : Cell → Bool) (nbrs : Cell → List Cell)
    (htest : ∀ r c, inBounds game r c → test r c = .ok (edge (r, c)))
    (hadd : ∀ s r c, inBounds game r c → add s r c = .ok (pushAll s (nbrs (r, c))))
    (hnb : ∀ c d, inBounds game c.1 c.2 → d ∈ nbrs c → inBounds game d.1 d.2)
    (s : Stack) (hs : SearchState game s) (fuel : Nat) (b : Bool) (s' : Stack)
    (vis : List Cell)
    (hrun : searchLoop test add row0 column0 fuel s [] = .ok (b, s', vis)) : vis.Nodup := by
  obtain ⟨hwf, hM, hinv⟩ := hs
  have href := searchLoop_front game _ test add row0 column0 edge nbrs htest hadd hnb
    fuel s [] hwf hM (fun c hc => hinv.inb c (hinv.sub c hc))
  rcases hfl : frontLoop (game.height * game.width) edge nbrs fuel s.front []
    with _ | ⟨b1, F, vis1⟩
  · rw [hfl] at href
    simp only at href
    rw [hrun] at href
    exact absurd href (by simp)
  · rw [hfl] at href
    obtain ⟨s1, h1, -⟩ := href
    rw [hrun] at h1
    simp only [Result.ok.injEq, Prod.mk.injEq] at h1
    obtain ⟨rfl, rfl, rfl⟩ := h1
    exact frontLoop_pops_nodup _ _ edge nbrs (card_inBounds game hH hW) hnb fuel _ _ _ _ _ hinv
      List.nodup_nil (fun c hc => absurd hc (List.not_mem_nil _)) hfl

/-! ## The detour position -/

theorem detour_top_unreachable (e : Cell)
    (h : Reaches (top_cells detourGame 'X') (1, 0) e) :
    edgeCell detourGame 'X' Prod.fst 0 e = false := by
  rcases Relation.ReflTransGen.cases_head h with h' | ⟨d, hd, -⟩
  · rw [← h']; decide
  · have hnil : top_cells detourGame 'X' (1, 0) = [] := by decide
    rw [hnil] at hd
    exact absurd hd (List.not_mem_nil _)

/-! ## Reachability through the pushed neighbours, as a step relation -/

theorem auto_move_o_run (game : Game) (hH : game.height ≠ 0) (hW : game.width ≠ 0) :
    ∃ row column, get_auto_move_for_o game = .ok (row, column,
      { game with players0 :=
          { game.players0 with moveCounter := wrap32 (game.players0.moveCounter + 1) } }) := by
  have hm : (if game.height ≥ game.width then game.height else game.width) ≠ 0 := by
    split_ifs <;> assumption
  unfold get_auto_move_for_o
  simp only [cDiv, cMod, if_neg hm, if_neg hH, if_neg hW, ok_bind, pure_eq_ok]
  exact ⟨_, _, rfl⟩

theorem auto_move_x_run (game : Game) (hH : game.height ≠ 0) (hW : game.width ≠ 0) :
    ∃ row column, get_auto_move_for_x game = .ok (row, column,
      { game with players1 :=
          { game.players1 with moveCounter := wrap32 (game.players1.moveCounter + 1) } }) := by
  have hm : (if game.height ≥ game.width then game.height else game.width) ≠ 0 := by
    split_ifs <;> assumption
  unfold get_auto_move_for_x
  simp only [cDiv, cMod, if_neg hm, if_neg hH, if_neg hW, ok_bind, pure_eq_ok]
  exact ⟨_, _, rfl⟩

theorem withCounters_self (game : Game) :
    withCounters game game.players0.moveCounter game.players1.moveCounter = game := rfl

theorem withCounters_withCounters (game : Game) (a b c d : Int) :
    withCounters (withCounters game a b) c d = withCounters game c d := rfl

theorem auto_move_o_game {game : Game} {row column : Int} {g : Game}
    (h : get_auto_move_for_o game = .ok (row, column, g)) :
    g = withCounters game (wrap32 (game.players0.moveCounter + 1)) game.players1.moveCounter := by
  unfold get_auto_move_for_o at h
  simp only [cDiv, cMod] at h
  split_ifs at h <;>
    simp only [ok_bind, pure_eq_ok, divisionByZero_bind, Result.ok.injEq, Prod.mk.injEq,
      reduceCtorEq] at h
  all_goals exact h.2.2.symm

theorem auto_move_x_game {game : Game} {row column : Int} {g : Game}
    (h : get_auto_move_for_x game = .ok (row, column, g)) :
    g = withCounters game game.players0.moveCounter (wrap32 (game.players1.moveCounter + 1)) := by
  unfold get_auto_move_for_x at h
  simp only [cDiv, cMod] at h
  split_ifs at h <;>
    simp only [ok_bind, pure_eq_ok, divisionByZero_bind, Result.ok.injEq, Prod.mk.injEq,
      reduceCtorEq] at h
  all_goals exact h.2.2.symm

theorem bind_eq_ok {α β : Type} {x : Result α} {f : α → Result β} {b : β}
    (h : (x >>= f) = .ok b) : ∃ a, x = .ok a ∧ f a = .ok b := by
  cases x with
  | ok a => exact ⟨a, rfl, h⟩
  | outOfBounds => exact absurd h (by simp)
  | divisionByZero => exact absurd h (by simp)
  | outOfFuel => exact absurd h (by simp)

theorem check_game_over_frame {fuel : Nat} {row column : Int} {value : Char} {game : Game}
    {b : Bool} {g : Game} (h : check_game_over fuel row column value game = .ok (b, g)) :
    g = if b then { game with winner := value } else game := by
  have key : ∀ (x : Result (Bool × Stack)) (y : Stack → Result (Bool × Stack)),
      (x.bind fun r1 =>
        if r1.1 then
          (y r1.2).bind fun r2 =>
            if r2.1 then .ok (true, { game with winner := value }) else .ok (false, game)
        else .ok (false, game)) = .ok (b, g) →
      g = if b then { game with winner := value } else game := by
    intro x y hxy
    obtain ⟨⟨b1, s1⟩, -, h1⟩ := bind_eq_ok (x := x) hxy
    cases b1 with
    | false =>
      simp only [Bool.false_eq_true, if_false, Result.ok.injEq, Prod.mk.injEq] at h1
      obtain ⟨rfl, rfl⟩ := h1
      simp
    | true =>
      simp only [if_true] at h1
      obtain ⟨⟨b2, s2⟩, -, h2⟩ := bind_eq_ok (x := y s1) h1
      cases b2 with
      | false =>
        simp only [Bool.false_eq_true, if_false, Result.ok.injEq, Prod.mk.injEq] at h2
        obtain ⟨rfl, rfl⟩ := h2
        simp
      | true =>
        simp only [if_true, Result.ok.injEq, Prod.mk.injEq] at h2
        obtain ⟨rfl, rfl⟩ := h2
        simp
  by_cases hv : value = 'X'
  · subst hv
    rw [check_game_over_X] at h
    exact key _ (fun s => check_bottom fuel (reseed s row column) 'X' game) h
  · rw [check_game_over_O _ _ _ _ _ hv] at h
    exact key _ (fun s => check_right fuel (reseed s row column) value game) h

theorem result_bind_eq_ok {α β : Type} {x : Result α} {f : α → Result β} {b : β}
    (h : x.bind f = .ok b) : ∃ a, x = .ok a ∧ f a = .ok b :=
  bind_eq_ok (x := x) (f := f) h

theorem get_move_loop_succ (who : Bool) (fuel : Nat) (height width : Int) (game : Game)
    (input : Text) :
    get_move_loop who (fuel + 1) height width game input =
      (get_move_body who height width game input).bind fun candidate =>
        match candidate with
        | none => .ok none
        | some (height, width, game, input) =>
          (is_move_valid height width game).bind fun valid =>
            if valid then .ok (some (height, width, game, input))
            else get_move_loop who fuel height width game input := by
  rw [get_move_loop]

theorem get_move_body_frame {who : Bool} {height width : Int} {game : Game} {input : Text}
    {h w : Int} {g : Game} {rest : Text}
    (hc : get_move_body who height width game input = .ok (some (h, w, g, rest))) :
    ∃ a b, g = withCounters game a b := by
  unfold get_move_body at hc
  by_cases hm : (if who then game.players1 else game.players0).isManual = true
  · rw [if_pos hm] at hc
    obtain ⟨r, -, hr⟩ := result_bind_eq_ok hc
    cases r with
    | none => simp at hr
    | some r =>
      obtain ⟨h2, w2, i2⟩ := r
      simp only [Result.ok.injEq, Option.some.injEq, Prod.mk.injEq] at hr
      exact ⟨_, _, by rw [← hr.2.2.1]; exact (withCounters_self game).symm⟩
  · rw [if_neg hm] at hc
    by_cases hx : game.isXTurn = true
    · rw [if_pos hx] at hc
      obtain ⟨r, hr1, hr⟩ := result_bind_eq_ok hc
      obtain ⟨h2, w2, g2⟩ := r
      simp only [Result.ok.injEq, Option.some.injEq, Prod.mk.injEq] at hr
      exact ⟨_, _, by rw [← hr.2.2.1]; exact auto_move_x_game hr1⟩
    · rw [if_neg hx] at hc
      obtain ⟨r, hr1, hr⟩ := result_bind_eq_ok hc
      obtain ⟨h2, w2, g2⟩ := r
      simp only [Result.ok.injEq, Option.some.injEq, Prod.mk.injEq] at hr
      exact ⟨_, _, by rw [← hr.2.2.1]; exact auto_move_o_game hr1⟩

theorem get_move_loop_frame (who : Bool) :
    ∀ (fuel : Nat) (height width : Int) (game : Game) (input : Text) (h w : Int) (g : Game)
      (rest : Text),
      get_move_loop who fuel height width game input = .ok (some (h, w, g, rest)) →
      is_move_valid h w g = .ok true ∧ ∃ a b, g = withCounters game a b := by
  intro fuel
  induction fuel with
  | zero =>
    intro height width game input h w g rest hrun
    rw [get_move_loop] at hrun
    exact absurd hrun (by simp)
  | succ fuel ih =>
    intro height width game input h w g rest hrun
    rw [get_move_loop_succ] at hrun
    obtain ⟨candidate, hc, hrun⟩ := result_bind_eq_ok hrun
    cases candidate with
    | none => simp at hrun
    | some cand =>
      obtain ⟨h1, w1, g1, i1⟩ := cand
      have hg1 : ∃ a b, g1 = withCounters game a b := get_move_body_frame hc
      simp only at hrun
      obtain ⟨valid, hv, hrun⟩ := result_bind_eq_ok hrun
      cases valid with
      | true =>
        simp only [if_true, Result.ok.injEq, Option.some.injEq, Prod.mk.injEq] at hrun
        obtain ⟨rfl, rfl, rfl, rfl⟩ := hrun
        exact ⟨hv, hg1⟩
      | false =>
        simp only [Bool.false_eq_true, if_false] at hrun
        obtain ⟨k1, a, b, k2⟩ := ih _ _ _ _ _ _ _ _ hrun
        obtain ⟨a', b', k3⟩ := hg1
        exact ⟨k1, a, b, by rw [k2, k3, withCounters_withCounters]⟩

/-- The game after the placement write of `get_move`. -/
theorem writeBoard_of_valid {game : Game} {row column : Int} (mark : Char)
    (h : is_move_valid row column game = .ok true) :
    inBounds game row column ∧ game.board row column = '.' ∧
      writeBoard game row column mark = .ok { game with
        board := fun r c => if r = row ∧ c = column then mark else game.board r c } := by
  rw [is_move_valid_eq] at h
  simp only [Result.ok.injEq] at h
  obtain ⟨h1, h2, h3, h4, h5⟩ := of_decide_eq_true h
  have hin : inBounds game row column := ⟨h1, h2, h3, h4⟩
  refine ⟨hin, h5, ?_⟩
  unfold writeBoard
  rw [if_pos hin]

/-- What a completed `get_move` did: it accepted a valid position (row, column), changed
at most the move counters before, wrote the mark of the player there and ran the win
check from it. -/
theorem get_move_placed {fuel : Nat} {who : Bool} {game : Game} {input : Text} {over : Bool}
    {g' : Game} {rest : Text}
    (h : get_move fuel who game input = .ok (.placed over g' rest)) :
    ∃ row column a b,
      get_move_loop who fuel (-1) (-1) game input =
        .ok (some (row, column, withCounters game a b, rest)) ∧
      inBounds game row column ∧ game.board row column = '.' ∧
      check_game_over fuel row column (if who then game.players1 else game.players0).playerName
        { withCounters game a b with
          board := fun r c => if r = row ∧ c = column then
            (if who then game.players1 else game.players0).playerName else game.board r c } =
        .ok (over, g') := by
  unfold get_move at h
  obtain ⟨r, hloop, h⟩ := result_bind_eq_ok h
  cases r with
  | none => simp at h
  | some r =>
    obtain ⟨row, column, g1, i1⟩ := r
    obtain ⟨hvalid, a, b, rfl⟩ := get_move_loop_frame who fuel _ _ _ _ _ _ _ _ hloop
    simp only at h
    obtain ⟨g2, hwrite, h⟩ := result_bind_eq_ok h
    obtain ⟨r2, hcheck, h⟩ := result_bind_eq_ok h
    simp only [Result.ok.injEq, MoveOutcome.placed.injEq] at h
    obtain ⟨rfl, rfl, rfl⟩ := h
    obtain ⟨k1, k2, k3⟩ := writeBoard_of_valid
      (if who then (withCounters game a b).players1 else (withCounters game a b).players0).playerName
      hvalid
    rw [k3] at hwrite
    simp only [Result.ok.injEq] at hwrite
    subst hwrite
    refine ⟨row, column, a, b, hloop, k1, k2, ?_⟩
    have hname : (if who then (withCounters game a b).players1
        else (withCounters game a b).players0).playerName =
        (if who then game.players1 else game.players0).playerName := by
      cases who <;> rfl
    rw [hname] at hcheck
    exact hcheck

/-- The game a completed `get_move` returns: the given game with possibly other move
counters, one empty in-bounds cell overwritten by the mark of the player, and the winner
set to that mark exactly when the win check answered true. -/
theorem get_move_result {fuel : Nat} {who : Bool} {game : Game} {input : Text} {over : Bool}
    {g' : Game} {rest : Text}
    (h : get_move fuel who game input = .ok (.placed over g' rest)) :
    ∃ row column a b, inBounds game row column ∧ game.board row column = '.' ∧
      g' = { withCounters game a b with
        board := fun r c => if r = row ∧ c = column then
          (if who then game.players1 else game.players0).playerName else game.board r c
        winner := if over then (if who then game.players1 else game.players0).playerName
          else game.winner } := by
  obtain ⟨row, column, a, b, -, h1, h2, h3⟩ := get_move_placed h
  refine ⟨row, column, a, b, h1, h2, ?_⟩
  rw [check_game_over_frame h3]
  cases over <;> rfl

theorem loopHead_winner {game0 : Game} {input0 : Text} {game : Game} {input : Text}
    (h0 : game0.winner = '.') (h : LoopHead game0 input0 game input) : game.winner = '.' := by
  induction h with
  | start => exact h0
  | next fuel game' input' _ hmove ih =>
    obtain ⟨row, column, a, b, -, -, rfl⟩ := get_move_result hmove
    exact ih

theorem loopHead_names {game0 : Game} {input0 : Text} {game : Game} {input : Text}
    (h : LoopHead game0 input0 game input) :
    game.players0.playerName = game0.players0.playerName ∧
      game.players1.playerName = game0.players1.playerName ∧
      game.height = game0.height ∧ game.width = game0.width := by
  induction h with
  | start => exact ⟨rfl, rfl, rfl, rfl⟩
  | next fuel game' input' _ hmove ih =>
    obtain ⟨row, column, a, b, -, -, rfl⟩ := get_move_result hmove
    exact ih

/-- A run of `start_game` ends at a loop head, either by end of input or by a move that
ended the game. -/
theorem start_game_final (fuel : Nat) (game0 : Game) (input0 : Text) :
    ∀ (turns : Nat) (game : Game) (input : Text) (code : Int) (final : Game),
      LoopHead game0 input0 game input →
      start_game fuel turns game input = .ok (code, final) →
      ∃ g i, LoopHead game0 input0 g i ∧
        ((code = 6 ∧ final = g ∧ get_move fuel g.isXTurn g i = .ok .endOfInput) ∨
          (code = 0 ∧ ∃ g' i', get_move fuel g.isXTurn g i = .ok (.placed true g' i') ∧
            final = { g' with isXTurn := !g'.isXTurn })) := by
  intro turns
  induction turns with
  | zero =>
    intro game input code final _ hrun
    rw [start_game] at hrun
    exact absurd hrun (by simp)
  | succ turns ih =>
    intro game input code final hhead hrun
    rw [start_game] at hrun
    obtain ⟨r, hmove, hrun⟩ := result_bind_eq_ok hrun
    cases r with
    | endOfInput =>
      simp only [Result.ok.injEq, Prod.mk.injEq] at hrun
      exact ⟨game, input, hhead, Or.inl ⟨hrun.1.symm, hrun.2.symm, hmove⟩⟩
    | placed over g' i' =>
      cases over with
      | true =>
        simp only [if_true, Result.ok.injEq, Prod.mk.injEq] at hrun
        exact ⟨game, input, hhead, Or.inr ⟨hrun.1.symm, g', i', hmove, hrun.2.symm⟩⟩
      | false =>
        simp only [Bool.false_eq_true, if_false] at hrun
        exact ih _ _ _ _ (LoopHead.next fuel g' i' hhead hmove) hrun

theorem placed_of_gameOver {x : Result MoveOutcome} {b : Bool}
    (h : x.map MoveOutcome.gameOver? = .ok (some b)) :
    ∃ g rest, x = .ok (.placed b g rest) := by
  cases x with
  | ok r =>
    cases r with
    | endOfInput => simp [MoveOutcome.gameOver?] at h
    | placed over g rest =>
      simp only [map_ok, MoveOutcome.gameOver?, Result.ok.injEq, Option.some.injEq] at h
      exact ⟨g, rest, by rw [h]⟩
  | outOfBounds => exact absurd h (by simp [Result.map])
  | divisionByZero => exact absurd h (by simp [Result.map])
  | outOfFuel => exact absurd h (by simp [Result.map])

theorem start_game_succ (fuel turns : Nat) (game : Game) (input : Text) :
    start_game fuel (turns + 1) game input =
      (get_move fuel game.isXTurn game input).bind fun r =>
        match r with
        | .endOfInput => .ok (6, game)
        | .placed isGameOver game input =>
          if isGameOver then .ok (0, { game with isXTurn := !game.isXTurn })
          else start_game fuel turns { game with isXTurn := !game.isXTurn } input := by
  rw [start_game]

theorem main_setup_dimensions {fuel : Nat} {argv : List Text} {fopen : Text → Option Text}
    {scratch : Nat → Char} {game : Game} (hargc : argv.length = 5)
    (h : main_setup fuel argv fopen scratch = .ok (.play game)) :
    game = main_players argv
      { initialize_game (readInt (argv.getD 3 [])).1 (readInt (argv.getD 4 [])).1 with
        isXTurn := false } := by
  unfold main_setup at h
  split_ifs at h <;> simp only [Result.ok.injEq, Setup.play.injEq, reduceCtorEq] at h
  exact h.symm

/-! ## Retries of an automatic player -/

theorem check_game_over_total (fuel : Nat) (row column : Int) (value : Char) (game : Game)
    (hseed : inBounds game row column) (hfuel : (game.height * game.width).toNat ≤ fuel) :
    ∃ b, check_game_over fuel row column value game =
      .ok (b, if b then { game with winner := value } else game) := by
  have hrun : ∃ r, check_game_over fuel row column value game = .ok r := by
    by_cases hv : value = 'X'
    · subst hv
      exact (check_game_over_X_spec game row column hseed).1 fuel hfuel
    · exact (check_game_over_O_spec game row column value hv hseed).1 fuel hfuel
  obtain ⟨⟨b, g⟩, hr⟩ := hrun
  exact ⟨b, by rw [hr, check_game_over_frame hr]⟩

/-- `get_move` once its do-while has accepted a position. -/
theorem get_move_of_loop {fuel : Nat} {who : Bool} {game : Game} {input : Text}
    {row column : Int} {g1 : Game} {rest : Text}
    (hloop : get_move_loop who fuel (-1) (-1) game input = .ok (some (row, column, g1, rest)))
    (hfuel : (game.height * game.width).toNat ≤ fuel) :
    ∃ over, get_move fuel who game input =
      .ok (.placed over
        { g1 with
          board := fun r c => if r = row ∧ c = column then
            (if who then game.players1 else game.players0).playerName else game.board r c
          winner := if over then (if who then game.players1 else game.players0).playerName
            else game.winner } rest) := by
  obtain ⟨hvalid, a, b, rfl⟩ := get_move_loop_frame who fuel _ _ _ _ _ _ _ _ hloop
  have key : ∀ (mark : Char) (g2 : Game), inBounds g2 row column →
      g2.height * g2.width = game.height * game.width →
      ∃ over, ((check_game_over fuel row column mark g2).bind fun r =>
        (.ok (.placed r.1 r.2 rest) : Result MoveOutcome)) =
        .ok (.placed over (if over then { g2 with winner := mark } else g2) rest) := by
    intro mark g2 hin hsize
    obtain ⟨over, hcheck⟩ := check_game_over_total fuel row column mark g2 hin
      (by rw [hsize]; exact hfuel)
    exact ⟨over, by rw [hcheck]; rfl⟩
  unfold get_move
  rw [hloop]
  simp only [Result.bind]
  cases who with
  | false =>
    simp only [Bool.false_eq_true, if_false]
    obtain ⟨k1, -, k3⟩ := writeBoard_of_valid (withCounters game a b).players0.playerName hvalid
    rw [k3]
    simp only
    obtain ⟨over, hover⟩ := key game.players0.playerName
      { withCounters game a b with
        board := fun r c => if r = row ∧ c = column then game.players0.playerName
          else game.board r c } k1 rfl
    refine ⟨over, ?_⟩
    simp only [Result.bind] at hover
    rw [show (withCounters game a b).players0.playerName = game.players0.playerName from rfl,
      show (withCounters game a b).board = game.board from rfl]
    rw [hover]
    cases over <;> rfl
  | true =>
    simp only [if_true]
    obtain ⟨k1, -, k3⟩ := writeBoard_of_valid (withCounters game a b).players1.playerName hvalid
    rw [k3]
    simp only
    obtain ⟨over, hover⟩ := key game.players1.playerName
      { withCounters game a b with
        board := fun r c => if r = row ∧ c = column then game.players1.playerName
          else game.board r c } k1 rfl
    refine ⟨over, ?_⟩
    simp only [Result.bind] at hover
    rw [show (withCounters game a b).players1.playerName = game.players1.playerName from rfl,
      show (withCounters game a b).board = game.board from rfl]
    rw [hover]
    cases over <;> rfl

/-! ## Lines typed by a manual player -/

theorem readLine_length (room : Nat) (stream : Text) :
    (readLine room stream).1.length ≤ room := by
  induction room generalizing stream with
  | zero => simp [readLine]
  | succ room ih =>
    cases stream with
    | nil => simp [readLine]
    | cons c stream =>
      rw [readLine]
      split_ifs
      · simp
      · simp only [List.length_cons]
        have := ih stream
        omega

theorem readLine_ne_nil (room : Nat) (c : Char) (stream : Text) :
    (readLine (room + 1) (c :: stream)).1 ≠ [] := by
  rw [readLine]
  split_ifs <;> simp

theorem fgets_some {size : Nat} {stream line tail : Text}
    (h : fgets size stream = some (line, tail)) (hsize : 2 ≤ size) :
    line ≠ [] ∧ line.length ≤ size - 1 := by
  unfold fgets at h
  split_ifs at h with hs
  simp only [Option.some.injEq] at h
  obtain ⟨room, hroom⟩ : ∃ r, size - 1 = r + 1 := ⟨size - 2, by omega⟩
  cases stream with
  | nil => exact absurd rfl hs
  | cons c stream =>
    have h1 := readLine_ne_nil room c stream
    have h2 := readLine_length (size - 1) (c :: stream)
    rw [hroom] at h
    rw [h] at h1
    rw [hroom, h] at h2
    exact ⟨h1, by rw [hroom]; exact h2⟩

theorem tokensOf_length (delimiters : Text) (s current : Text) :
    2 * (tokensOf delimiters s current).length ≤
      s.length + 1 + (if current = [] then 0 else 1) := by
  induction s generalizing current with
  | nil =>
    rw [tokensOf]
    split_ifs <;> simp
  | cons c rest ih =>
    rw [tokensOf]
    have h0 := ih []
    have h1 := ih (c :: current)
    simp only [if_true, List.length_cons, reduceCtorEq, if_false] at h0 h1 ⊢
    split_ifs <;> first | omega | (simp only [List.length_cons]; omega)

theorem cString_length (buffer : Text) : (cString buffer).length ≤ buffer.length := by
  unfold cString
  induction buffer with
  | nil => simp
  | cons c rest ih =>
    rw [List.takeWhile_cons]
    split_ifs
    · simp only [List.length_cons]
      omega
    · simp

theorem cString_idem (buffer : Text) : cString (cString buffer) = cString buffer := by
  unfold cString
  induction buffer with
  | nil => rfl
  | cons c rest ih =>
    by_cases hc : decide (c ≠ NUL) = true
    · rw [List.takeWhile_cons, if_pos hc, List.takeWhile_cons, if_pos hc, ih]
    · rw [List.takeWhile_cons, if_neg hc]
      rfl

theorem split_string_short (line : Text) (tokenCount : Int) (delimitter : Text)
    (h : line.length ≤ 64) :
    split_string line tokenCount delimitter =
      .ok (tokensOf delimitter (cString line) [],
        tokenCount + (if tokensOf delimitter (cString line) [] = [] then 1
          else ((tokensOf delimitter (cString line) []).length : Int))) := by
  unfold split_string
  have h1 := tokensOf_length delimitter (cString line) []
  have h2 := cString_length line
  simp only [if_true] at h1
  rw [if_neg (by omega)]

theorem cString_ne_nil {buffer : Text} (h : buffer ≠ []) (hnul : buffer.head? ≠ some NUL) :
    cString buffer ≠ [] := by
  cases buffer with
  | nil => exact absurd rfl h
  | cons c rest =>
    have hc : c ≠ NUL := fun hc => hnul (by rw [hc]; rfl)
    unfold cString
    rw [List.takeWhile_cons, if_pos (by simpa using hc)]
    simp

/-- One manual read: the held values are kept when the line asks for nothing, and replaced
by the request of the line otherwise. -/
theorem get_move_manual_eq {input line tail : Text} (height width : Int)
    (hread : fgets 65 input = some (line, tail)) (hnul : line.head? ≠ some NUL) :
    get_move_manual height width input =
      .ok (some (match lineRequest line with
        | none => (height, width, tail)
        | some (r, c) => (r, c, tail))) := by
  obtain ⟨hne, hlen⟩ := fgets_some hread (by norm_num)
  have hc := cString_ne_nil hne hnul
  have hclen := cString_length line
  have hdrop : (cString line).dropLast.length ≤ 64 := by
    rw [List.length_dropLast]
    omega
  unfold get_move_manual lineRequest
  rw [hread]
  simp only [if_neg hc]
  by_cases hnl : (cString line).getLast? = some '\n'
  · simp only [if_pos hnl]
    by_cases hs : (cString line).dropLast.head? = some 's'
    · simp only [if_pos hs]
      rfl
    · simp only [if_neg hs, split_string_short _ 0 [' '] hdrop]
      by_cases ht : (tokensOf [' '] (cString (cString line).dropLast) []).length = 2
      · have hnil : tokensOf [' '] (cString (cString line).dropLast) [] ≠ [] := by
          intro h0
          rw [h0] at ht
          exact absurd ht (by decide)
        simp [ht, hnil, bind, Result.bind, pure]
      · by_cases hnil : tokensOf [' '] (cString (cString line).dropLast) [] = []
        · simp [hnil, bind, Result.bind, pure]
        · have : ((tokensOf [' '] (cString (cString line).dropLast) []).length : Int) ≠ 2 := by
            omega
          simp [ht, hnil, this, bind, Result.bind, pure]
  · simp only [if_neg hnl]
    by_cases hs : (cString line).head? = some 's'
    · simp only [if_pos hs]
      rfl
    · simp only [if_neg hs, split_string_short _ 0 [' '] (by omega : (cString line).length ≤ 64)]
      by_cases ht : (tokensOf [' '] (cString (cString line)) []).length = 2
      · have hnil : tokensOf [' '] (cString (cString line)) [] ≠ [] := by
          intro h0
          rw [h0] at ht
          exact absurd ht (by decide)
        simp [ht, hnil, bind, Result.bind, pure]
      · by_cases hnil : tokensOf [' '] (cString (cString line)) [] = []
        · simp [hnil, bind, Result.bind, pure]
        · have : ((tokensOf [' '] (cString (cString line)) []).length : Int) ≠ 2 := by
            omega
          simp [ht, hnil, this, bind, Result.bind, pure]

theorem is_move_valid_false_of_ne {game : Game} {r c : Int}
    (h : ¬ is_move_valid r c game = .ok true) : is_move_valid r c game = .ok false := by
  rw [is_move_valid_eq] at h ⊢
  by_cases hd : decide (0 ≤ r ∧ r < game.height ∧ 0 ≤ c ∧ c < game.width ∧ game.board r c = '.')
      = true
  · rw [hd] at h
    exact absurd rfl h
  · rw [Bool.not_eq_true] at hd
    rw [hd]

/-- One pass of the do-while for a manual player whose line is not accepted: the game is
untouched, the player is asked again, and the values held in `height`, `width` are again
not a valid move. -/
theorem get_move_loop_rejected {who : Bool} {game : Game} {input line tail : Text}
    (hmanual : (if who then game.players1 else game.players0).isManual = true)
    (fuel : Nat) {height width : Int}
    (hheld : is_move_valid height width game = .ok false)
    (hread : fgets 65 input = some (line, tail)) (hnul : line.head? ≠ some NUL)
    (hrej : accepted game line = false) :
    ∃ height' width', is_move_valid height' width' game = .ok false ∧
      get_move_loop who (fuel + 1) height width game input =
        get_move_loop who fuel height' width' game tail := by
  rw [get_move_loop_succ]
  unfold get_move_body
  rw [if_pos hmanual, get_move_manual_eq height width hread hnul]
  unfold accepted at hrej
  cases hreq : lineRequest line with
  | none =>
    refine ⟨height, width, hheld, ?_⟩
    simp only [Result.bind, hheld]
    rfl
  | some p =>
    obtain ⟨r, c⟩ := p
    rw [hreq] at hrej
    have hinvalid : is_move_valid r c game = .ok false :=
      is_move_valid_false_of_ne (by simpa using hrej)
    refine ⟨r, c, hinvalid, ?_⟩
    simp only [Result.bind, hinvalid]
    rfl

/-- One pass of the do-while for a manual player whose line is accepted. -/
theorem get_move_loop_accepted {who : Bool} {game : Game} {input line tail : Text}
    (hmanual : (if who then game.players1 else game.players0).isManual = true)
    (fuel : Nat) (height width : Int) {r c : Int}
    (hread : fgets 65 input = some (line, tail)) (hnul : line.head? ≠ some NUL)
    (hreq : lineRequest line = some (r, c)) (hvalid : is_move_valid r c game = .ok true) :
    get_move_loop who (fuel + 1) height width game input = .ok (some (r, c, game, tail)) := by
  rw [get_move_loop_succ]
  unfold get_move_body
  rw [if_pos hmanual, get_move_manual_eq height width hread hnul, hreq]
  simp only [Result.bind, hvalid]
  rfl

/-- The do-while of `get_move` for a manual player: lines that are not accepted are read
and dropped, and the first accepted line gives the position. -/
theorem get_move_loop_manual {who : Bool} {game : Game} {good rest : Text} {r c : Int}
    (hmanual : (if who then game.players1 else game.players0).isManual = true)
    (hreq : lineRequest good = some (r, c)) (hvalid : is_move_valid r c game = .ok true) :
    ∀ (rejected : List Text) (input : Text) (height width : Int) (fuel : Nat),
      is_move_valid height width game = .ok false →
      ReadsAs input (rejected ++ [good]) rest →
      (∀ l ∈ rejected ++ [good], l.head? ≠ some NUL) →
      (∀ l ∈ rejected, accepted game l = false) →
      rejected.length + 1 ≤ fuel →
      get_move_loop who fuel height width game input = .ok (some (r, c, game, rest)) := by
  intro rejected
  induction rejected with
  | nil =>
    intro input height width fuel _ hread hnul _ hfuel
    obtain ⟨fuel, rfl⟩ : ∃ k, fuel = k + 1 := ⟨fuel - 1, by simp at hfuel; omega⟩
    cases hread with
    | cons h1 h2 =>
      cases h2
      exact get_move_loop_accepted hmanual fuel height width h1
        (hnul good (by simp)) hreq hvalid
  | cons line rejected ih =>
    intro input height width fuel hheld hread hnul hrej hfuel
    obtain ⟨fuel, rfl⟩ : ∃ k, fuel = k + 1 := ⟨fuel - 1, by simp at hfuel; omega⟩
    cases hread with
    | cons h1 h2 =>
      obtain ⟨height', width', hheld', hstep⟩ :=
        get_move_loop_rejected hmanual fuel hheld h1 (hnul line (by simp))
          (hrej line (by simp))
      rw [hstep]
      exact ih _ height' width' fuel hheld' h2
        (fun l hl => hnul l (by simp only [List.cons_append, List.mem_cons]; exact Or.inr hl))
        (fun l hl => hrej l (by simp only [List.mem_cons]; exact Or.inr hl))
        (by simp only [List.length_cons] at hfuel; omega)

/-- What `get_move` does for a manual player, with positions as `(int)strtol` reads them:
the lines before the first accepted one are dropped without a change to the game, and the
stone of the player goes to the position the first accepted line asks for. -/
theorem get_move_manual_lines {who : Bool} {game : Game} {good rest : Text} {r c : Int}
    (hmanual : (if who then game.players1 else game.players0).isManual = true)
    (rejected : List Text) (input : Text) (fuel : Nat)
    (hread : ReadsAs input (rejected ++ [good]) rest)
    (hnul : ∀ l ∈ rejected ++ [good], l.head? ≠ some NUL)
    (hrej : ∀ l ∈ rejected, accepted game l = false)
    (hreq : lineRequest good = some (r, c)) (hvalid : is_move_valid r c game = .ok true)
    (hlines : rejected.length + 1 ≤ fuel)
    (hfuel : (game.height * game.width).toNat ≤ fuel) :
    ∃ over, get_move fuel who game input =
      .ok (.placed over
        { game with
          board := fun i j => if i = r ∧ j = c then
            (if who then game.players1 else game.players0).playerName else game.board i j
          winner := if over then (if who then game.players1 else game.players0).playerName
            else game.winner } rest) := by
  have hheld : is_move_valid (-1) (-1) game = .ok false := by
    rw [is_move_valid_eq]
    simp
  exact get_move_of_loop
    (get_move_loop_manual hmanual hreq hvalid rejected input (-1) (-1) fuel hheld hread hnul
      hrej hlines) hfuel

/-! ## Loading a saved game -/

theorem load_header_ok {first : Text} {turn height width movesO movesX : Int}
    (h : HeaderOk first turn height width movesO movesX) :
    load_header first =
      .ok (some ({ initialize_game height width with isXTurn := decide (turn > 0) },
        movesO, movesX)) := by
  obtain ⟨t0, t1, t2, t3, t4, ht, r0, hturn, r1, h1, h1', r2, h2, h2', r3, h3, h3', r4, h4, h4'⟩ := h
  unfold load_header split_string
  rw [ht]
  have hturn' : ¬ (turn ≠ 0 ∧ turn ≠ 1) := by omega
  simp [bind, Result.bind, pure, r0, r1, r2, r3, r4, hturn', h1, h1', h2, h2', h3, h3', h4, h4']
  rw [if_neg (by omega), if_neg (by omega), if_neg (by omega), if_neg (by omega)]

theorem add_row_loop_succ (line : Nat → Char) (lineCount : Int) (remaining : Nat) (i : Int)
    (game : Game) :
    add_row_loop line lineCount (remaining + 1) i game =
      (lineChar line i).bind fun c =>
        if c ≠ 'O' ∧ c ≠ 'X' ∧ c ≠ '.' then .ok (-1, game)
        else (writeBoard game (lineCount - 1) i c).bind fun game =>
          add_row_loop line lineCount remaining (i + 1) game := by
  rw [add_row_loop]
  rfl

theorem not_legalCell_iff (c : Char) : (c ≠ 'O' ∧ c ≠ 'X' ∧ c ≠ '.') ↔ ¬ legalCell c := by
  unfold legalCell
  tauto

/-- The loop of `add_row_from_file` on a buffer that holds an illegal character at index
`q` (the terminator `fgets` stored): it stops at the first illegal character, never
reading past `q`, and otherwise writes the row. -/
theorem add_row_loop_run {line : Nat → Char} {lineCount : Int} {q : Nat} (hq : q < 150)
    (hill : ¬ legalCell (line q)) :
    ∀ (n i : Nat) (game : Game), i ≤ q → 0 ≤ lineCount - 1 → lineCount - 1 < game.height →
      (i : Int) + n ≤ game.width →
      ∃ b', add_row_loop line lineCount n i game =
          .ok (if ∀ k, k < n → legalCell (line (i + k)) then 0 else -1,
            { game with board := b' }) ∧
        ((∀ k, k < n → legalCell (line (i + k))) →
          b' = fun r c => if r = lineCount - 1 ∧ (i : Int) ≤ c ∧ c < i + n then line c.toNat
            else game.board r c) := by
  intro n
  induction n with
  | zero =>
    intro i game _ _ _ _
    refine ⟨game.board, ?_, ?_⟩
    · rw [add_row_loop]
      simp [pure]
    · intro _
      funext r c
      rw [if_neg (by omega)]
  | succ n ih =>
    intro i game hi h0 h1 hw
    rw [add_row_loop_succ]
    have hchar : lineChar line (i : Int) = .ok (line i) := by
      unfold lineChar
      rw [if_pos (by omega)]
      simp
    rw [hchar]
    simp only [Result.bind]
    by_cases hc : legalCell (line i)
    · rw [if_neg (by rw [not_legalCell_iff]; exact not_not.mpr hc)]
      have hne : i ≠ q := fun h => hill (h ▸ hc)
      have hin : inBounds game (lineCount - 1) i := ⟨h0, h1, by omega, by push_cast at hw; omega⟩
      unfold writeBoard
      rw [if_pos hin]
      simp only []
      obtain ⟨b', hrun, hboard⟩ := ih (i + 1)
        { game with board := fun r c =>
            if r = lineCount - 1 ∧ c = (i : Int) then line i else game.board r c }
        (by omega) h0 h1 (by push_cast at hw ⊢; omega)
      have hiff : (∀ k, k < n + 1 → legalCell (line (i + k))) ↔
          ∀ k, k < n → legalCell (line (i + 1 + k)) := by
        constructor
        · intro h k hk
          have := h (k + 1) (by omega)
          rwa [show i + (k + 1) = i + 1 + k by omega] at this
        · intro h k hk
          cases k with
          | zero => exact hc
          | succ k =>
            have := h k (by omega)
            rwa [show i + 1 + k = i + (k + 1) by omega] at this
      refine ⟨b', ?_, ?_⟩
      · push_cast at hrun
        rw [hrun]
        simp only [hiff]
      · intro hall
        rw [hboard (hiff.mp hall)]
        funext r c
        by_cases h1 : r = lineCount - 1 ∧ ((i : Int) + 1) ≤ c ∧ c < (i : Int) + 1 + n
        · have h2 : r = lineCount - 1 ∧ (i : Int) ≤ c ∧ c < (i : Int) + (n + 1 : Nat) := by
            push_cast; omega
          simp only [Nat.cast_add, Nat.cast_one]
          rw [if_pos h1, if_pos (by push_cast at h2; exact h2)]
        · simp only [Nat.cast_add, Nat.cast_one]
          rw [if_neg h1]
          by_cases h3 : r = lineCount - 1 ∧ c = (i : Int)
          · rw [if_pos h3, if_pos (by omega)]
            rw [h3.2]
            simp
          · rw [if_neg h3, if_neg (by omega)]
    · rw [if_pos (by rw [not_legalCell_iff]; exact hc)]
      refine ⟨game.board, ?_, ?_⟩
      · rw [if_neg]
        intro h
        exact hc (by simpa using h 0 (by omega))
      · intro h
        exact absurd (by simpa using h 0 (by omega)) hc


theorem storeLine_lt {prev : Nat → Char} {chunk : Text} {k : Nat} (h : k < chunk.length) :
    storeLine prev chunk k = chunk.getD k NUL := by
  unfold storeLine
  rw [if_pos h]

theorem storeLine_length (prev : Nat → Char) (chunk : Text) :
    storeLine prev chunk chunk.length = NUL := by
  unfold storeLine
  rw [if_neg (by omega), if_pos rfl]

theorem not_legalCell_NUL : ¬ legalCell NUL := by decide

theorem storeLine_legal_iff (prev : Nat → Char) (chunk : Text) (w : Nat) :
    (∀ k, k < w → legalCell (storeLine prev chunk (0 + k))) ↔
      w ≤ chunk.length ∧ ∀ c ∈ chunk.take w, legalCell c := by
  constructor
  · intro h
    have hw : w ≤ chunk.length := by
      by_contra hlt
      have := h chunk.length (by omega)
      rw [Nat.zero_add, storeLine_length] at this
      exact not_legalCell_NUL this
    refine ⟨hw, fun c hc => ?_⟩
    obtain ⟨k, hk, rfl⟩ := List.mem_iff_getElem.mp hc
    rw [List.length_take] at hk
    have hk' : k < chunk.length := by omega
    have := h k (by omega)
    rw [Nat.zero_add, storeLine_lt hk', List.getD_eq_getElem _ _ hk'] at this
    rw [List.getElem_take]
    exact this
  · rintro ⟨hw, h⟩ k hk
    have hk' : k < chunk.length := by omega
    rw [Nat.zero_add, storeLine_lt hk', List.getD_eq_getElem _ _ hk']
    apply h
    rw [List.mem_iff_getElem]
    exact ⟨k, by rw [List.length_take]; omega, by rw [List.getElem_take]⟩

theorem storeLine_newline_iff (prev : Nat → Char) (chunk : Text) {w : Nat}
    (hw : w ≤ chunk.length) :
    storeLine prev chunk w = '\n' ↔ chunk.getD w NUL = '\n' := by
  by_cases h : w < chunk.length
  · rw [storeLine_lt h]
  · have : w = chunk.length := by omega
    subst this
    rw [storeLine_length, List.getD_eq_default _ _ (le_refl _)]

/-- What `add_row_from_file` returns for the line `fgets` stored in the buffer. -/
theorem add_row_from_file_eq (prev : Nat → Char) (chunk : Text) (lineCount : Int) (game : Game)
    (hlc : 1 ≤ lineCount) (hw0 : 0 ≤ game.width) (hlen : chunk.length ≤ 144)
    (hw : lineCount < game.height → game.width < 150) :
    ∃ b', add_row_from_file (storeLine prev chunk) lineCount game =
        .ok (if rowOk game.height game.width lineCount chunk then 0 else -1,
          { game with board := b' }) ∧
      (rowOk game.height game.width lineCount chunk →
        b' = fun r c => if r = lineCount - 1 ∧ 0 ≤ c ∧ c < game.width
          then chunk.getD c.toNat NUL else game.board r c) := by
  have hcast : ((game.width.toNat : Nat) : Int) = game.width := Int.toNat_of_nonneg hw0
  have hloop : lineCount ≤ game.height →
      ∃ b', add_row_loop (storeLine prev chunk) lineCount game.width.toNat 0 game =
          .ok (if game.width.toNat ≤ chunk.length ∧
              (∀ c ∈ chunk.take game.width.toNat, legalCell c) then 0 else -1,
            { game with board := b' }) ∧
        ((game.width.toNat ≤ chunk.length ∧
            ∀ c ∈ chunk.take game.width.toNat, legalCell c) →
          b' = fun r c => if r = lineCount - 1 ∧ 0 ≤ c ∧ c < game.width
            then chunk.getD c.toNat NUL else game.board r c) := by
    intro hle
    by_cases hzero : game.width.toNat = 0
    · refine ⟨game.board, ?_, ?_⟩
      · rw [hzero, add_row_loop]
        simp [pure]
      · intro _
        funext r c
        rw [if_neg (by omega)]
    · obtain ⟨b', hrun, hboard⟩ := @add_row_loop_run (storeLine prev chunk) lineCount
        chunk.length (by omega)
        (by rw [storeLine_length]; exact not_legalCell_NUL) game.width.toNat 0 game
        (Nat.zero_le _) (by omega) (by omega) (by push_cast; omega)
      simp only [storeLine_legal_iff, Nat.cast_zero] at hrun hboard
      refine ⟨b', hrun, fun hall => ?_⟩
      rw [hboard hall]
      funext r c
      by_cases hin : r = lineCount - 1 ∧ 0 ≤ c ∧ c < game.width
      · rw [if_pos hin, if_pos (by omega)]
        exact storeLine_lt (by
          have : c.toNat < game.width.toNat := by omega
          omega)
      · rw [if_neg hin, if_neg (by omega)]
  unfold add_row_from_file
  by_cases h1 : lineCount < game.height
  · have hchar : lineChar (storeLine prev chunk) game.width =
        .ok (storeLine prev chunk game.width.toNat) := by
      unfold lineChar
      rw [if_pos ⟨hw0, hw h1⟩]
    rw [if_pos h1, hchar]
    by_cases hnl : storeLine prev chunk game.width.toNat = '\n'
    · obtain ⟨b', hrun, hboard⟩ := hloop (by omega)
      have hiff : rowOk game.height game.width lineCount chunk ↔
          (game.width.toNat ≤ chunk.length ∧
            ∀ c ∈ chunk.take game.width.toNat, legalCell c) := by
        unfold rowOk
        constructor
        · exact fun h => ⟨h.2.1, h.2.2.1⟩
        · exact fun h => ⟨by omega, h.1, h.2,
            fun _ => (storeLine_newline_iff prev chunk h.1).mp hnl⟩
      refine ⟨b', ?_, fun hok => hboard (hiff.mp hok)⟩
      simp only [bind, Result.bind, pure, hnl, ne_eq, not_true_eq_false, decide_False,
        Bool.false_eq_true, if_false, if_neg (by omega : ¬ lineCount > game.height), hrun, hiff]
    · have hnot : ¬ rowOk game.height game.width lineCount chunk := by
        intro hok
        exact hnl ((storeLine_newline_iff prev chunk hok.2.1).mpr (hok.2.2.2 h1))
      refine ⟨game.board, ?_, fun hok => absurd hok hnot⟩
      simp only [bind, Result.bind, pure, hnl, ne_eq, not_false_eq_true, decide_True,
        if_true, if_neg hnot]
  · rw [if_neg h1]
    by_cases h2 : lineCount > game.height
    · have hnot : ¬ rowOk game.height game.width lineCount chunk := fun hok => by
        have := hok.1
        omega
      refine ⟨game.board, ?_, fun hok => absurd hok hnot⟩
      simp only [bind, Result.bind, pure, Bool.false_eq_true, if_false, if_pos h2, if_neg hnot]
    · obtain ⟨b', hrun, hboard⟩ := hloop (by omega)
      have hiff : rowOk game.height game.width lineCount chunk ↔
          (game.width.toNat ≤ chunk.length ∧
            ∀ c ∈ chunk.take game.width.toNat, legalCell c) := by
        unfold rowOk
        constructor
        · exact fun h => ⟨h.2.1, h.2.2.1⟩
        · exact fun h => ⟨by omega, h.1, h.2, fun hlt => absurd hlt h1⟩
      refine ⟨b', ?_, fun hok => hboard (hiff.mp hok)⟩
      simp only [bind, Result.bind, pure, Bool.false_eq_true, if_false, if_neg h2, hrun, hiff]


theorem fgets_nil (size : Nat) : fgets size [] = none := by
  unfold fgets
  rw [if_pos rfl]

theorem load_rows_nil (fuel : Nat) (line : Nat → Char) (lineIndex : Int) (game : Game) :
    load_rows fuel [] line lineIndex game = .ok (0, game) := by
  unfold load_rows
  rw [fgets_nil]
  rfl

theorem load_rows_succ {stream chunk rest : Text} (fuel : Nat) (line : Nat → Char)
    (lineIndex : Int) (game : Game) (hread : fgets 145 stream = some (chunk, rest)) :
    load_rows (fuel + 1) stream line lineIndex game =
      (add_row_from_file (storeLine line chunk) lineIndex game).bind fun r =>
        if r.1 < 0 then .ok (-1, r.2)
        else load_rows fuel rest (storeLine line chunk) (lineIndex + 1) r.2 := by
  rw [load_rows, hread]
  rfl

/-- Rows of the accepted format are loaded. -/
theorem load_rows_ok {height width : Int} {lineIndex : Int} {stream : Text}
    (h : RowsOk height width lineIndex stream) :
    ∀ (fuel : Nat) (line : Nat → Char) (game : Game), game.height = height →
      game.width = width → 1 ≤ lineIndex → 0 ≤ width → height + 1 ≤ lineIndex + fuel →
      ∃ b', load_rows fuel stream line lineIndex game = .ok (0, { game with board := b' }) := by
  induction h with
  | done lineCount =>
    intro fuel line game _ _ _ _ _
    exact ⟨game.board, load_rows_nil fuel line lineCount game⟩
  | @row lineCount stream chunk rest hread hrow _ ih =>
    intro fuel line game hH hW hlc hw0 hfuel
    obtain ⟨-, hlen⟩ := fgets_some hread (by norm_num)
    have hle := hrow.1
    obtain ⟨fuel, rfl⟩ : ∃ k, fuel = k + 1 := ⟨fuel - 1, by omega⟩
    have hwlen := hrow.2.1
    obtain ⟨b1, hadd, -⟩ := add_row_from_file_eq line chunk lineCount game hlc (by omega)
      (by omega) (fun _ => by rw [hW]; omega)
    rw [if_pos (by rw [hH, hW]; exact hrow)] at hadd
    obtain ⟨b', hrest⟩ := ih fuel (storeLine line chunk) { game with board := b1 } hH hW
      (by omega) hw0 (by push_cast at hfuel; omega)
    refine ⟨b', ?_⟩
    rw [load_rows_succ fuel line lineCount game hread, hadd]
    simp only [Result.bind]
    rw [if_neg (by norm_num)]
    exact hrest

theorem load_game_eq {file first rest : Text} {game : Game} {movesO movesX : Int}
    (fuel : Nat) (scratch : Nat → Char) (hread : fgets 145 file = some (first, rest))
    (hheader : load_header first = .ok (some (game, movesO, movesX))) :
    load_game fuel file scratch =
      (load_rows fuel rest scratch 1 game).bind fun r =>
        if r.1 < 0 then .ok (-1, some r.2)
        else .ok (0, some { r.2 with
          players0 := initialize_player ['a'] r.2.players0 movesO
          players1 := initialize_player ['a'] r.2.players1 movesX }) := by
  unfold load_game
  rw [hread]
  simp only [hheader, bind, Result.bind, pure]

theorem digitChar_isDigit : ∀ d, d < 10 → (Char.ofNat (48 + d)).isDigit = true := by decide

theorem digitChar_value : ∀ d, d < 10 → (Char.ofNat (48 + d)).toNat - 48 = d := by decide

theorem natDigits_append : ∀ (fuel n : Nat) (acc : Text),
    natDigits fuel n acc = natDigits fuel n [] ++ acc := by
  intro fuel
  induction fuel with
  | zero => intro n acc; simp [natDigits]
  | succ fuel ih =>
    intro n acc
    rw [natDigits, natDigits]
    split_ifs
    · simp
    · rw [ih (n / 10) (Char.ofNat (48 + n % 10) :: acc), ih (n / 10) [Char.ofNat (48 + n % 10)]]
      simp

theorem natDigits_succ (fuel n : Nat) :
    natDigits (fuel + 1) n [] =
      if n / 10 = 0 then [Char.ofNat (48 + n % 10)]
      else natDigits fuel (n / 10) [] ++ [Char.ofNat (48 + n % 10)] := by
  rw [natDigits]
  split_ifs
  · rfl
  · rw [natDigits_append]

theorem natDigits_ne_nil (fuel n : Nat) : natDigits (fuel + 1) n [] ≠ [] := by
  rw [natDigits_succ]
  split_ifs <;> simp

theorem natDigits_isDigit : ∀ (fuel n : Nat), ∀ c ∈ natDigits fuel n [], c.isDigit = true := by
  intro fuel
  induction fuel with
  | zero => intro n c hc; simp [natDigits] at hc
  | succ fuel ih =>
    intro n c hc
    rw [natDigits_succ] at hc
    have hd := digitChar_isDigit (n % 10) (Nat.mod_lt _ (by norm_num))
    split_ifs at hc
    · simp only [List.mem_singleton] at hc
      rw [hc]; exact hd
    · simp only [List.mem_append, List.mem_singleton] at hc
      rcases hc with hc | hc
      · exact ih _ c hc
      · rw [hc]; exact hd

theorem digitsValue_append (xs : Text) (c : Char) :
    digitsValue (xs ++ [c]) = digitsValue xs * 10 + (c.toNat - 48) := by
  unfold digitsValue
  rw [List.foldl_append]
  rfl

theorem natDigits_value : ∀ (fuel n : Nat), n < fuel → digitsValue (natDigits fuel n []) = n := by
  intro fuel
  induction fuel with
  | zero => intro n h; omega
  | succ fuel ih =>
    intro n hn
    rw [natDigits_succ]
    have hd := digitChar_value (n % 10) (Nat.mod_lt _ (by norm_num))
    split_ifs with h0
    · have : digitsValue [Char.ofNat (48 + n % 10)] = (Char.ofNat (48 + n % 10)).toNat - 48 := by
        unfold digitsValue
        simp
      rw [this, hd]
      omega
    · rw [digitsValue_append, hd, ih (n / 10) (by omega)]
      omega

theorem natDigits_length : ∀ (fuel n k : Nat), n < 10 ^ (k + 1) →
    (natDigits fuel n []).length ≤ k + 1 := by
  intro fuel
  induction fuel with
  | zero => intro n k _; simp [natDigits]
  | succ fuel ih =>
    intro n k hn
    rw [natDigits_succ]
    split_ifs with h0
    · simp
    · cases k with
      | zero =>
        simp only [zero_add, pow_one] at hn
        omega
      | succ k =>
        simp only [List.length_append, List.length_singleton]
        have := ih (n / 10) k (by
          rw [pow_succ] at hn
          omega)
        omega

theorem digit_ne {c d : Char} (h : c.isDigit = true) (hd : d.isDigit = false) : c ≠ d := by
  intro e
  rw [e, hd] at h
  exact absurd h (by simp)

theorem isSpace_of_isDigit {c : Char} (h : c.isDigit = true) : isSpace c = false := by
  unfold isSpace
  simp only [Bool.or_eq_false_iff, decide_eq_false_iff_not]
  exact ⟨⟨⟨⟨⟨digit_ne h (by decide), digit_ne h (by decide)⟩, digit_ne h (by decide)⟩,
    digit_ne h (by decide)⟩, digit_ne h (by decide)⟩, digit_ne h (by decide)⟩

/-- `strtol` reads a non-empty run of digits completely. -/
theorem strtol_digits {digits : Text} (hne : digits ≠ [])
    (hall : ∀ c ∈ digits, c.isDigit = true) :
    strtol digits = (clampLong (digitsValue digits), []) := by
  cases digits with
  | nil => exact absurd rfl hne
  | cons c tl =>
    have hc : c.isDigit = true := hall c (by simp)
    have hbody : (c :: tl).dropWhile isSpace = c :: tl := by
      rw [List.dropWhile_cons_of_neg (by rw [isSpace_of_isDigit hc]; simp)]
    have hsign : ¬ ((c :: tl).head? = some '-' ∨ (c :: tl).head? = some '+') := by
      simp only [List.head?_cons, Option.some.injEq, not_or]
      exact ⟨digit_ne hc (by decide), digit_ne hc (by decide)⟩
    have hminus : ¬ (c :: tl).head? = some '-' := fun h => hsign (Or.inl h)
    have htake : (c :: tl).takeWhile Char.isDigit = c :: tl :=
      List.takeWhile_eq_self_iff.mpr hall
    have hdrop : (c :: tl).dropWhile Char.isDigit = [] :=
      List.dropWhile_eq_nil_iff.mpr hall
    unfold strtol
    simp only [hbody, if_neg hsign, htake, hdrop, if_neg hminus, reduceCtorEq, if_false]

theorem printInt_nonneg {v : Int} (h : 0 ≤ v) :
    printInt v = natDigits (v.toNat + 1) v.toNat [] := by
  unfold printInt
  rw [if_neg (by omega)]

theorem printInt_ne_nil {v : Int} (h : 0 ≤ v) : printInt v ≠ [] := by
  rw [printInt_nonneg h]
  exact natDigits_ne_nil _ _

theorem printInt_isDigit {v : Int} (h : 0 ≤ v) : ∀ c ∈ printInt v, c.isDigit = true := by
  rw [printInt_nonneg h]
  exact natDigits_isDigit _ _

theorem printInt_length {v : Int} (h : 0 ≤ v) (h1 : v ≤ 1000) : (printInt v).length ≤ 4 := by
  rw [printInt_nonneg h]
  exact natDigits_length _ _ 3 (by norm_num; omega)

/-- A number in 0..1000 written by `printf("%d")` is read back by `(int)strtol`. -/
theorem readInt_printInt {v : Int} (h : 0 ≤ v) (h1 : v ≤ 1000) :
    readInt (printInt v) = (v, false) := by
  unfold readInt
  rw [strtol_digits (printInt_ne_nil h) (printInt_isDigit h), printInt_nonneg h,
    natDigits_value _ _ (by omega)]
  have hv : ((v.toNat : Nat) : Int) = v := Int.toNat_of_nonneg h
  rw [hv]
  have hclamp : clampLong v = v := by
    unfold clampLong
    rw [if_neg (by omega), if_neg (by omega)]
  rw [hclamp, wrap32_of_range (by omega) (by omega)]
  simp


/-! ## The text written by `save_game` -/

theorem map_coe_list (l : List Nat) (f : Int → Char) :
    List.map f (do let a ← l; pure (a : Int)) = l.map fun (j : Nat) => f j := by
  induction l with
  | nil => rfl
  | cons a l ih =>
    simp only [List.bind_eq_flatMap, List.flatMap_cons, List.pure_def, List.singleton_append,
      List.map_cons] at ih ⊢
    rw [ih]

theorem save_game_eq (game : Game) :
    save_game game =
      headerText (if game.isXTurn then 1 else 0) game.height game.width
          game.players0.moveCounter game.players1.moveCounter ++
        '\n' :: rowsText game 0 game.height.toNat := by
  unfold save_game headerText rowsText rowCells
  simp only [List.append_assoc, List.cons_append, List.nil_append, List.range_eq_range',
    map_coe_list]

theorem tokensOf_run (delimiters : Text) :
    ∀ (t rest current : Text), (∀ c ∈ t, c ∉ delimiters) →
      tokensOf delimiters (t ++ rest) current = tokensOf delimiters rest (t.reverse ++ current) := by
  intro t
  induction t with
  | nil => intro rest current _; rfl
  | cons c t ih =>
    intro rest current h
    rw [List.cons_append, tokensOf, if_neg (h c (by simp)),
      ih rest (c :: current) (fun x hx => h x (by simp [hx]))]
    simp

theorem tokensOf_token (delimiters : Text) {t : Text} (c : Char) (rest : Text) (hne : t ≠ [])
    (h : ∀ x ∈ t, x ∉ delimiters) (hc : c ∈ delimiters) :
    tokensOf delimiters (t ++ c :: rest) [] = t :: tokensOf delimiters rest [] := by
  rw [tokensOf_run delimiters t _ [] h, tokensOf, if_pos hc, if_neg (by simpa using hne)]
  simp

theorem tokensOf_last (delimiters : Text) {t : Text} (hne : t ≠ [])
    (h : ∀ x ∈ t, x ∉ delimiters) : tokensOf delimiters t [] = [t] := by
  have := tokensOf_run delimiters t [] [] h
  rw [List.append_nil] at this
  rw [this, tokensOf, if_neg (by simpa using hne)]
  simp

theorem cString_eq_self {buffer : Text} (h : ∀ c ∈ buffer, c ≠ NUL) : cString buffer = buffer := by
  unfold cString
  exact List.takeWhile_eq_self_iff.mpr (fun c hc => by simpa using h c hc)

theorem readLine_line : ∀ (l rest : Text) (room : Nat), '\n' ∉ l → l.length < room →
    readLine room (l ++ '\n' :: rest) = (l ++ ['\n'], rest) := by
  intro l
  induction l with
  | nil =>
    intro rest room _ hroom
    obtain ⟨room, rfl⟩ : ∃ k, room = k + 1 := ⟨room - 1, by simp at hroom; omega⟩
    rw [List.nil_append, readLine, if_pos rfl]
    rfl
  | cons c l ih =>
    intro rest room hnl hroom
    obtain ⟨room, rfl⟩ : ∃ k, room = k + 1 := ⟨room - 1, by simp at hroom; omega⟩
    have hc : c ≠ '\n' := fun h => hnl (by simp [h])
    rw [List.cons_append, readLine, if_neg hc,
      ih rest room (fun h => hnl (by simp [h])) (by simp at hroom; omega)]
    rfl

theorem fgets_line (l rest : Text) (hnl : '\n' ∉ l) (hlen : l.length ≤ 143) :
    fgets 145 (l ++ '\n' :: rest) = some (l ++ ['\n'], rest) := by
  unfold fgets
  rw [if_neg (by simp), readLine_line l rest 144 hnl (by omega)]

theorem printInt_not_mem {v : Int} (h : 0 ≤ v) {d : Char} (hd : d.isDigit = false) :
    d ∉ printInt v :=
  fun hmem => digit_ne (printInt_isDigit h d hmem) hd rfl

theorem headerText_chars {turn height width movesO movesX : Int} (h0 : 0 ≤ turn)
    (h1 : 0 ≤ height) (h2 : 0 ≤ width) (h3 : 0 ≤ movesO) (h4 : 0 ≤ movesX) {d : Char}
    (hd : d.isDigit = false) (hcomma : d ≠ ',') :
    d ∉ headerText turn height width movesO movesX := by
  unfold headerText
  simp only [List.mem_append, List.mem_cons, not_or]
  exact ⟨printInt_not_mem h0 hd, hcomma, printInt_not_mem h1 hd, hcomma,
    printInt_not_mem h2 hd, hcomma, printInt_not_mem h3 hd, hcomma, printInt_not_mem h4 hd⟩

theorem headerText_length {turn height width movesO movesX : Int} (h0 : 0 ≤ turn)
    (h0' : turn ≤ 1000) (h1 : 0 ≤ height) (h1' : height ≤ 1000) (h2 : 0 ≤ width)
    (h2' : width ≤ 1000) (h3 : 0 ≤ movesO) (h3' : movesO ≤ 1000) (h4 : 0 ≤ movesX)
    (h4' : movesX ≤ 1000) :
    (headerText turn height width movesO movesX).length ≤ 143 := by
  unfold headerText
  simp only [List.length_append, List.length_cons]
  have := printInt_length h0 h0'
  have := printInt_length h1 h1'
  have := printInt_length h2 h2'
  have := printInt_length h3 h3'
  have := printInt_length h4 h4'
  omega

/-- The header line written by `save_game` has the format `load_game` accepts. -/
theorem headerOk_saved {turn height width movesO movesX : Int} (hturn : turn = 0 ∨ turn = 1)
    (h1 : 0 < height) (h1' : height ≤ 1000) (h2 : 0 < width) (h2' : width ≤ 1000)
    (h3 : 0 ≤ movesO) (h3' : movesO ≤ 1000) (h4 : 0 ≤ movesX) (h4' : movesX ≤ 1000) :
    HeaderOk (headerText turn height width movesO movesX ++ ['\n'])
      turn height width movesO movesX := by
  have h0 : 0 ≤ turn := by omega
  have hfree : ∀ {v : Int}, 0 ≤ v → ∀ x ∈ printInt v, x ∉ [','] := by
    intro v hv x hx
    simp only [List.mem_singleton]
    exact digit_ne (printInt_isDigit hv x hx) (by decide)
  have hlastfree : ∀ x ∈ printInt movesX ++ ['\n'], x ∉ [','] := by
    intro x hx
    simp only [List.mem_append, List.mem_singleton] at hx
    rcases hx with hx | hx
    · exact hfree h4 x hx
    · rw [hx]; decide
  have hnul : ∀ c ∈ headerText turn height width movesO movesX ++ ['\n'], c ≠ NUL := by
    intro c hc e
    simp only [List.mem_append, List.mem_singleton] at hc
    rcases hc with hc | hc
    · rw [e] at hc
      exact headerText_chars h0 (by omega) (by omega) h3 h4 (by decide) (by decide) hc
    · rw [e] at hc
      exact absurd hc (by decide)
  have htokens : tokensOf [','] (cString (headerText turn height width movesO movesX ++ ['\n']))
      [] = [printInt turn, printInt height, printInt width, printInt movesO,
        printInt movesX ++ ['\n']] := by
    rw [cString_eq_self hnul]
    unfold headerText
    simp only [List.append_assoc, List.cons_append]
    rw [tokensOf_token [','] ',' _ (printInt_ne_nil h0) (hfree h0) (by simp),
      tokensOf_token [','] ',' _ (printInt_ne_nil (by omega)) (hfree (by omega)) (by simp),
      tokensOf_token [','] ',' _ (printInt_ne_nil (by omega)) (hfree (by omega)) (by simp),
      tokensOf_token [','] ',' _ (printInt_ne_nil h3) (hfree h3) (by simp),
      tokensOf_last [','] (by simp) hlastfree]
  refine ⟨_, _, _, _, _, htokens, readInt_printInt h0 (by omega), hturn,
    readInt_printInt (by omega) h1', h1, h1', readInt_printInt (by omega) h2', h2, h2',
    readInt_printInt h3 h3', h3, h3', ?_, h4, h4'⟩
  rw [List.dropLast_concat]
  exact readInt_printInt h4 h4'


theorem rowCells_length (game : Game) (i : Nat) :
    (rowCells game i).length = game.width.toNat := by
  unfold rowCells
  simp

theorem rowCells_getD (game : Game) (i : Nat) {k : Nat} (hk : k < game.width.toNat) :
    (rowCells game i).getD k NUL = game.board i k := by
  unfold rowCells
  rw [List.getD_eq_getElem _ _ (by simpa using hk)]
  simp

theorem rowCells_legal (game : Game)
    (hlegal : ∀ r c, inBounds game r c → legalCell (game.board r c)) {i : Nat}
    (hi : (i : Int) < game.height) : ∀ c ∈ rowCells game i, legalCell c := by
  intro c hc
  unfold rowCells at hc
  simp only [List.mem_map, List.mem_range] at hc
  obtain ⟨j, hj, rfl⟩ := hc
  exact hlegal i j ⟨by omega, hi, by omega, by omega⟩

theorem rowsText_succ (game : Game) (first count : Nat) :
    rowsText game first (count + 1) =
      rowCells game first ++ '\n' :: rowsText game (first + 1) count := by
  unfold rowsText
  rw [List.range'_succ, List.flatMap_cons]
  simp

/-- The rows written by `save_game` are read back into the board. -/
theorem load_rows_saved (src : Game)
    (hlegal : ∀ r c, inBounds src r c → legalCell (src.board r c))
    (hH : 0 ≤ src.height) (hW0 : 0 ≤ src.width) (hW : src.width ≤ 143) :
    ∀ (n a : Nat) (g : Game) (line : Nat → Char) (fuel : Nat), g.height = src.height →
      g.width = src.width → a + n = src.height.toNat → n ≤ fuel →
      load_rows fuel (rowsText src a n) line (a + 1) g =
        .ok (0, { g with
          board := fun r c =>
            if ((a : Int) ≤ r ∧ r < src.height ∧ 0 ≤ c ∧ c < src.width) then src.board r c
            else g.board r c }) := by
  intro n
  induction n with
  | zero =>
    intro a g line fuel _ _ ha _
    have hstream : rowsText src a 0 = [] := rfl
    rw [hstream, load_rows_nil]
    congr 2
    have : g.board = fun r c =>
        if (a : Int) ≤ r ∧ r < src.height ∧ 0 ≤ c ∧ c < src.width then src.board r c
        else g.board r c := by
      funext r c
      rw [if_neg (by omega)]
    rw [← this]
  | succ n ih =>
    intro a g line fuel hgH hgW ha hfuel
    obtain ⟨fuel, rfl⟩ : ∃ k, fuel = k + 1 := ⟨fuel - 1, by omega⟩
    have hrow : (a : Int) < src.height := by omega
    have hcells := rowCells_legal src hlegal hrow
    have hlen := rowCells_length src a
    have hnl : '\n' ∉ rowCells src a := fun h => absurd (hcells _ h) (by decide)
    have hread := fgets_line (rowCells src a) (rowsText src (a + 1) n) hnl (by omega)
    rw [rowsText_succ, load_rows_succ fuel line _ g hread]
    have hok : rowOk g.height g.width (a + 1) (rowCells src a ++ ['\n']) := by
      refine ⟨by omega, by simp; omega, ?_, fun _ => ?_⟩
      · rw [hgW, ← hlen, List.take_left]
        exact hcells
      · rw [hgW, ← hlen, List.getD_append_right _ _ _ _ (le_refl _)]
        simp
    obtain ⟨b1, hadd, hb1⟩ := add_row_from_file_eq line (rowCells src a ++ ['\n']) (a + 1) g
      (by omega) (by omega) (by simp; omega) (fun _ => by omega)
    rw [hadd, if_pos hok]
    simp only [Result.bind]
    rw [if_neg (by norm_num)]
    have := ih (a + 1) { g with board := b1 } (storeLine line (rowCells src a ++ ['\n'])) fuel
      hgH hgW (by omega) (by omega)
    push_cast at this
    rw [this]
    congr 2
    simp only [Game.mk.injEq, true_and, and_true]
    funext r c
    rw [hb1 hok]
    by_cases h1 : (a : Int) + 1 ≤ r ∧ r < src.height ∧ 0 ≤ c ∧ c < src.width
    · rw [if_pos h1, if_pos (by omega)]
    · rw [if_neg h1]
      beta_reduce
      by_cases h2 : r = (a : Int) + 1 - 1 ∧ 0 ≤ c ∧ c < g.width
      · rw [if_pos h2, if_pos (by omega)]
        have hk : c.toNat < src.width.toNat := by omega
        rw [List.getD_append _ _ _ _ (by omega), rowCells_getD src a hk]
        have hr : r = (a : Int) := by omega
        have hc : ((c.toNat : Nat) : Int) = c := Int.toNat_of_nonneg h2.2.1
        rw [hr, hc]
      · rw [if_neg h2, if_neg (by omega)]

/-! ## The search state holds cells of the mark only -/

theorem card_marked (game : Game) (mark : Char) (hH : 0 ≤ game.height) (hW : 0 ≤ game.width)
    (l : List Cell) (hnd : l.Nodup)
    (h : ∀ c ∈ l, inBounds game c.1 c.2 ∧ game.board c.1 c.2 = mark) :
    (l.length : Int) ≤ game.height * game.width :=
  card_inBounds game hH hW l hnd (fun c hc => (h c hc).1)

theorem markState_searchState {game : Game} {mark : Char} {s : Stack}
    (h : MarkState game mark s) : SearchState game s :=
  ⟨h.1, h.2.1, ⟨h.2.2.sub, h.2.2.nodupLog, h.2.2.nodupStk, fun c hc => (h.2.2.inb c hc).1,
    h.2.2.len⟩⟩

theorem frontLoop_inv (M : Int) (inB : Cell → Prop) (edge : Cell → Bool)
    (nbrs : Cell → List Cell)
    (hcard : ∀ l : List Cell, l.Nodup → (∀ c ∈ l, inB c) → (l.length : Int) ≤ M)
    (hnb : ∀ c d, inB c → d ∈ nbrs c → inB d) :
    ∀ (fuel : Nat) (F : Front) (vis : List Cell) (b : Bool) (F' : Front) (vis' : List Cell),
      FrontInv inB F → frontLoop M edge nbrs fuel F vis = some (b, F', vis') →
      FrontInv inB F' := by
  intro fuel
  induction fuel with
  | zero =>
    intro F vis b F' vis' hF hrun
    obtain ⟨stk, log⟩ := F
    cases stk with
    | nil =>
      rw [frontLoop] at hrun
      simp only [Option.some.injEq, Prod.mk.injEq] at hrun
      rw [← hrun.2.1]
      exact hF
    | cons c stk =>
      rw [frontLoop] at hrun
      exact absurd hrun (by simp)
  | succ fuel ih =>
    intro F vis b F' vis' hF hrun
    obtain ⟨stk, log⟩ := F
    cases stk with
    | nil =>
      rw [frontLoop] at hrun
      simp only [Option.some.injEq, Prod.mk.injEq] at hrun
      rw [← hrun.2.1]
      exact hF
    | cons c stk =>
      rw [frontLoop] at hrun
      by_cases he : edge c = true
      · rw [if_pos he] at hrun
        simp only [Option.some.injEq, Prod.mk.injEq] at hrun
        rw [← hrun.2.1]
        exact hF.tail
      · rw [if_neg he] at hrun
        have hc : inB c := hF.inb c (hF.sub c (List.mem_cons_self _ _))
        obtain ⟨i1, -, -⟩ := foldl_push_inv M inB hcard (nbrs c) ⟨stk, log⟩ hF.tail
          (fun d hd => hnb c d hc hd)
        exact ih _ _ _ _ _ i1 hrun

theorem markState_seed (game : Game) (mark : Char) (row column : Int)
    (hseed : inBounds game row column) (hmark : game.board row column = mark) :
    MarkState game mark (push (initialize_stack game) row column) ∧
      ∀ s : Stack, s.maxSize = game.height * game.width →
        MarkState game mark (reseed s row column) := by
  obtain ⟨-, -, hHW⟩ := size_pos game hseed
  have hinv : FrontInv (fun c => inBounds game c.1 c.2 ∧ game.board c.1 c.2 = mark)
      ⟨[(row, column)], [(row, column)]⟩ :=
    ⟨fun c hc => hc, List.nodup_singleton _, List.nodup_singleton _,
      fun c hc => by rw [List.mem_singleton.mp hc]; exact ⟨hseed, hmark⟩, le_rfl⟩
  constructor
  · obtain ⟨f1, f2, f3⟩ := fresh_seed game row column hHW
    exact ⟨f1, f2, by rw [f3]; exact hinv⟩
  · intro s hM
    obtain ⟨f1, f2, f3⟩ := reseed_seed game s row column hM hHW
    exact ⟨f1, f2, by rw [f3]; exact hinv⟩

theorem markState_pushAll (game : Game) (mark : Char) (hH : 0 ≤ game.height)
    (hW : 0 ≤ game.width) (s : Stack) (hs : MarkState game mark s) (cells : List Cell)
    (hcells : ∀ c ∈ cells, inBounds game c.1 c.2 ∧ game.board c.1 c.2 = mark) :
    MarkState game mark (pushAll s cells) := by
  obtain ⟨hwf, hM, hinv⟩ := hs
  obtain ⟨f1, f2, f3⟩ := pushAll_front cells s hwf
  refine ⟨f2, f3.trans hM, ?_⟩
  rw [f1, hM]
  exact (foldl_push_inv _ _ (card_marked game mark hH hW) cells s.front hinv hcells).1

theorem markState_push (game : Game) (mark : Char) (hH : 0 ≤ game.height)
    (hW : 0 ≤ game.width) (s : Stack) (hs : MarkState game mark s) (r c : Int)
    (hin : inBounds game r c) (hmark : game.board r c = mark) :
    MarkState game mark (push s r c) := by
  have := markState_pushAll game mark hH hW s hs [(r, c)] (fun x hx => by
    rw [List.mem_singleton.mp hx]; exact ⟨hin, hmark⟩)
  exact this

theorem markState_pop (game : Game) (mark : Char) (s : Stack) (hs : MarkState game mark s)
    (r0 c0 : Int) (hpos : s.count > 0) :
    MarkState game mark (pop s r0 c0).1 ∧
      inBounds game (pop s r0 c0).2.1 (pop s r0 c0).2.2 ∧
      game.board (pop s r0 c0).2.1 (pop s r0 c0).2.2 = mark := by
  obtain ⟨hwf, hM, hinv⟩ := hs
  obtain ⟨p1, p2, p3, p4⟩ := pop_front s r0 c0 hwf hpos
  have hf : s.front = ⟨((pop s r0 c0).2.1, (pop s r0 c0).2.2) :: (pop s r0 c0).1.front.stk,
      (pop s r0 c0).1.front.log⟩ := by
    rw [← p1, p2]
  rw [hf] at hinv
  exact ⟨⟨p3, p4.trans hM, hinv.tail⟩, hinv.inb _ (hinv.sub _ (List.mem_cons_self _ _))⟩

/-- A search loop started in a `MarkState` returns with enough fuel, and whenever it
returns the stack is again in a `MarkState`. -/
theorem markState_searchLoop (game : Game) (mark : Char) (hH : 0 ≤ game.height)
    (hW : 0 ≤ game.width) (test : Int → Int → Result Bool)
    (add : Stack → Int → Int → Result Stack) (row0 column0 : Int)
    (edge : Cell → Bool) (nbrs : Cell → List Cell)
    (htest : ∀ r c, inBounds game r c → test r c = .ok (edge (r, c)))
    (hadd : ∀ s r c, inBounds game r c → add s r c = .ok (pushAll s (nbrs (r, c))))
    (hnb : ∀ c d, inBounds game c.1 c.2 → d ∈ nbrs c →
      inBounds game d.1 d.2 ∧ game.board d.1 d.2 = mark)
    (s : Stack) (hs : MarkState game mark s) :
    (∀ fuel, (game.height * game.width).toNat ≤ fuel →
        ∃ r, searchLoop test add row0 column0 fuel s [] = .ok r) ∧
      ∀ fuel b s' vis', searchLoop test add row0 column0 fuel s [] = .ok (b, s', vis') →
        MarkState game mark s' := by
  obtain ⟨hwf, hM, hinv⟩ := hs
  have hnbP : ∀ c d : Cell, (inBounds game c.1 c.2 ∧ game.board c.1 c.2 = mark) →
      d ∈ nbrs c → (inBounds game d.1 d.2 ∧ game.board d.1 d.2 = mark) :=
    fun c d hc hd => hnb c d hc.1 hd
  have href := fun fuel => searchLoop_front game _ test add row0 column0 edge nbrs htest hadd
    (fun c d hc hd => (hnb c d hc hd).1) fuel s [] hwf hM
    (fun c hc => (hinv.inb c (hinv.sub c hc)).1)
  constructor
  · intro fuel hfuel
    have hlen := hinv.len
    have hcard := card_marked game mark hH hW _ hinv.nodupLog hinv.inb
    obtain ⟨r, hr⟩ := frontLoop_terminates (game.height * game.width) _ edge nbrs
      (card_marked game mark hH hW) hnbP fuel s.front [] hinv (by omega)
    have h := href fuel
    rw [hr] at h
    obtain ⟨s', h1, -⟩ := h
    exact ⟨_, h1⟩
  · intro fuel b s' vis' hrun
    have h := href fuel
    rcases hfl : frontLoop (game.height * game.width) edge nbrs fuel s.front []
      with _ | ⟨b1, F, vis1⟩
    · rw [hfl] at h
      simp only at h
      rw [hrun] at h
      exact absurd h (by simp)
    · rw [hfl] at h
      obtain ⟨s1, h1, h2, h3, h4⟩ := h
      rw [hrun] at h1
      simp only [Result.ok.injEq, Prod.mk.injEq] at h1
      obtain ⟨rfl, rfl, rfl⟩ := h1
      refine ⟨h3, h4, ?_⟩
      rw [h2]
      exact frontLoop_inv _ _ edge nbrs (card_marked game mark hH hW) hnbP fuel _ _ _ _ _
        hinv hfl

/-- The same for a `check_*` function, given as its search loop without the trace. -/
theorem markState_check (game : Game) (mark : Char) (hH : 0 ≤ game.height)
    (hW : 0 ≤ game.width) (check : Nat → Stack → Result (Bool × Stack))
    (test : Int → Int → Result Bool)
    (add : Stack → Int → Int → Result Stack) (row0 column0 : Int)
    (edge : Cell → Bool) (nbrs : Cell → List Cell)
    (heq : ∀ fuel s, check fuel s =
      (searchLoop test add row0 column0 fuel s []).map (fun x => (x.1, x.2.1)))
    (htest : ∀ r c, inBounds game r c → test r c = .ok (edge (r, c)))
    (hadd : ∀ s r c, inBounds game r c → add s r c = .ok (pushAll s (nbrs (r, c))))
    (hnb : ∀ c d, inBounds game c.1 c.2 → d ∈ nbrs c →
      inBounds game d.1 d.2 ∧ game.board d.1 d.2 = mark)
    (s : Stack) (hs : MarkState game mark s) (fuel : Nat)
    (hfuel : (game.height * game.width).toNat ≤ fuel) :
    ∃ b s', check fuel s = .ok (b, s') ∧ MarkState game mark s' := by
  obtain ⟨h1, h2⟩ := markState_searchLoop game mark hH hW test add row0 column0 edge nbrs
    htest hadd hnb s hs
  obtain ⟨⟨b, s', vis'⟩, hr⟩ := h1 fuel hfuel
  refine ⟨b, s', ?_, h2 fuel b s' vis' hr⟩
  rw [heq, hr]
  rfl


/-- What `push` of an in-bounds cell holding the mark does in a `MarkState`: on a full
stack or a full log the cell is already logged; a logged cell changes nothing; a new cell
is written at index `logCount` of the log and index `count` of the stack, both below
`H * W`. -/
theorem markState_push_writes (game : Game) (mark : Char) (hH : 0 ≤ game.height)
    (hW : 0 ≤ game.width) (s : Stack) (hs : MarkState game mark s) (r c : Int)
    (hin : inBounds game r c) (hmark : game.board r c = mark) :
    (s.count = s.maxSize → (r, c) ∈ s.logged) ∧
    (s.logCount = s.maxSize → (r, c) ∈ s.logged) ∧
    ((r, c) ∈ s.logged →
      (push s r c).count = s.count ∧ (push s r c).logCount = s.logCount ∧
      (push s r c).rows = s.rows ∧ (push s r c).columns = s.columns ∧
      (push s r c).rowLog = s.rowLog ∧ (push s r c).columnLog = s.columnLog) ∧
    ((r, c) ∉ s.logged →
      0 ≤ s.count ∧ s.count < game.height * game.width ∧
      0 ≤ s.logCount ∧ s.logCount < game.height * game.width ∧
      (push s r c).rows = store s.rows s.count r ∧
      (push s r c).columns = store s.columns s.count c ∧
      (push s r c).rowLog = store s.rowLog s.logCount r ∧
      (push s r c).columnLog = store s.columnLog s.logCount c ∧
      (push s r c).count = s.count + 1 ∧ (push s r c).logCount = s.logCount + 1) := by
  have hss := markState_searchState hs
  obtain ⟨hwf, hM, hinv⟩ := hs
  have hnew : (r, c) ∉ s.logged →
      0 ≤ s.count ∧ s.count < game.height * game.width ∧
      0 ≤ s.logCount ∧ s.logCount < game.height * game.width := by
    intro h
    have hnd : ((r, c) :: s.logged).Nodup := List.nodup_cons.mpr ⟨h, hinv.nodupLog⟩
    have hle := card_marked game mark hH hW _ hnd (by
      intro x hx
      rcases List.mem_cons.mp hx with rfl | hx
      · exact ⟨hin, hmark⟩
      · exact hinv.inb x hx)
    have hlen := hinv.len
    simp only [Stack.front, Stack.cells, Stack.logged, length_entries, List.length_cons]
      at hle hlen
    have h0 := hwf.1
    have h1 := hwf.2
    push_cast at hle
    omega
  refine ⟨?_, ?_, ?_, ?_⟩
  · intro hfull
    by_contra h
    exact searchState_not_full game s hss r c hin h hfull
  · intro hfull
    by_contra h
    have := (hnew h).2.2.2
    omega
  · intro h
    obtain ⟨h1, h2, h3, h4, h5, h6, -⟩ := push_of_logged s r c h
    exact ⟨h1, h2, h3, h4, h5, h6⟩
  · intro h
    obtain ⟨n1, n2, n3, n4⟩ := hnew h
    obtain ⟨b, b1, b2, b3, b4, b5, b6, b7, hp⟩ :=
      push_of_not_full s r c (searchState_not_full game s hss r c hin h)
    have hnin : ¬ (inLog b r c = true) := by
      rw [inLog_iff]
      simpa only [Stack.logged, b3, b4, b5] using h
    rw [hp, if_neg hnin]
    refine ⟨n1, n2, n3, n4, ?_, ?_, ?_, ?_, ?_, ?_⟩
    · show store b.rows b.count r = _
      rw [b1, b6]
    · show store b.columns b.count c = _
      rw [b2, b6]
    · show store b.rowLog b.logCount r = _
      rw [b3, b5]
    · show store b.columnLog b.logCount c = _
      rw [b4, b5]
    · show b.count + 1 = _
      rw [b6]
    · show b.logCount + 1 = _
      rw [b5]

/-! ## The search over `push` against the search with the block sizes -/

theorem sized_scan_eq (s : Sized) (row column : Int) :
    ∀ (remaining i : Nat) (found : Bool), Sized.scan s row column remaining i = .ok found →
      found = (List.range' i remaining).any
        fun j => decide (s.stack.rowLog j = row ∧ s.stack.columnLog j = column) := by
  intro remaining
  induction remaining with
  | zero =>
    intro i found h
    rw [Sized.scan] at h
    simp only [Result.ok.injEq] at h
    rw [← h]
    rfl
  | succ remaining ih =>
    intro i found h
    rw [Sized.scan] at h
    split_ifs at h with h1 h2
    · simp only [Result.ok.injEq] at h
      rw [← h, List.range'_succ, List.any_cons]
      simp [h2]
    · rw [List.range'_succ, List.any_cons, ih (i + 1) found h]
      simp [h2]

/-- Whenever `Sized.push` returns, its stack is the one `push` returns: `push` describes
the calls that stay inside the log blocks. -/
theorem sized_push_stack {s s' : Sized} {row column : Int}
    (h : Sized.push s row column = .ok s') : s'.stack = push s.stack row column := by
  unfold Sized.push at h
  unfold push
  by_cases hfull : s.stack.count = s.stack.maxSize
  · rw [if_pos hfull] at h ⊢
    simp only [Result.ok.injEq] at h
    rw [← h]
  · rw [if_neg hfull] at h ⊢
    obtain ⟨found, hscan, hrest⟩ := result_bind_eq_ok h
    have hfound := sized_scan_eq _ row column _ 0 found hscan
    by_cases hlc : s.stack.logCount = s.stack.maxSize
    · have hg : Sized.grow s = Sized.realloc s := by
        unfold Sized.grow
        rw [if_pos hlc]
      rw [hg] at hfound hrest
      rw [if_pos hlc]
      have hlog : inLog { s.stack with logSize := s.stack.logSize * 2 } row column = found := by
        rw [hfound]
        unfold inLog Sized.realloc
        rw [List.range_eq_range']
      simp only []
      simp only [] at hlog
      rw [hlog]
      cases found with
      | true =>
        simp only [if_true, Result.ok.injEq] at hrest ⊢
        rw [← hrest]
        rfl
      | false =>
        simp only [Bool.false_eq_true, if_false] at hrest ⊢
        unfold Sized.append at hrest
        split_ifs at hrest with hw hk
        all_goals
          simp only [Result.ok.injEq] at hrest
          rw [← hrest]
          rfl
    · have hg : Sized.grow s = s := by
        unfold Sized.grow
        rw [if_neg hlc]
      rw [hg] at hfound hrest
      rw [if_neg hlc]
      have hlog : inLog s.stack row column = found := by
        rw [hfound]
        unfold inLog
        rw [List.range_eq_range']
      simp only []
      rw [hlog]
      cases found with
      | true =>
        simp only [if_true, Result.ok.injEq] at hrest ⊢
        rw [← hrest]
      | false =>
        simp only [Bool.false_eq_true, if_false] at hrest ⊢
        unfold Sized.append at hrest
        split_ifs at hrest with hw hk
        all_goals
          simp only [Result.ok.injEq] at hrest
          rw [← hrest]

/-- A search that has left its blocks does so with more fuel too. -/
theorem sized_searchLoop_fault (test : Int → Int → Result Bool)
    (add : Sized → Int → Int → Result Sized) (row0 column0 : Int) :
    ∀ (fuel : Nat) (s : Sized),
      Sized.searchLoop test add row0 column0 fuel s = .outOfBounds →
      Sized.searchLoop test add row0 column0 (fuel + 1) s = .outOfBounds := by
  intro fuel
  induction fuel with
  | zero =>
    intro s h
    rw [Sized.searchLoop] at h
    split_ifs at h
  | succ fuel ih =>
    intro s h
    rw [Sized.searchLoop] at h ⊢
    split_ifs at h ⊢ with hc
    cases hp : Sized.pass test add row0 column0 s with
    | ok r =>
      rw [hp] at h
      simp only [Result.bind] at h ⊢
      split_ifs at h ⊢ with hr
      exact ih r.2 h
    | outOfBounds => rfl
    | divisionByZero =>
      rw [hp] at h
      exact absurd h (by simp [Result.bind])
    | outOfFuel =>
      rw [hp] at h
      exact absurd h (by simp [Result.bind])

theorem fullBottomSearch_fault : ∀ fuel : Nat, 6 ≤ fuel → fullBottomSearch fuel = .outOfBounds := by
  intro fuel hfuel
  induction fuel, hfuel using Nat.le_induction with
  | base => decide!
  | succ n _ ih =>
    unfold fullBottomSearch at ih ⊢
    cases hseed : fullSeed with
    | ok s =>
      rw [hseed] at ih
      simp only [Result.bind] at ih ⊢
      have hrun : Sized.check_bottom n s 'X' fullBoard = .outOfBounds := by
        cases hr : Sized.check_bottom n s 'X' fullBoard with
        | ok r =>
          rw [hr] at ih
          exact absurd ih (by simp [Result.map])
        | outOfBounds => rfl
        | divisionByZero =>
          rw [hr] at ih
          exact absurd ih (by simp [Result.map])
        | outOfFuel =>
          rw [hr] at ih
          exact absurd ih (by simp [Result.map])
      have hnext : Sized.check_bottom (n + 1) s 'X' fullBoard = .outOfBounds :=
        sized_searchLoop_fault _ _ _ _ n s hrun
      rw [hnext]
      rfl
    | outOfBounds => rfl
    | divisionByZero =>
      rw [hseed] at ih
      exact absurd ih (by simp [Result.bind])
    | outOfFuel =>
      rw [hseed] at ih
      exact absurd ih (by simp [Result.bind])

theorem sized_pop_stack {s s' : Sized} {row column row' column' : Int}
    (h : Sized.pop s row column = .ok (s', row', column')) :
    pop s.stack row column = (s'.stack, row', column') := by
  unfold Sized.pop at h
  unfold pop
  split_ifs at h ⊢ with h0 h1
  · simp only [Result.ok.injEq, Prod.mk.injEq] at h
    obtain ⟨rfl, rfl, rfl⟩ := h
    rfl
  · simp only [Result.ok.injEq, Prod.mk.injEq] at h
    obtain ⟨rfl, rfl, rfl⟩ := h
    rfl

theorem sized_pushIfMark_stack {s s' : Sized} {game : Game} {value : Char} {row column : Int}
    (h : Sized.pushIfMark s game value row column = .ok s') :
    pushIfMark s.stack game value row column = .ok s'.stack := by
  unfold Sized.pushIfMark at h
  obtain ⟨cell, hcell, hrest⟩ := result_bind_eq_ok h
  show (readBoard game row column).bind
    (fun cell => if cell = value then .ok (push s.stack row column) else .ok s.stack) = _
  rw [hcell]
  simp only [Result.bind]
  split_ifs at hrest ⊢ with hv
  · rw [sized_push_stack hrest]
  · simp only [Result.ok.injEq] at hrest
    rw [hrest]

theorem result_ok_bind {α β : Type} (a : α) (f : α → Result β) :
    (Result.ok a).bind f = f a := rfl

theorem result_bind_assoc {α β γ : Type} (x : Result α) (f : α → Result β)
    (g : β → Result γ) : (x.bind f).bind g = x.bind fun a => (f a).bind g := by
  cases x <;> rfl

theorem sized_bind_stack {x : Result Sized} {y : Result Stack} {f : Sized → Result Sized}
    {g : Stack → Result Stack} (hx : ∀ s', x = .ok s' → y = .ok s'.stack)
    (hf : ∀ s s', f s = .ok s' → g s.stack = .ok s'.stack) :
    ∀ s', x.bind f = .ok s' → y.bind g = .ok s'.stack := by
  intro s' h
  obtain ⟨s1, h1, h2⟩ := result_bind_eq_ok h
  rw [hx s1 h1]
  exact hf s1 s' h2

theorem sized_add_top_stack (s : Sized) (row column : Int) (game : Game) (value : Char) :
    ∀ s', Sized.add_top_cells_to_stack s row column game value = .ok s' →
      add_top_cells_to_stack s.stack row column game value = .ok s'.stack := by
  unfold Sized.add_top_cells_to_stack add_top_cells_to_stack
  simp only [bind, pure]
  by_cases c1 : column > 0 <;> by_cases c2 : row > 0 <;>
    by_cases c3 : column < game.width - 1 <;>
    simp only [c1, c2, c3, if_true, if_false, result_ok_bind, result_bind_assoc] <;>
    repeat (first
      | exact fun _ h => sized_pushIfMark_stack h
      | exact fun _ h => by rw [Result.ok.inj h]
      | refine sized_bind_stack (fun _ h => sized_pushIfMark_stack h) (fun _ => ?_))

theorem sized_add_bottom_stack (s : Sized) (row column : Int) (game : Game) (value : Char) :
    ∀ s', Sized.add_bottom_cells_to_stack s row column game value = .ok s' →
      add_bottom_cells_to_stack s.stack row column game value = .ok s'.stack := by
  unfold Sized.add_bottom_cells_to_stack add_bottom_cells_to_stack
  simp only [bind, pure]
  by_cases c1 : column > 0 <;> by_cases c2 : row < game.height - 1 <;>
    by_cases c3 : column < game.width - 1 <;>
    simp only [c1, c2, c3, if_true, if_false, result_ok_bind, result_bind_assoc] <;>
    repeat (first
      | exact fun _ h => sized_pushIfMark_stack h
      | exact fun _ h => by rw [Result.ok.inj h]
      | refine sized_bind_stack (fun _ h => sized_pushIfMark_stack h) (fun _ => ?_))

theorem sized_add_left_stack (s : Sized) (row column : Int) (game : Game) (value : Char) :
    ∀ s', Sized.add_left_cells_to_stack s row column game value = .ok s' →
      add_left_cells_to_stack s.stack row column game value = .ok s'.stack := by
  unfold Sized.add_left_cells_to_stack add_left_cells_to_stack
  simp only [bind, pure]
  by_cases c1 : column > 0 <;> by_cases c2 : row > 0 <;>
    by_cases c3 : row < game.height - 1 <;>
    simp only [c1, c2, c3, and_self, and_true, and_false, true_and, false_and, if_true,
      if_false, result_ok_bind, result_bind_assoc] <;>
    repeat (first
      | exact fun _ h => sized_pushIfMark_stack h
      | exact fun _ h => by rw [Result.ok.inj h]
      | refine sized_bind_stack (fun _ h => sized_pushIfMark_stack h) (fun _ => ?_))

theorem sized_add_right_stack (s : Sized) (row column : Int) (game : Game) (value : Char) :
    ∀ s', Sized.add_right_cells_to_stack s row column game value = .ok s' →
      add_right_cells_to_stack s.stack row column game value = .ok s'.stack := by
  unfold Sized.add_right_cells_to_stack add_right_cells_to_stack
  simp only [bind, pure]
  by_cases c1 : column < game.width - 1 <;> by_cases c2 : row > 0 <;>
    by_cases c3 : row < game.height - 1 <;>
    simp only [c1, c2, c3, and_self, and_true, and_false, true_and, false_and, if_true,
      if_false, result_ok_bind, result_bind_assoc] <;>
    repeat (first
      | exact fun _ h => sized_pushIfMark_stack h
      | exact fun _ h => by rw [Result.ok.inj h]
      | refine sized_bind_stack (fun _ h => sized_pushIfMark_stack h) (fun _ => ?_))

theorem sized_searchLoop_stack (test : Int → Int → Result Bool)
    (addS : Sized → Int → Int → Result Sized) (add : Stack → Int → Int → Result Stack)
    (row0 column0 : Int)
    (hadd : ∀ s row column s', addS s row column = .ok s' →
      add s.stack row column = .ok s'.stack) :
    ∀ (fuel : Nat) (s : Sized) (vis : List Cell) (b : Bool) (s' : Sized),
      Sized.searchLoop test addS row0 column0 fuel s = .ok (b, s') →
      (searchLoop test add row0 column0 fuel s.stack vis).map (fun x => (x.1, x.2.1)) =
        .ok (b, s'.stack) := by
  intro fuel
  induction fuel with
  | zero =>
    intro s vis b s' h
    rw [Sized.searchLoop] at h
    rw [searchLoop]
    split_ifs at h ⊢ with hc
    simp only [Result.ok.injEq, Prod.mk.injEq] at h
    obtain ⟨rfl, rfl⟩ := h
    rfl
  | succ fuel ih =>
    intro s vis b s' h
    rw [Sized.searchLoop] at h
    rw [searchLoop]
    split_ifs at h ⊢ with hc
    · obtain ⟨⟨b1, s1⟩, hpass, hrest⟩ := result_bind_eq_ok h
      unfold Sized.pass at hpass
      obtain ⟨⟨sp, r, c⟩, hpop, hp2⟩ := result_bind_eq_ok hpass
      obtain ⟨reached, htest, hp3⟩ := result_bind_eq_ok hp2
      rw [sized_pop_stack hpop]
      show (((test r c).bind fun reached =>
        if reached = true then Result.ok (true, sp.stack, (r, c) :: vis)
        else (add sp.stack r c).bind fun t =>
          searchLoop test add row0 column0 fuel t ((r, c) :: vis)).map
            fun x => (x.1, x.2.1)) = _
      rw [htest]
      simp only [Result.bind]
      cases reached with
      | true =>
        simp only [if_true, Result.ok.injEq, Prod.mk.injEq] at hp3 hrest ⊢
        obtain ⟨rfl, rfl⟩ := hp3
        simp only [if_true, Result.ok.injEq, Prod.mk.injEq] at hrest
        obtain ⟨rfl, rfl⟩ := hrest
        rfl
      | false =>
        simp only [Bool.false_eq_true, if_false] at hp3 ⊢
        obtain ⟨s2, hadd2, hp4⟩ := result_bind_eq_ok hp3
        simp only [Result.ok.injEq, Prod.mk.injEq] at hp4
        obtain ⟨rfl, rfl⟩ := hp4
        simp only [Bool.false_eq_true, if_false] at hrest
        rw [hadd _ _ _ _ hadd2]
        simp only [Result.bind]
        exact ih s2 _ b s' hrest
    · simp only [Result.ok.injEq, Prod.mk.injEq] at h
      obtain ⟨rfl, rfl⟩ := h
      rfl

theorem sized_check_top_stack {fuel : Nat} {s s' : Sized} {value : Char} {game : Game}
    {b : Bool} (h : Sized.check_top fuel s value game = .ok (b, s')) :
    check_top fuel s.stack value game = .ok (b, s'.stack) := by
  rw [check_top_eq game value fuel s.stack []]
  exact sized_searchLoop_stack _ _ _ _ _
    (fun s r c => sized_add_top_stack s r c game value) fuel s [] b s' h

theorem sized_check_bottom_stack {fuel : Nat} {s s' : Sized} {value : Char} {game : Game}
    {b : Bool} (h : Sized.check_bottom fuel s value game = .ok (b, s')) :
    check_bottom fuel s.stack value game = .ok (b, s'.stack) := by
  rw [check_bottom_eq game value fuel s.stack []]
  exact sized_searchLoop_stack _ _ _ _ _
    (fun s r c => sized_add_bottom_stack s r c game value) fuel s [] b s' h

theorem sized_check_left_stack {fuel : Nat} {s s' : Sized} {value : Char} {game : Game}
    {b : Bool} (h : Sized.check_left fuel s value game = .ok (b, s')) :
    check_left fuel s.stack value game = .ok (b, s'.stack) := by
  rw [check_left_eq game value fuel s.stack []]
  exact sized_searchLoop_stack _ _ _ _ _
    (fun s r c => sized_add_left_stack s r c game value) fuel s [] b s' h

theorem sized_check_right_stack {fuel : Nat} {s s' : Sized} {value : Char} {game : Game}
    {b : Bool} (h : Sized.check_right fuel s value game = .ok (b, s')) :
    check_right fuel s.stack value game = .ok (b, s'.stack) := by
  rw [check_right_eq game value fuel s.stack []]
  exact sized_searchLoop_stack _ _ _ _ _
    (fun s r c => sized_add_right_stack s r c game value) fuel s [] b s' h

theorem sized_reseed_stack {s s' : Sized} {row column : Int}
    (h : Sized.reseed s row column = .ok s') : reseed s.stack row column = s'.stack := by
  unfold Sized.reseed at h
  unfold reseed
  exact (sized_push_stack h).symm

/-- Refinement: whenever the win check with the block sizes returns, the win check over
`push` returns the same answer and game.  The two differ only on runs that leave the log
blocks. -/
theorem sized_check_game_over_eq {fuel : Nat} {row column : Int} {value : Char} {game : Game}
    {r : Bool × Game} (h : Sized.check_game_over fuel row column value game = .ok r) :
    check_game_over fuel row column value game = .ok r := by
  unfold Sized.check_game_over at h
  obtain ⟨s0, hpush, h⟩ := result_bind_eq_ok h
  have hs0 : push (initialize_stack game) row column = s0.stack := (sized_push_stack hpush).symm
  by_cases hv : value = 'X'
  · subst hv
    rw [if_pos rfl] at h
    rw [check_game_over_X, hs0]
    obtain ⟨⟨b1, s1⟩, h1, h⟩ := result_bind_eq_ok h
    rw [sized_check_top_stack h1, result_ok_bind]
    cases b1 with
    | true =>
      simp only [if_true] at h ⊢
      obtain ⟨s2, h2, h⟩ := result_bind_eq_ok h
      obtain ⟨⟨b3, s3⟩, h3, h⟩ := result_bind_eq_ok h
      rw [sized_reseed_stack h2, sized_check_bottom_stack h3, result_ok_bind]
      exact h
    | false =>
      simp only [Bool.false_eq_true, if_false] at h ⊢
      exact h
  · rw [if_neg hv] at h
    rw [check_game_over_O _ _ _ _ _ hv, hs0]
    obtain ⟨⟨b1, s1⟩, h1, h⟩ := result_bind_eq_ok h
    rw [sized_check_left_stack h1, result_ok_bind]
    cases b1 with
    | true =>
      simp only [if_true] at h ⊢
      obtain ⟨s2, h2, h⟩ := result_bind_eq_ok h
      obtain ⟨⟨b3, s3⟩, h3, h⟩ := result_bind_eq_ok h
      rw [sized_reseed_stack h2, sized_check_right_stack h3, result_ok_bind]
      exact h
    | false =>
      simp only [Bool.false_eq_true, if_false] at h ⊢
      exact h

/-! ## A board with a cell that does not hold the mark: the log blocks are never resized -/

theorem markState_counts {game : Game} {mark : Char} {s : Stack}
    (hs : MarkState game mark s) : 0 ≤ s.count ∧ s.count ≤ s.logCount ∧ 0 ≤ s.logCount := by
  obtain ⟨⟨h0, h1⟩, -, hf⟩ := hs
  have hlen := hf.len
  simp only [Stack.front, Stack.cells, Stack.logged, length_entries] at hlen
  omega

theorem markState_log_lt {game : Game} {mark : Char} {s : Stack} (hH : 0 ≤ game.height)
    (hW : 0 ≤ game.width) (hs : MarkState game mark s)
    (hfree : ∃ r c, inBounds game r c ∧ game.board r c ≠ mark) : s.logCount < s.maxSize := by
  obtain ⟨r, c, hin, hne⟩ := hfree
  obtain ⟨⟨h0, h1⟩, hM, hf⟩ := hs
  have hnot : (r, c) ∉ s.front.log := fun hmem => hne (hf.inb _ hmem).2
  have hcard := card_inBounds game hH hW ((r, c) :: s.front.log)
    (List.nodup_cons.mpr ⟨hnot, hf.nodupLog⟩)
    (by
      intro d hd
      rcases List.mem_cons.mp hd with rfl | hd
      · exact hin
      · exact (hf.inb d hd).1)
  simp only [Stack.front, Stack.logged, List.length_cons, length_entries] at hcard
  rw [hM]
  omega

theorem sized_scan_ok (s : Sized) (row column : Int) :
    ∀ (remaining i : Nat), intBytes * ((i + remaining : Nat) : Int) ≤ s.logBytes →
      ((i + remaining : Nat) : Int) ≤ s.logKept →
      Sized.scan s row column remaining i =
        .ok ((List.range' i remaining).any
          fun j => decide (s.stack.rowLog j = row ∧ s.stack.columnLog j = column)) := by
  intro remaining
  induction remaining with
  | zero =>
    intro i _ _
    rfl
  | succ remaining ih =>
    intro i hb hk
    unfold intBytes at hb
    rw [Sized.scan]
    have hin : intBytes * ((i : Int) + 1) ≤ s.logBytes ∧ (i : Int) < s.logKept := by
      unfold intBytes
      constructor <;> omega
    rw [if_pos hin, List.range'_succ, List.any_cons]
    by_cases heq : s.stack.rowLog i = row ∧ s.stack.columnLog i = column
    · rw [if_pos heq]
      simp [heq]
    · rw [if_neg heq, ih (i + 1) (by unfold intBytes; omega) (by omega)]
      simp [heq]

theorem sized_push_whole (game : Game) (mark : Char) (hH : 0 ≤ game.height)
    (hW : 0 ≤ game.width) (hfree : ∃ r c, inBounds game r c ∧ game.board r c ≠ mark)
    (s : Sized) (hs : Sized.Whole game mark s) (r c : Int) (hin : inBounds game r c)
    (hmark : game.board r c = mark) :
    ∃ s', Sized.push s r c = .ok s' ∧ Sized.Whole game mark s' := by
  obtain ⟨hms, hbytes, hkept⟩ := hs
  have hlt := markState_log_lt hH hW hms hfree
  obtain ⟨hc0, hcl, hl0⟩ := markState_counts hms
  have hpush := markState_push game mark hH hW s.stack hms r c hin hmark
  suffices h : ∃ s', Sized.push s r c = .ok s' ∧ s'.logBytes = intBytes * s'.stack.maxSize ∧
      s'.stack.logCount ≤ s'.logKept by
    obtain ⟨s', h1, h2, h3⟩ := h
    exact ⟨s', h1, by rw [sized_push_stack h1]; exact hpush, h2, h3⟩
  unfold Sized.push
  by_cases hfull : s.stack.count = s.stack.maxSize
  · rw [if_pos hfull]
    exact ⟨s, rfl, hbytes, hkept⟩
  · rw [if_neg hfull]
    have hg : Sized.grow s = s := by
      unfold Sized.grow
      rw [if_neg (ne_of_lt hlt)]
    rw [hg, sized_scan_ok s r c _ 0 (by rw [hbytes]; unfold intBytes; omega) (by omega),
      result_ok_bind]
    split_ifs with hfound
    · exact ⟨s, rfl, hbytes, hkept⟩
    · unfold Sized.append
      rw [if_pos ⟨hl0, by rw [hbytes]; unfold intBytes; omega, hc0, by omega⟩]
      refine ⟨_, rfl, hbytes, ?_⟩
      simp only []
      split_ifs <;> omega

theorem sized_pushIfMark_whole (game : Game) (mark : Char) (hH : 0 ≤ game.height)
    (hW : 0 ≤ game.width) (hfree : ∃ r c, inBounds game r c ∧ game.board r c ≠ mark)
    (s : Sized) (hs : Sized.Whole game mark s) (r c : Int) (hin : inBounds game r c) :
    ∃ s', Sized.pushIfMark s game mark r c = .ok s' ∧ Sized.Whole game mark s' := by
  unfold Sized.pushIfMark
  rw [readBoard_of_inBounds hin, result_ok_bind]
  by_cases hv : game.board r c = mark
  · rw [if_pos hv]
    exact sized_push_whole game mark hH hW hfree s hs r c hin hv
  · rw [if_neg hv]
    exact ⟨s, rfl, hs⟩

theorem whole_bind {P : Sized → Prop} {x : Result Sized} {f : Sized → Result Sized}
    (hx : ∃ s, x = .ok s ∧ P s) (hf : ∀ s, P s → ∃ s', f s = .ok s' ∧ P s') :
    ∃ s', x.bind f = .ok s' ∧ P s' := by
  obtain ⟨s, rfl, hs⟩ := hx
  exact hf s hs

theorem sized_add_top_whole (game : Game) (mark : Char) (hH : 0 ≤ game.height)
    (hW : 0 ≤ game.width) (hfree : ∃ r c, inBounds game r c ∧ game.board r c ≠ mark)
    (s : Sized) (row column : Int) (hs : Sized.Whole game mark s)
    (hin : inBounds game row column) :
    ∃ s', Sized.add_top_cells_to_stack s row column game mark = .ok s' ∧
      Sized.Whole game mark s' := by
  obtain ⟨h1, h2, h3, h4⟩ := hin
  unfold Sized.add_top_cells_to_stack
  by_cases c1 : column > 0 <;> by_cases c2 : row > 0 <;>
    by_cases c3 : column < game.width - 1 <;>
    simp only [c1, c2, c3, if_true, if_false, result_ok_bind, result_bind_assoc] <;>
    repeat (first
      | exact ⟨_, rfl, by assumption⟩
      | exact sized_pushIfMark_whole game mark hH hW hfree _ (by assumption) _ _
          ⟨by omega, by omega, by omega, by omega⟩
      | refine whole_bind (sized_pushIfMark_whole game mark hH hW hfree _ (by assumption) _ _
          ⟨by omega, by omega, by omega, by omega⟩) (fun _ _ => ?_))

theorem sized_add_bottom_whole (game : Game) (mark : Char) (hH : 0 ≤ game.height)
    (hW : 0 ≤ game.width) (hfree : ∃ r c, inBounds game r c ∧ game.board r c ≠ mark)
    (s : Sized) (row column : Int) (hs : Sized.Whole game mark s)
    (hin : inBounds game row column) :
    ∃ s', Sized.add_bottom_cells_to_stack s row column game mark = .ok s' ∧
      Sized.Whole game mark s' := by
  obtain ⟨h1, h2, h3, h4⟩ := hin
  unfold Sized.add_bottom_cells_to_stack
  by_cases c1 : column > 0 <;> by_cases c2 : row < game.height - 1 <;>
    by_cases c3 : column < game.width - 1 <;>
    simp only [c1, c2, c3, if_true, if_false, result_ok_bind, result_bind_assoc] <;>
    repeat (first
      | exact ⟨_, rfl, by assumption⟩
      | exact sized_pushIfMark_whole game mark hH hW hfree _ (by assumption) _ _
          ⟨by omega, by omega, by omega, by omega⟩
      | refine whole_bind (sized_pushIfMark_whole game mark hH hW hfree _ (by assumption) _ _
          ⟨by omega, by omega, by omega, by omega⟩) (fun _ _ => ?_))

theorem sized_add_left_whole (game : Game) (mark : Char) (hH : 0 ≤ game.height)
    (hW : 0 ≤ game.width) (hfree : ∃ r c, inBounds game r c ∧ game.board r c ≠ mark)
    (s : Sized) (row column : Int) (hs : Sized.Whole game mark s)
    (hin : inBounds game row column) :
    ∃ s', Sized.add_left_cells_to_stack s row column game mark = .ok s' ∧
      Sized.Whole game mark s' := by
  obtain ⟨h1, h2, h3, h4⟩ := hin
  unfold Sized.add_left_cells_to_stack
  by_cases c1 : column > 0 <;> by_cases c2 : row > 0 <;>
    by_cases c3 : row < game.height - 1 <;>
    simp only [c1, c2, c3, and_self, and_true, and_false, true_and, false_and, if_true,
      if_false, result_ok_bind, result_bind_assoc] <;>
    repeat (first
      | exact ⟨_, rfl, by assumption⟩
      | exact sized_pushIfMark_whole game mark hH hW hfree _ (by assumption) _ _
          ⟨by omega, by omega, by omega, by omega⟩
      | refine whole_bind (sized_pushIfMark_whole game mark hH hW hfree _ (by assumption) _ _
          ⟨by omega, by omega, by omega, by omega⟩) (fun _ _ => ?_))

theorem sized_add_right_whole (game : Game) (mark : Char) (hH : 0 ≤ game.height)
    (hW : 0 ≤ game.width) (hfree : ∃ r c, inBounds game r c ∧ game.board r c ≠ mark)
    (s : Sized) (row column : Int) (hs : Sized.Whole game mark s)
    (hin : inBounds game row column) :
    ∃ s', Sized.add_right_cells_to_stack s row column game mark = .ok s' ∧
      Sized.Whole game mark s' := by
  obtain ⟨h1, h2, h3, h4⟩ := hin
  unfold Sized.add_right_cells_to_stack
  by_cases c1 : column < game.width - 1 <;> by_cases c2 : row > 0 <;>
    by_cases c3 : row < game.height - 1 <;>
    simp only [c1, c2, c3, and_self, and_true, and_false, true_and, false_and, if_true,
      if_false, result_ok_bind, result_bind_assoc] <;>
    repeat (first
      | exact ⟨_, rfl, by assumption⟩
      | exact sized_pushIfMark_whole game mark hH hW hfree _ (by assumption) _ _
          ⟨by omega, by omega, by omega, by omega⟩
      | refine whole_bind (sized_pushIfMark_whole game mark hH hW hfree _ (by assumption) _ _
          ⟨by omega, by omega, by omega, by omega⟩) (fun _ _ => ?_))

theorem sized_pop_whole (game : Game) (mark : Char) (hH : 0 ≤ game.height)
    (hW : 0 ≤ game.width) (hfree : ∃ r c, inBounds game r c ∧ game.board r c ≠ mark)
    (s : Sized) (hs : Sized.Whole game mark s) (row0 column0 : Int)
    (hpos : s.stack.count > 0) :
    ∃ sp r c, Sized.pop s row0 column0 = .ok (sp, r, c) ∧ Sized.Whole game mark sp ∧
      inBounds game r c := by
  obtain ⟨hms, hbytes, hkept⟩ := hs
  have hlt := markState_log_lt hH hW hms hfree
  obtain ⟨hc0, hcl, hl0⟩ := markState_counts hms
  have hrun : Sized.pop s row0 column0 =
      .ok ({ s with stack := { s.stack with count := s.stack.count - 1 } },
        s.stack.rows (s.stack.count - 1), s.stack.columns (s.stack.count - 1)) := by
    unfold Sized.pop
    rw [if_neg (by omega), if_pos ⟨by omega, by omega⟩]
  obtain ⟨p1, p2, -⟩ := markState_pop game mark s.stack hms row0 column0 hpos
  rw [sized_pop_stack hrun] at p1 p2
  exact ⟨_, _, _, hrun, ⟨p1, hbytes, hkept⟩, p2⟩

/-- On a board with a cell that does not hold the mark, the loop with the block sizes and
the loop over `push` run in step, for every amount of fuel, and the blocks stay whole. -/
theorem sized_searchLoop_whole (game : Game) (mark : Char) (hH : 0 ≤ game.height)
    (hW : 0 ≤ game.width) (hfree : ∃ r c, inBounds game r c ∧ game.board r c ≠ mark)
    (test : Int → Int → Result Bool) (addS : Sized → Int → Int → Result Sized)
    (add : Stack → Int → Int → Result Stack) (row0 column0 : Int)
    (haddS : ∀ s r c, Sized.Whole game mark s → inBounds game r c →
      ∃ s', addS s r c = .ok s' ∧ Sized.Whole game mark s')
    (hadd : ∀ s r c s', addS s r c = .ok s' → add s.stack r c = .ok s'.stack) :
    ∀ (fuel : Nat) (s : Sized) (vis : List Cell), Sized.Whole game mark s →
      (Sized.searchLoop test addS row0 column0 fuel s).map (fun x => (x.1, x.2.stack)) =
        (searchLoop test add row0 column0 fuel s.stack vis).map (fun x => (x.1, x.2.1)) ∧
      ∀ b s', Sized.searchLoop test addS row0 column0 fuel s = .ok (b, s') →
        Sized.Whole game mark s' := by
  intro fuel
  induction fuel with
  | zero =>
    intro s vis hs
    rw [Sized.searchLoop, searchLoop]
    by_cases hc : s.stack.count > 0
    · rw [if_pos hc, if_pos hc]
      exact ⟨rfl, fun b s' h => by cases h⟩
    · rw [if_neg hc, if_neg hc]
      refine ⟨rfl, fun b s' h => ?_⟩
      simp only [Result.ok.injEq, Prod.mk.injEq] at h
      rw [← h.2]
      exact hs
  | succ fuel ih =>
    intro s vis hs
    rw [Sized.searchLoop, searchLoop]
    by_cases hc : s.stack.count > 0
    · rw [if_pos hc, if_pos hc]
      obtain ⟨sp, r, c, hpop, hsp, hin⟩ :=
        sized_pop_whole game mark hH hW hfree s hs row0 column0 hc
      rw [sized_pop_stack hpop]
      unfold Sized.pass
      rw [hpop, result_ok_bind]
      show (((test r c).bind fun reached =>
          if reached = true then Result.ok (true, sp)
          else (addS sp r c).bind fun s => Result.ok (false, s)).bind fun x =>
            if x.1 = true then Result.ok (true, x.2)
            else Sized.searchLoop test addS row0 column0 fuel x.2).map
              (fun x => (x.1, x.2.stack)) =
          ((test r c).bind fun reached =>
            if reached = true then Result.ok (true, sp.stack, (r, c) :: vis)
            else (add sp.stack r c).bind fun t =>
              searchLoop test add row0 column0 fuel t ((r, c) :: vis)).map
                (fun x => (x.1, x.2.1)) ∧
        ∀ b s', ((test r c).bind fun reached =>
          if reached = true then Result.ok (true, sp)
          else (addS sp r c).bind fun s => Result.ok (false, s)).bind (fun x =>
            if x.1 = true then Result.ok (true, x.2)
            else Sized.searchLoop test addS row0 column0 fuel x.2) = .ok (b, s') →
          Sized.Whole game mark s'
      cases htest : test r c with
      | ok reached =>
        cases reached with
        | true =>
          simp only [result_ok_bind, if_true]
          refine ⟨rfl, fun b s' h => ?_⟩
          simp only [Result.ok.injEq, Prod.mk.injEq] at h
          rw [← h.2]
          exact hsp
        | false =>
          obtain ⟨s2, hadd2, hs2⟩ := haddS sp r c hsp hin
          simp only [result_ok_bind, Bool.false_eq_true, if_false, hadd2,
            hadd _ _ _ _ hadd2]
          exact ih s2 _ hs2
      | outOfBounds => exact ⟨rfl, fun b s' h => by cases h⟩
      | divisionByZero => exact ⟨rfl, fun b s' h => by cases h⟩
      | outOfFuel => exact ⟨rfl, fun b s' h => by cases h⟩
    · rw [if_neg hc, if_neg hc]
      refine ⟨rfl, fun b s' h => ?_⟩
      simp only [Result.ok.injEq, Prod.mk.injEq] at h
      rw [← h.2]
      exact hs

theorem sized_check_top_whole (game : Game) (mark : Char) (hH : 0 ≤ game.height)
    (hW : 0 ≤ game.width) (hfree : ∃ r c, inBounds game r c ∧ game.board r c ≠ mark)
    (fuel : Nat) (s : Sized) (hs : Sized.Whole game mark s) :
    (Sized.check_top fuel s mark game).map (fun x => (x.1, x.2.stack)) =
        check_top fuel s.stack mark game ∧
      ∀ b s', Sized.check_top fuel s mark game = .ok (b, s') → Sized.Whole game mark s' := by
  rw [check_top_eq game mark fuel s.stack []]
  exact sized_searchLoop_whole game mark hH hW hfree _ _ _ _ _
    (fun s r c hs hin => sized_add_top_whole game mark hH hW hfree s r c hs hin)
    (fun s r c => sized_add_top_stack s r c game mark) fuel s [] hs

theorem sized_check_bottom_whole (game : Game) (mark : Char) (hH : 0 ≤ game.height)
    (hW : 0 ≤ game.width) (hfree : ∃ r c, inBounds game r c ∧ game.board r c ≠ mark)
    (fuel : Nat) (s : Sized) (hs : Sized.Whole game mark s) :
    (Sized.check_bottom fuel s mark game).map (fun x => (x.1, x.2.stack)) =
        check_bottom fuel s.stack mark game ∧
      ∀ b s', Sized.check_bottom fuel s mark game = .ok (b, s') →
        Sized.Whole game mark s' := by
  rw [check_bottom_eq game mark fuel s.stack []]
  exact sized_searchLoop_whole game mark hH hW hfree _ _ _ _ _
    (fun s r c hs hin => sized_add_bottom_whole game mark hH hW hfree s r c hs hin)
    (fun s r c => sized_add_bottom_stack s r c game mark) fuel s [] hs

theorem sized_check_left_whole (game : Game) (mark : Char) (hH : 0 ≤ game.height)
    (hW : 0 ≤ game.width) (hfree : ∃ r c, inBounds game r c ∧ game.board r c ≠ mark)
    (fuel : Nat) (s : Sized) (hs : Sized.Whole game mark s) :
    (Sized.check_left fuel s mark game).map (fun x => (x.1, x.2.stack)) =
        check_left fuel s.stack mark game ∧
      ∀ b s', Sized.check_left fuel s mark game = .ok (b, s') →
        Sized.Whole game mark s' := by
  rw [check_left_eq game mark fuel s.stack []]
  exact sized_searchLoop_whole game mark hH hW hfree _ _ _ _ _
    (fun s r c hs hin => sized_add_left_whole game mark hH hW hfree s r c hs hin)
    (fun s r c => sized_add_left_stack s r c game mark) fuel s [] hs

theorem sized_check_right_whole (game : Game) (mark : Char) (hH : 0 ≤ game.height)
    (hW : 0 ≤ game.width) (hfree : ∃ r c, inBounds game r c ∧ game.board r c ≠ mark)
    (fuel : Nat) (s : Sized) (hs : Sized.Whole game mark s) :
    (Sized.check_right fuel s mark game).map (fun x => (x.1, x.2.stack)) =
        check_right fuel s.stack mark game ∧
      ∀ b s', Sized.check_right fuel s mark game = .ok (b, s') →
        Sized.Whole game mark s' := by
  rw [check_right_eq game mark fuel s.stack []]
  exact sized_searchLoop_whole game mark hH hW hfree _ _ _ _ _
    (fun s r c hs hin => sized_add_right_whole game mark hH hW hfree s r c hs hin)
    (fun s r c => sized_add_right_stack s r c game mark) fuel s [] hs

theorem sized_push_empty (s : Sized) (r c : Int) (hc : s.stack.count = 0)
    (hl : s.stack.logCount = 0) (hM : 0 < s.stack.maxSize)
    (hb : s.logBytes = intBytes * s.stack.maxSize) (hk : 0 ≤ s.logKept) :
    ∃ s', Sized.push s r c = .ok s' ∧ s'.logBytes = intBytes * s'.stack.maxSize ∧
      s'.stack.logCount ≤ s'.logKept := by
  unfold Sized.push
  have hg : Sized.grow s = s := by
    unfold Sized.grow
    rw [if_neg (by omega)]
  rw [if_neg (by omega), hg, hl]
  show ∃ s', (if false = true then Result.ok s else Sized.append s r c) = .ok s' ∧ _
  rw [if_neg (by simp)]
  unfold Sized.append
  rw [if_pos ⟨by omega, by rw [hb, hl]; unfold intBytes; omega, by omega, by omega⟩]
  refine ⟨_, rfl, hb, ?_⟩
  simp only []
  split_ifs <;> omega

theorem sized_seed_whole (game : Game) (mark : Char) (row column : Int)
    (hseed : inBounds game row column) (hmark : game.board row column = mark) :
    ∃ s0, Sized.push (Sized.initialize_stack game) row column = .ok s0 ∧
      Sized.Whole game mark s0 := by
  obtain ⟨-, -, hHW⟩ := size_pos game hseed
  obtain ⟨s0, h0, hb, hk⟩ := sized_push_empty (Sized.initialize_stack game) row column rfl rfl
    hHW rfl le_rfl
  refine ⟨s0, h0, ?_, hb, hk⟩
  rw [sized_push_stack h0]
  exact (markState_seed game mark row column hseed hmark).1

theorem sized_reseed_whole (game : Game) (mark : Char) (row column : Int)
    (hseed : inBounds game row column) (hmark : game.board row column = mark)
    (s : Sized) (hs : Sized.Whole game mark s) :
    ∃ s', Sized.reseed s row column = .ok s' ∧ Sized.Whole game mark s' := by
  obtain ⟨-, -, hHW⟩ := size_pos game hseed
  obtain ⟨hms, hbytes, hkept⟩ := hs
  obtain ⟨hc0, hcl, hl0⟩ := markState_counts hms
  have hM : s.stack.maxSize = game.height * game.width := hms.2.1
  obtain ⟨s', h1, hb, hk⟩ := sized_push_empty
    { s with stack := { s.stack with count := 0, logCount := 0 } } row column rfl rfl
    (by show 0 < s.stack.maxSize; omega) hbytes (by show 0 ≤ s.logKept; omega)
  refine ⟨s', h1, ?_, hb, hk⟩
  rw [← sized_reseed_stack h1]
  exact (markState_seed game mark row column hseed hmark).2 s.stack hM

/-- On a board with a cell that does not hold the mark, the win check with the block sizes
is the win check over `push`: for every amount of fuel both give the same result, so what
is proved of `check_game_over` holds of the code there.  The `realloc` of `push` is entered
only when all `H * W` cells are logged, that is, on a board full of the mark. -/
theorem sized_check_game_over_whole (game : Game) (row column : Int) (mark : Char)
    (hseed : inBounds game row column) (hmark : game.board row column = mark)
    (hfree : ∃ r c, inBounds game r c ∧ game.board r c ≠ mark) (fuel : Nat) :
    Sized.check_game_over fuel row column mark game =
      check_game_over fuel row column mark game := by
  obtain ⟨hHp, hWp, -⟩ := size_pos game hseed
  have hH : 0 ≤ game.height := le_of_lt hHp
  have hW : 0 ≤ game.width := le_of_lt hWp
  obtain ⟨s0, h0, hs0⟩ := sized_seed_whole game mark row column hseed hmark
  have e0 : push (initialize_stack game) row column = s0.stack := (sized_push_stack h0).symm
  unfold Sized.check_game_over
  rw [h0, result_ok_bind]
  by_cases hv : mark = 'X'
  · subst hv
    rw [if_pos rfl, check_game_over_X, e0]
    obtain ⟨t1, t2⟩ := sized_check_top_whole game 'X' hH hW hfree fuel s0 hs0
    rw [← t1]
    cases hS : Sized.check_top fuel s0 'X' game with
    | ok r1 =>
      obtain ⟨b1, s1⟩ := r1
      have hs1 := t2 b1 s1 hS
      cases b1 with
      | true =>
        obtain ⟨s2, h2, hs2⟩ := sized_reseed_whole game 'X' row column hseed hmark s1 hs1
        obtain ⟨u1, -⟩ := sized_check_bottom_whole game 'X' hH hW hfree fuel s2 hs2
        show ((Sized.reseed s1 row column).bind fun s =>
            (Sized.check_bottom fuel s 'X' game).bind fun r =>
              if r.1 = true then Result.ok (true, { game with winner := 'X' })
              else Result.ok (false, game)) =
          (check_bottom fuel (reseed s1.stack row column) 'X' game).bind fun r2 =>
            if r2.1 = true then Result.ok (true, { game with winner := 'X' })
            else Result.ok (false, game)
        rw [h2, result_ok_bind, sized_reseed_stack h2, ← u1]
        cases Sized.check_bottom fuel s2 'X' game <;> rfl
      | false => rfl
    | outOfBounds => rfl
    | divisionByZero => rfl
    | outOfFuel => rfl
  · rw [if_neg hv, check_game_over_O _ _ _ _ _ hv, e0]
    obtain ⟨t1, t2⟩ := sized_check_left_whole game mark hH hW hfree fuel s0 hs0
    rw [← t1]
    cases hS : Sized.check_left fuel s0 mark game with
    | ok r1 =>
      obtain ⟨b1, s1⟩ := r1
      have hs1 := t2 b1 s1 hS
      cases b1 with
      | true =>
        obtain ⟨s2, h2, hs2⟩ := sized_reseed_whole game mark row column hseed hmark s1 hs1
        obtain ⟨u1, -⟩ := sized_check_right_whole game mark hH hW hfree fuel s2 hs2
        show ((Sized.reseed s1 row column).bind fun s =>
            (Sized.check_right fuel s mark game).bind fun r =>
              if r.1 = true then Result.ok (true, { game with winner := mark })
              else Result.ok (false, game)) =
          (check_right fuel (reseed s1.stack row column) mark game).bind fun r2 =>
            if r2.1 = true then Result.ok (true, { game with winner := mark })
            else Result.ok (false, game)
        rw [h2, result_ok_bind, sized_reseed_stack h2, ← u1]
        cases Sized.check_right fuel s2 mark game <;> rfl
      | false => rfl
    | outOfBounds => rfl
    | divisionByZero => rfl
    | outOfFuel => rfl

/-! ## Claims -/

/-- C1 (fails on the code). In `detourGame` the cell (1,0) holds 'X' and lies on the
unbroken chain (0,2), (1,2), (2,2), (2,1), (1,0), (2,0) from row 0 to row `H - 1 = 2`, yet
`check_game_over(1, 0, 'X')` returns false (with `H * W = 9` units of fuel), and with no
amount of fuel does it return true. -/
theorem C1_chain_through_seed_not_detected :
    detourGame.board 1 0 = 'X' ∧
      IsChain detourGame 'X' [(0, 2), (1, 2), (2, 2), (2, 1), (1, 0), (2, 0)] ∧
      detourGame.height - 1 = 2 ∧
      (check_game_over 9 1 0 'X' detourGame).map Prod.fst = .ok false ∧
      ∀ fuel, (check_game_over fuel 1 0 'X' detourGame).map Prod.fst ≠ .ok true := by
  refine ⟨by decide, ⟨by decide, ?_⟩, by decide, by decide, ?_⟩
  · simp only [List.chain'_cons, List.chain'_singleton, and_true]
    decide
  · intro fuel h
    obtain ⟨g', hrun⟩ := map_fst_eq_ok h
    obtain ⟨⟨e, hreach, hedge⟩, -⟩ :=
      ((check_game_over_X_spec detourGame 1 0 (by decide)).2 fuel true g' hrun).1.mp rfl
    rw [detour_top_unreachable e hreach] at hedge
    exact absurd hedge (by simp)

/-- C2. If `check_game_over(row, col, mark, game)` returns true for an in-bounds seed
holding `mark`, then there are chains of hex-adjacent cells all holding `mark` from the
seed to the near edge and from the seed to the far edge: row 0 and row `H - 1` when
`mark` is 'X', column 0 and column `W - 1` otherwise. -/
theorem C2_win_detection_sound (game : Game) (row column : Int) (mark : Char) (fuel : Nat)
    (hseed : inBounds game row column) (hmark : game.board row column = mark)
    (hwin : (check_game_over fuel row column mark game).map Prod.fst = .ok true) :
    (mark = 'X' →
      (∃ e, e.1 = 0 ∧ Connected game mark (row, column) e) ∧
        (∃ e, e.1 = game.height - 1 ∧ Connected game mark (row, column) e)) ∧
    (mark ≠ 'X' →
      (∃ e, e.2 = 0 ∧ Connected game mark (row, column) e) ∧
        (∃ e, e.2 = game.width - 1 ∧ Connected game mark (row, column) e)) := by
  have hm : marked game mark (row, column) := ⟨hseed, hmark⟩
  obtain ⟨g', hrun⟩ := map_fst_eq_ok hwin
  constructor
  · intro hX
    subst hX
    obtain ⟨⟨e1, r1, t1⟩, ⟨e2, r2, t2⟩⟩ :=
      ((check_game_over_X_spec game row column hseed).2 fuel true g' hrun).1.mp rfl
    exact ⟨⟨e1, (edgeCell_true t1).1,
        connected_of_reaches game 'X' _ (top_cells_adjacent game 'X') _ _ hm r1⟩,
      ⟨e2, (edgeCell_true t2).1,
        connected_of_reaches game 'X' _ (bottom_cells_adjacent game 'X') _ _ hm r2⟩⟩
  · intro hX
    obtain ⟨⟨e1, r1, t1⟩, ⟨e2, r2, t2⟩⟩ :=
      ((check_game_over_O_spec game row column mark hX hseed).2 fuel true g' hrun).1.mp rfl
    exact ⟨⟨e1, (edgeCell_true t1).1,
        connected_of_reaches game mark _ (left_cells_adjacent game mark) _ _ hm r1⟩,
      ⟨e2, (edgeCell_true t2).1,
        connected_of_reaches game mark _ (right_cells_adjacent game mark) _ _ hm r2⟩⟩

/-- C2 witness: in `detourGame` the check from (2,2) returns true, so (2,2) is joined to
row 0 and to row 2 by chains of 'X'. -/
theorem C2_win_detection_sound_witness :
    (∃ e, e.1 = 0 ∧ Connected detourGame 'X' (2, 2) e) ∧
      (∃ e, e.1 = detourGame.height - 1 ∧ Connected detourGame 'X' (2, 2) e) :=
  (C2_win_detection_sound detourGame 2 2 'X' 9 (by decide) (by decide) (by decide)).1 rfl

/-- C3 (fails on the code). In `detourGame`, from the seed (1,0) holding 'X', `check_top`
returns false (and returns true with no amount of fuel) while the same search with the
same edge test pushing the full six-neighbour set returns true. -/
theorem C3_subset_search_differs_from_full_search :
    marked detourGame 'X' (1, 0) ∧
      (check_top 9 (push (initialize_stack detourGame) 1 0) 'X' detourGame).map Prod.fst =
        .ok false ∧
      (∀ fuel, (check_top fuel (push (initialize_stack detourGame) 1 0) 'X'
        detourGame).map Prod.fst ≠ .ok true) ∧
      (check_six (fun r c => atEdge detourGame 'X' r 0 r c) 9
        (push (initialize_stack detourGame) 1 0) 'X' detourGame).map Prod.fst = .ok true := by
  refine ⟨by decide, by decide, ?_, by decide⟩
  intro fuel h
  obtain ⟨s', hrun⟩ := map_fst_eq_ok h
  obtain ⟨f1, f2, f3⟩ := fresh_seed detourGame 1 0 (by decide)
  obtain ⟨e, hreach, hedge⟩ :=
    ((check_top_spec detourGame 'X' (1, 0) (by decide) _ f1 f2 f3).2 fuel true s' hrun).1.mp rfl
  rw [detour_top_unreachable e hreach] at hedge
  exact absurd hedge (by simp)

/-- C4. For an in-bounds seed holding `mark`, `check_game_over` returns true iff
`check_top` and `check_bottom` (mark 'X'; `check_left` and `check_right` for any other
mark), each run on a freshly initialised stack containing only the seed, both return
true; and a reused stack whose `count` and `logCount` were reset to 0 and on which the
seed was pushed again gives the same answer as a newly constructed stack. -/
theorem C4_win_is_conjunction_of_fresh_searches (game : Game) (row column : Int)
    (mark : Char) (fuel : Nat) (hseed : inBounds game row column)
    (hmark : game.board row column = mark) :
    (mark = 'X' →
      ((check_game_over fuel row column mark game).map Prod.fst = .ok true ↔
        (check_top fuel (push (initialize_stack game) row column) mark game).map Prod.fst =
            .ok true ∧
          (check_bottom fuel (push (initialize_stack game) row column) mark game).map Prod.fst =
            .ok true)) ∧
    (mark ≠ 'X' →
      ((check_game_over fuel row column mark game).map Prod.fst = .ok true ↔
        (check_left fuel (push (initialize_stack game) row column) mark game).map Prod.fst =
            .ok true ∧
          (check_right fuel (push (initialize_stack game) row column) mark game).map Prod.fst =
            .ok true)) ∧
    ∀ reused : Stack, reused.maxSize = game.height * game.width →
      (check_bottom fuel (reseed reused row column) mark game).map Prod.fst =
          (check_bottom fuel (push (initialize_stack game) row column) mark game).map Prod.fst ∧
        (check_right fuel (reseed reused row column) mark game).map Prod.fst =
          (check_right fuel (push (initialize_stack game) row column) mark game).map Prod.fst := by
  have _ := hmark
  refine ⟨?_, ?_, ?_⟩
  · rintro rfl
    exact win_iff_both_X game row column fuel hseed
  · intro hv
    exact win_iff_both_O game row column mark fuel hv hseed
  · intro reused hM
    obtain ⟨-, h2, -, h4⟩ := reseed_answer game mark row column hseed fuel reused hM
    exact ⟨h2, h4⟩

/-- C4 witness: in `detourGame` the stone at (2,2) wins, and both fresh searches from it
answer true. -/
theorem C4_win_is_conjunction_of_fresh_searches_witness :
    (check_game_over 9 2 2 'X' detourGame).map Prod.fst = .ok true ∧
      (check_top 9 (push (initialize_stack detourGame) 2 2) 'X' detourGame).map Prod.fst =
        .ok true ∧
      (check_bottom 9 (push (initialize_stack detourGame) 2 2) 'X' detourGame).map Prod.fst =
        .ok true :=
  ⟨by decide,
    ((C4_win_is_conjunction_of_fresh_searches detourGame 2 2 'X' 9 (by decide)
      (by decide)).1 rfl).mp (by decide)⟩

/-- C5. On a grid with `H, W ≥ 1` whose 'X' cells are exactly (0,c), (1,c), ..., (i,c)
for a column `c < W` and a row `i < H`, `check_game_over(i, c, 'X', game)` returns true
iff `i = H - 1`. -/
theorem C5_column_chain_wins_on_last_stone (game : Game) (c i : Int) (fuel : Nat)
    (hH : 1 ≤ game.height) (hW : 1 ≤ game.width)
    (hc : 0 ≤ c ∧ c < game.width) (hi : 0 ≤ i ∧ i < game.height)
    (hX : ∀ r k, inBounds game r k → (game.board r k = 'X' ↔ k = c ∧ r ≤ i))
    (hfuel : (game.height * game.width).toNat ≤ fuel) :
    (check_game_over fuel i c 'X' game).map Prod.fst = .ok (decide (i = game.height - 1)) := by
  have _ := hH
  have _ := hW
  exact column_chain_result game c i fuel hc hi hX hfuel

/-- C5 witness: `H = W = 3`, `c = 0`; after the placements (0,0), (1,0), (2,0) the check
answers false, false, true. -/
theorem C5_column_chain_wins_on_last_stone_witness :
    (check_game_over 9 0 0 'X'
        (gameOfRows 3 3 [['X', '.', '.'], ['.', 'O', '.'], ['.', '.', '.']])).map Prod.fst =
        .ok false ∧
      (check_game_over 9 1 0 'X'
        (gameOfRows 3 3 [['X', '.', '.'], ['X', 'O', '.'], ['.', '.', 'O']])).map Prod.fst =
        .ok false ∧
      (check_game_over 9 2 0 'X'
        (gameOfRows 3 3 [['X', '.', '.'], ['X', 'O', '.'], ['X', '.', 'O']])).map Prod.fst =
        .ok true := by
  refine ⟨?_, ?_, ?_⟩
  · exact C5_column_chain_wins_on_last_stone _ 0 0 9 (by decide) (by decide) (by decide)
      (by decide) (by
        rintro r k ⟨h1, h2, h3, h4⟩
        have h2' : r < 3 := h2
        have h4' : k < 3 := h4
        interval_cases r <;> interval_cases k <;> decide) (by decide)
  · exact C5_column_chain_wins_on_last_stone _ 0 1 9 (by decide) (by decide) (by decide)
      (by decide) (by
        rintro r k ⟨h1, h2, h3, h4⟩
        have h2' : r < 3 := h2
        have h4' : k < 3 := h4
        interval_cases r <;> interval_cases k <;> decide) (by decide)
  · exact C5_column_chain_wins_on_last_stone _ 0 2 9 (by decide) (by decide) (by decide)
      (by decide) (by
        rintro r k ⟨h1, h2, h3, h4⟩
        have h2' : r < 3 := h2
        have h4' : k < 3 := h4
        interval_cases r <;> interval_cases k <;> decide) (by decide)

/-- C6 (code defect): a push of a logged cell that is not a no-op.  On the 2x6 board full
of 'X', the bottom search of `check_game_over(0, 0, 'X', game)` reaches a stack with
count 6, maxSize 12 and logCount 12 on popping (0,5); the cell (0,4) is in the visited log,
at index 9.  `add_bottom_cells_to_stack` then calls `push(stack, 0, 4)`.  Leaving the
stack as it is (count 6, logCount 12), as the comment on `push` in the source says of
duplicate additions, is what `push` does inside its blocks; the code first shrinks the log
blocks to 24 bytes, six entries, so entry 9 is no longer part of them and the duplicate
scan reads outside the block at index 6: the call does not return the unchanged stack.
Same defect as C7 and C21. -/
theorem C6_logged_cell_push_leaves_log_block :
    fullLogState.map (fun p => (p.2.1, p.2.2, p.1.stack.count, p.1.stack.maxSize,
      p.1.stack.logCount)) = .ok (0, 5, 6, 12, 12) ∧
    fullLogState.map (fun p => decide ((0, 4) ∈ p.1.stack.logged)) = .ok true ∧
    fullLogState.map (fun p => (p.1.stack.rowLog 9, p.1.stack.columnLog 9)) = .ok (0, 4) ∧
    fullLogState.map (fun p => ((push p.1.stack 0 4).count, (push p.1.stack 0 4).logCount)) =
      .ok (6, 12) ∧
    fullLogState.map (fun p => ((Sized.grow p.1).logBytes, (Sized.grow p.1).logKept)) =
      .ok (24, 6) ∧
    (fullLogState.bind fun p => Sized.scan (Sized.grow p.1) 0 4 6 0) = .ok false ∧
    (fullLogState.bind fun p => Sized.scan (Sized.grow p.1) 0 4 7 0) = .outOfBounds ∧
    (fullLogState.bind fun p =>
      (Sized.push p.1 0 4).map fun s => (s.stack.count, s.stack.logCount)) = .outOfBounds := by
  refine ⟨by decide!, by decide!, by decide!, by decide!, by decide!, by decide!, by decide!,
    by decide!⟩

/-- C7 (code defect): a search that does not return.  On the 2x6 board full of 'X',
`check_game_over(0, 0, 'X', game)` starts `check_bottom` on the reset stack holding the
seed (0,0).  The search pops five cells, and on the sixth pass `push` finds the visited
log full, shrinks the two log blocks with `realloc(…, logSize * 2)` to 24 bytes, and its
duplicate scan reads entry 6 outside them.  So with fewer than six passes of fuel the loop
is still running, and with six or more, in particular with H*W = 12, the run ends in that
read and never returns an answer.  Same defect as C6 and C21. -/
theorem C7_bottom_search_leaves_log_block :
    inBounds fullBoard 0 0 ∧ fullBoard.board 0 0 = 'X' ∧
    1 ≤ fullBoard.height ∧ 1 ≤ fullBoard.width ∧
    fullSeed.map (fun s => (s.stack.count, s.stack.logCount, s.stack.rows 0,
      s.stack.columns 0)) = .ok (1, 1, 0, 0) ∧
    (∀ fuel : Nat, fullBottomSearch fuel =
      if fuel < 6 then .outOfFuel else .outOfBounds) ∧
    fullBottomSearch (fullBoard.height * fullBoard.width).toNat = .outOfBounds := by
  refine ⟨by decide, by decide, by decide, by decide, by decide!, ?_, by decide!⟩
  intro fuel
  by_cases h : fuel < 6
  · rw [if_pos h]
    interval_cases fuel <;> decide!
  · rw [if_neg h]
    exact fullBottomSearch_fault fuel (by omega)

/-- C8. `is_move_valid(r, c, game)` never reads the board out of bounds (it always
returns a value) and is true exactly when `0 ≤ r < H`, `0 ≤ c < W` and `board[r][c]` is
'.'; the position `(H, 0)` is rejected whatever the cells contain. -/
theorem C8_is_move_valid_iff (game : Game) (r c : Int) :
    is_move_valid r c game =
        .ok (decide (0 ≤ r ∧ r < game.height ∧ 0 ≤ c ∧ c < game.width ∧ game.board r c = '.')) ∧
      is_move_valid game.height 0 game = .ok false := by
  refine ⟨is_move_valid_eq game r c, ?_⟩
  unfold is_move_valid
  simp

/-- C9. After the placement write `board[r][c] = mark` (mark 'O' or 'X') on a cell for
which `is_move_valid` holds, `is_move_valid(r, c)` is false, while the dimensions, every
other cell and the validity of every other position are unchanged. -/
theorem C9_placement_one_shot (game : Game) (r c : Int) (mark : Char)
    (hvalid : is_move_valid r c game = .ok true) (hmark : mark = 'O' ∨ mark = 'X') :
    ∃ g', writeBoard game r c mark = .ok g' ∧ is_move_valid r c g' = .ok false ∧
      g'.height = game.height ∧ g'.width = game.width ∧
      ∀ r' c', (r', c') ≠ (r, c) →
        g'.board r' c' = game.board r' c' ∧ is_move_valid r' c' g' = is_move_valid r' c' game := by
  have hv := is_move_valid_eq game r c
  rw [hvalid] at hv
  simp only [Result.ok.injEq] at hv
  have hv' := of_decide_eq_true hv.symm
  obtain ⟨h1, h2, h3, h4, h5⟩ := hv'
  have hin : inBounds game r c := ⟨h1, h2, h3, h4⟩
  refine ⟨{ game with board := fun r' c' => if r' = r ∧ c' = c then mark else game.board r' c' },
    ?_, ?_, rfl, rfl, ?_⟩
  · unfold writeBoard
    rw [if_pos hin]
  · rw [is_move_valid_eq _ r c]
    have hne : mark ≠ '.' := by
      rcases hmark with rfl | rfl <;> decide
    simp [hne]
  · intro r' c' hne
    have hne' : ¬ (r' = r ∧ c' = c) := fun h => hne (by rw [h.1, h.2])
    refine ⟨by simp only [if_neg hne'], ?_⟩
    rw [is_move_valid_eq _ r' c', is_move_valid_eq game r' c']
    simp only [if_neg hne']

/-- C9 witness: on the empty 3×3 board the centre is valid; after placing 'X' there it is
not, and every other position keeps its validity. -/
theorem C9_placement_one_shot_witness :
    ∃ g', writeBoard (initialize_game 3 3) 1 1 'X' = .ok g' ∧ is_move_valid 1 1 g' = .ok false ∧
      g'.height = 3 ∧ g'.width = 3 ∧
      ∀ r' c', (r', c') ≠ ((1 : Int), (1 : Int)) →
        g'.board r' c' = (initialize_game 3 3).board r' c' ∧
          is_move_valid r' c' g' = is_move_valid r' c' (initialize_game 3 3) :=
  C9_placement_one_shot (initialize_game 3 3) 1 1 'X' (by decide) (Or.inr rfl)

/-- C10. With `H, W ≥ 1`, a counter `k ≥ 0` and `k * 9` (resp. `k * 7`) below `2^31`,
`get_auto_move_for_o` yields row `(t / m) mod H` and column `t mod W` for
`t = (k * 9 mod 1000037) + 17`, `m = max(H, W)`, `k` the counter of `players[0]`;
`get_auto_move_for_x` yields the same expressions for `t = (k * 7 mod 1000213) + 81`,
`k` the counter of `players[1]`. -/
theorem C10_auto_move_formula (game : Game) (hH : 1 ≤ game.height) (hW : 1 ≤ game.width) :
    (0 ≤ game.players0.moveCounter → game.players0.moveCounter * 9 < 2 ^ 31 →
      (get_auto_move_for_o game).map (fun x => (x.1, x.2.1)) =
        .ok (((game.players0.moveCounter * 9 % 1000037 + 17) / max game.height game.width)
              % game.height,
            (game.players0.moveCounter * 9 % 1000037 + 17) % game.width)) ∧
    (0 ≤ game.players1.moveCounter → game.players1.moveCounter * 7 < 2 ^ 31 →
      (get_auto_move_for_x game).map (fun x => (x.1, x.2.1)) =
        .ok (((game.players1.moveCounter * 7 % 1000213 + 81) / max game.height game.width)
              % game.height,
            (game.players1.moveCounter * 7 % 1000213 + 81) % game.width)) := by
  constructor
  · intro hk hk9
    obtain ⟨e1, e2, e3, e4⟩ := auto_move_value game.height game.width game.players0.moveCounter
      9 1000037 17 hH hW hk (by norm_num) (by norm_num) (by norm_num) (by norm_num)
      (by norm_num) (by norm_num at hk9; exact hk9)
    unfold get_auto_move_for_o
    simp only [e1, e2, e3, e4, ok_bind, pure_eq_ok, map_ok]
  · intro hk hk7
    obtain ⟨e1, e2, e3, e4⟩ := auto_move_value game.height game.width game.players1.moveCounter
      7 1000213 81 hH hW hk (by norm_num) (by norm_num) (by norm_num) (by norm_num)
      (by norm_num) (by norm_num at hk7; exact hk7)
    unfold get_auto_move_for_x
    simp only [e1, e2, e3, e4, ok_bind, pure_eq_ok, map_ok]

/-- C10 witness: a fresh 3×4 game (both counters 0) gives (1, 1) for 'O' (`t = 17`) and
(2, 1) for 'X' (`t = 81`). -/
theorem C10_auto_move_formula_witness :
    (get_auto_move_for_o (initialize_game 3 4)).map (fun x => (x.1, x.2.1)) = .ok (1, 1) ∧
      (get_auto_move_for_x (initialize_game 3 4)).map (fun x => (x.1, x.2.1)) = .ok (2, 1) :=
  ⟨(C10_auto_move_formula (initialize_game 3 4) (by decide) (by decide)).1 (by decide)
      (by decide),
    (C10_auto_move_formula (initialize_game 3 4) (by decide) (by decide)).2 (by decide)
      (by decide)⟩

/-- C11. On a grid with `H, W ≥ 1` and a counter `k` whose successor is representable
(`-2^31 ≤ k`, `k + 1 < 2^31`), a call of `get_auto_move_for_o` (resp.
`get_auto_move_for_x`) returns a position and a game that differs from the given one only
in the move counter of `players[0]` (resp. `players[1]`), which is `k + 1`; and the
returned position depends on `H`, `W` and `k` only: two games that agree on them get the
same position (or the same fault), whatever their boards hold. -/
theorem C11_auto_move_frame (game : Game) (hH : 1 ≤ game.height) (hW : 1 ≤ game.width) :
    (-2 ^ 31 ≤ game.players0.moveCounter → game.players0.moveCounter + 1 < 2 ^ 31 →
      ∃ row column, get_auto_move_for_o game = .ok (row, column,
        { game with players0 :=
            { game.players0 with moveCounter := game.players0.moveCounter + 1 } })) ∧
    (-2 ^ 31 ≤ game.players1.moveCounter → game.players1.moveCounter + 1 < 2 ^ 31 →
      ∃ row column, get_auto_move_for_x game = .ok (row, column,
        { game with players1 :=
            { game.players1 with moveCounter := game.players1.moveCounter + 1 } })) ∧
    (∀ other : Game, other.height = game.height → other.width = game.width →
      other.players0.moveCounter = game.players0.moveCounter →
      (get_auto_move_for_o other).map (fun x => (x.1, x.2.1)) =
        (get_auto_move_for_o game).map (fun x => (x.1, x.2.1))) ∧
    (∀ other : Game, other.height = game.height → other.width = game.width →
      other.players1.moveCounter = game.players1.moveCounter →
      (get_auto_move_for_x other).map (fun x => (x.1, x.2.1)) =
        (get_auto_move_for_x game).map (fun x => (x.1, x.2.1))) := by
  have hH0 : game.height ≠ 0 := by omega
  have hW0 : game.width ≠ 0 := by omega
  refine ⟨?_, ?_, ?_, ?_⟩
  · intro h1 h2
    obtain ⟨row, column, h⟩ := auto_move_o_run game hH0 hW0
    rw [wrap32_of_range (by omega) (by omega)] at h
    exact ⟨row, column, h⟩
  · intro h1 h2
    obtain ⟨row, column, h⟩ := auto_move_x_run game hH0 hW0
    rw [wrap32_of_range (by omega) (by omega)] at h
    exact ⟨row, column, h⟩
  · intro other e1 e2 e3
    have hm : (if game.height ≥ game.width then game.height else game.width) ≠ 0 := by
      split_ifs <;> assumption
    unfold get_auto_move_for_o
    simp only [e1, e2, e3, cDiv, cMod, if_neg hm, if_neg hH0, if_neg hW0, ok_bind, pure_eq_ok,
      map_ok]
  · intro other e1 e2 e3
    have hm : (if game.height ≥ game.width then game.height else game.width) ≠ 0 := by
      split_ifs <;> assumption
    unfold get_auto_move_for_x
    simp only [e1, e2, e3, cDiv, cMod, if_neg hm, if_neg hH0, if_neg hW0, ok_bind, pure_eq_ok,
      map_ok]

/-- C11 witness: on `detourGame` (counters 0) the call for 'O' returns a game whose only
change is the counter of `players[0]`, now 1. -/
theorem C11_auto_move_frame_witness :
    ∃ row column, get_auto_move_for_o detourGame = .ok (row, column,
      { detourGame with players0 :=
          { detourGame.players0 with moveCounter := detourGame.players0.moveCounter + 1 } }) :=
  (C11_auto_move_frame detourGame (by decide) (by decide)).1 (by decide) (by decide)

/-- C12. `initialize_game` sets the winner to '.'; `check_game_over(row, col, mark, game)`
returns the game with the winner set to `mark` when it answers true and the game
unchanged when it answers false (board, dimensions, turn flag and counters are never
touched).  Hence, in a session started with winner '.', the winner is '.' at every head
of the loop of `start_game`; when the session ends by end of input it is still '.', and
when it ends by a win it is the mark of the player who moved last, which is also what the
cell of the stone just placed holds. -/
theorem C12_winner_field :
    (∀ height width, (initialize_game height width).winner = '.') ∧
    (∀ fuel row column mark game b g', check_game_over fuel row column mark game = .ok (b, g') →
      g' = if b then { game with winner := mark } else game) ∧
    (∀ game0 input0 game input, game0.winner = '.' → LoopHead game0 input0 game input →
      game.winner = '.') ∧
    (∀ fuel turns game0 input0 code final, game0.winner = '.' →
      start_game fuel turns game0 input0 = .ok (code, final) →
      (code = 6 ∧ final.winner = '.') ∨
      (code = 0 ∧ ∃ g i row column, LoopHead game0 input0 g i ∧ g.winner = '.' ∧
        g.board row column = '.' ∧
        final.winner = (if g.isXTurn then g.players1 else g.players0).playerName ∧
        final.board row column = final.winner)) := by
  refine ⟨fun _ _ => rfl, fun _ _ _ _ _ _ _ h => check_game_over_frame h,
    fun _ _ _ _ h0 h => loopHead_winner h0 h, ?_⟩
  intro fuel turns game0 input0 code final h0 hrun
  obtain ⟨g, i, hhead, hend⟩ :=
    start_game_final fuel game0 input0 turns game0 input0 code final LoopHead.start hrun
  have hw := loopHead_winner h0 hhead
  rcases hend with ⟨hc, hf, -⟩ | ⟨hc, g', i', hmove, hf⟩
  · exact Or.inl ⟨hc, by rw [hf]; exact hw⟩
  · obtain ⟨row, column, a, b, -, hempty, rfl⟩ := get_move_result hmove
    refine Or.inr ⟨hc, g, i, row, column, hhead, hw, hempty, ?_, ?_⟩
    · rw [hf]; rfl
    · rw [hf]; simp

/-- C12 witness: the session `manualGame` with `manualInput` ends by a win (exit code 0),
so its final winner is the mark of the player who moved last, held by the cell just
filled, and the winner was '.' at the head of that last pass. -/
theorem C12_winner_field_witness :
    ∃ final, start_game 4 4 manualGame manualInput = .ok (0, final) ∧
      ∃ g i row column, LoopHead manualGame manualInput g i ∧ g.winner = '.' ∧
        g.board row column = '.' ∧
        final.winner = (if g.isXTurn then g.players1 else g.players0).playerName ∧
        final.board row column = final.winner := by
  have hcode : (start_game 4 4 manualGame manualInput).map Prod.fst = .ok 0 := by decide!
  obtain ⟨final, hfinal⟩ := map_fst_eq_ok hcode
  refine ⟨final, hfinal, ?_⟩
  rcases C12_winner_field.2.2.2 4 4 manualGame manualInput 0 final rfl hfinal with h | h
  · exact absurd h.1 (by decide)
  · exact h.2

/-- C13. In `start_game` the player asked to move is `players[1]` when `isXTurn` is true
and `players[0]` otherwise; a move that does not end the game leaves the flag alone and
`start_game` negates it before the next pass, so at every loop head of a session created
from dimensions the mover's mark is 'X' when the flag is set and 'O' otherwise, and the
session starts with 'O' on an empty board.  Each accepted move changes exactly one cell,
from '.' to the mark of the player who moved. -/
theorem C13_turn_alternation :
    (∀ fuel turns game input,
      start_game fuel (turns + 1) game input =
        (get_move fuel game.isXTurn game input).bind fun r =>
          match r with
          | .endOfInput => .ok (6, game)
          | .placed isGameOver game input =>
            if isGameOver then .ok (0, { game with isXTurn := !game.isXTurn })
            else start_game fuel turns { game with isXTurn := !game.isXTurn } input) ∧
    (∀ fuel turns game input g' rest,
      get_move fuel game.isXTurn game input = .ok (.placed false g' rest) →
      start_game fuel (turns + 1) game input =
        start_game fuel turns { g' with isXTurn := !game.isXTurn } rest) ∧
    (∀ fuel who game input over g' rest,
      get_move fuel who game input = .ok (.placed over g' rest) →
      g'.isXTurn = game.isXTurn ∧ g'.height = game.height ∧ g'.width = game.width ∧
      ∃ row column, inBounds game row column ∧ game.board row column = '.' ∧
        g'.board row column = (if who then game.players1 else game.players0).playerName ∧
        ∀ r c, (r, c) ≠ (row, column) → g'.board r c = game.board r c) ∧
    (∀ fuel argv fopen scratch game0 input0 game input, argv.length = 5 →
      main_setup fuel argv fopen scratch = .ok (.play game0) →
      (game0.isXTurn = false ∧ ∀ r c, game0.board r c = '.') ∧
      (LoopHead game0 input0 game input →
        (if game.isXTurn then game.players1 else game.players0).playerName =
          if game.isXTurn then 'X' else 'O')) := by
  refine ⟨start_game_succ, ?_, ?_, ?_⟩
  · intro fuel turns game input g' rest hmove
    rw [start_game_succ, hmove]
    obtain ⟨row, column, a, b, -, -, rfl⟩ := get_move_result hmove
    rfl
  · intro fuel who game input over g' rest hmove
    obtain ⟨row, column, a, b, h1, h2, rfl⟩ := get_move_result hmove
    refine ⟨rfl, rfl, rfl, row, column, h1, h2, ?_, ?_⟩
    · simp
    · intro r c hne
      have hne' : ¬ (r = row ∧ c = column) := fun h => hne (by rw [h.1, h.2])
      simp only [if_neg hne']
  · intro fuel argv fopen scratch game0 input0 game input hargc hsetup
    have hg := main_setup_dimensions hargc hsetup
    refine ⟨by rw [hg]; exact ⟨rfl, fun _ _ => rfl⟩, fun hhead => ?_⟩
    obtain ⟨n0, n1, -, -⟩ := loopHead_names hhead
    have e0 : game0.players0.playerName = 'O' := by rw [hg]; rfl
    have e1 : game0.players1.playerName = 'X' := by rw [hg]; rfl
    cases hx : game.isXTurn
    · simp only [Bool.false_eq_true, if_false]; rw [n0, e0]
    · simp only [if_true]; rw [n1, e1]

/-- C13 witness: in `manualGame` the first move is made by `players[0]`; it fills the
empty cell (0,0) with its mark and leaves the turn flag for `start_game` to negate. -/
theorem C13_turn_alternation_witness :
    manualGame.isXTurn = false ∧
      ∃ g' rest, get_move 4 manualGame.isXTurn manualGame manualInput =
          .ok (.placed false g' rest) ∧
        g'.isXTurn = manualGame.isXTurn ∧
        start_game 4 4 manualGame manualInput =
          start_game 4 3 { g' with isXTurn := !manualGame.isXTurn } rest := by
  have hover : (get_move 4 manualGame.isXTurn manualGame manualInput).map
      MoveOutcome.gameOver? = .ok (some false) := by decide!
  obtain ⟨g', rest, hmove⟩ := placed_of_gameOver hover
  exact ⟨rfl, g', rest, hmove, (C13_turn_alternation.2.2.1 _ _ _ _ _ _ _ hmove).1,
    C13_turn_alternation.2.1 4 3 _ _ _ _ hmove⟩

/-- C14 counterexample: `busyGame` (1x1, empty, counters 1001 and 0) and `wideGame` (1x144,
empty, counters 0) are sessions with dimensions in 1..1000, a board over {'.','O','X'}
and non-negative counters, yet `load_game` returns -1 on the text `save_game` writes for
them: a move count above 1000 is refused, and a row of 144 cells does not fit one
`fgets(line, 145, gameFile)` call together with its newline. -/
theorem C14_round_trip_counterexample :
    (1 ≤ busyGame.height ∧ busyGame.height ≤ 1000 ∧ 1 ≤ busyGame.width ∧
      busyGame.width ≤ 1000 ∧ 0 ≤ busyGame.players0.moveCounter ∧
      0 ≤ busyGame.players1.moveCounter ∧ busyGame.board 0 0 = '.') ∧
    (load_game 3 (save_game busyGame) blankLine).map Prod.fst = .ok (-1) ∧
    (1 ≤ wideGame.height ∧ wideGame.height ≤ 1000 ∧ 1 ≤ wideGame.width ∧
      wideGame.width ≤ 1000 ∧ 0 ≤ wideGame.players0.moveCounter ∧
      0 ≤ wideGame.players1.moveCounter ∧ ∀ r c, wideGame.board r c = '.') ∧
    (load_game 3 (save_game wideGame) blankLine).map Prod.fst = .ok (-1) := by
  refine ⟨by decide, by decide!, ⟨by decide, by decide, by decide, by decide, by decide,
    by decide, fun _ _ => rfl⟩, by decide!⟩

/-- C14 (amended). For every session with `1 ≤ H ≤ 1000`, `1 ≤ W ≤ 143`, both move
counters in 0..1000 and a board whose cells are '.', 'O' or 'X', `load_game` applied to
the text written by `save_game` returns 0 with a session that has the same turn flag,
height, width, move counters and board cells. -/
theorem C14_save_load_round_trip (game : Game) (fuel : Nat) (scratch : Nat → Char)
    (hH : 1 ≤ game.height) (hH' : game.height ≤ 1000)
    (hW : 1 ≤ game.width) (hW' : game.width ≤ 143)
    (hO : 0 ≤ game.players0.moveCounter) (hO' : game.players0.moveCounter ≤ 1000)
    (hX : 0 ≤ game.players1.moveCounter) (hX' : game.players1.moveCounter ≤ 1000)
    (hboard : ∀ r c, inBounds game r c → legalCell (game.board r c))
    (hfuel : game.height.toNat ≤ fuel) :
    ∃ g', load_game fuel (save_game game) scratch = .ok (0, some g') ∧
      g'.isXTurn = game.isXTurn ∧ g'.height = game.height ∧ g'.width = game.width ∧
      g'.players0.moveCounter = game.players0.moveCounter ∧
      g'.players1.moveCounter = game.players1.moveCounter ∧
      ∀ r c, inBounds game r c → g'.board r c = game.board r c := by
  have hturn : (if game.isXTurn then (1 : Int) else 0) = 0 ∨
      (if game.isXTurn then (1 : Int) else 0) = 1 := by
    cases game.isXTurn <;> simp
  have hturn0 : (0 : Int) ≤ if game.isXTurn then (1 : Int) else 0 := by omega
  have hok := headerOk_saved hturn (by omega) hH' (by omega) (by omega : game.width ≤ 1000)
    hO hO' hX hX'
  have hread := fgets_line
    (headerText (if game.isXTurn then 1 else 0) game.height game.width
      game.players0.moveCounter game.players1.moveCounter)
    (rowsText game 0 game.height.toNat)
    (headerText_chars hturn0 (by omega) (by omega) hO hX (by decide) (by decide))
    (headerText_length hturn0 (by omega) (by omega) hH' (by omega) (by omega) hO hO' hX hX')
  have hrows := load_rows_saved game hboard (by omega) (by omega) hW' game.height.toNat 0
    { initialize_game game.height game.width with
      isXTurn := decide ((if game.isXTurn then (1 : Int) else 0) > 0) }
    scratch fuel rfl rfl (by omega) hfuel
  simp only [Nat.cast_zero, zero_add] at hrows
  rw [save_game_eq, load_game_eq fuel scratch hread (load_header_ok hok), hrows]
  simp only [Result.bind]
  rw [if_neg (by norm_num)]
  refine ⟨_, rfl, ?_, rfl, rfl, rfl, rfl, ?_⟩
  · cases game.isXTurn <;> simp
  · intro r c hin
    obtain ⟨h1, h2, h3, h4⟩ := hin
    show (if 0 ≤ r ∧ r < game.height ∧ 0 ≤ c ∧ c < game.width then game.board r c
      else (initialize_game game.height game.width).board r c) = game.board r c
    rw [if_pos ⟨h1, h2, h3, h4⟩]

/-- C14 witness: the 3x3 session `detourGame` is written and read back with the same
turn flag, dimensions, counters and cells. -/
theorem C14_save_load_round_trip_witness :
    ∃ g', load_game 3 (save_game detourGame) blankLine = .ok (0, some g') ∧
      g'.isXTurn = detourGame.isXTurn ∧ g'.height = detourGame.height ∧
      g'.width = detourGame.width ∧
      g'.players0.moveCounter = detourGame.players0.moveCounter ∧
      g'.players1.moveCounter = detourGame.players1.moveCounter ∧
      ∀ r c, inBounds detourGame r c → g'.board r c = detourGame.board r c :=
  C14_save_load_round_trip detourGame 3 blankLine (by decide) (by decide) (by decide)
    (by decide) (by decide) (by decide) (by decide) (by decide)
    (by
      intro r c hin
      obtain ⟨h1, h2, h3, h4⟩ := hin
      have hH : detourGame.height = 3 := rfl
      have hW : detourGame.width = 3 := rfl
      rw [hH] at h2
      rw [hW] at h4
      have hr : r = 0 ∨ r = 1 ∨ r = 2 := by omega
      have hc : c = 0 ∨ c = 1 ∨ c = 2 := by omega
      rcases hr with rfl | rfl | rfl <;> rcases hc with rfl | rfl | rfl <;> decide)
    (by decide)

/-- C15 (code defect): the program is started as `hex a a save` on a valid save file that
records 'O' to move and the counters 5 and 3.  `load_game` returns a session with these
counters, whose next candidate for 'O' is the formula at 5, cell (3,2); the session `main`
hands to `start_game` has both counters 0 and the next candidate is the formula at 0,
cell (0,1): the two `initialize_player(argv[i], ..., 0)` calls made after `load_game`
overwrite the counters it stored. -/
theorem C15_saved_counters_reset_by_main :
    (load_game 10 savedFile blankLine).map (fun r => (r.1, r.2.map sessionSummary)) =
      .ok (0, some ⟨false, 4, 4, 5, 3, .ok (3, 2)⟩) ∧
    (main_setup 10 savedArgv savedFopen blankLine).map (fun s => s.game?.map sessionSummary) =
      .ok (some ⟨false, 4, 4, 0, 0, .ok (0, 1)⟩) := by
  constructor <;> decide!

/-- C18 (code defect): on the empty 2x2 board of `manualGame` the manual player 'O' types
the line "4294967296 0".  The first token is an integer, and the row it names is out of
bounds, yet `get_move` places the stone of 'O' at (0,0): `(int)strtol` reduces the value
modulo 2^32 and `is_move_valid` sees row 0. -/
theorem C18_out_of_range_token_places_stone :
    strtol "4294967296".toList = (4294967296, []) ∧
    ¬ ((4294967296 : Int) < manualGame.height) ∧
    manualGame.players0.isManual = true ∧
    manualGame.board 0 0 = '.' ∧
    ∃ over g, get_move 4 false manualGame "4294967296 0\n".toList = .ok (.placed over g []) ∧
      g.board 0 0 = 'O' := by
  refine ⟨by decide, by decide, by decide, by decide, ?_⟩
  have hloop : get_move_loop false 4 (-1) (-1) manualGame "4294967296 0\n".toList =
      .ok (some (0, 0, manualGame, [])) :=
    get_move_loop_accepted (by decide) 3 (-1) (-1)
      (by decide : fgets 65 "4294967296 0\n".toList = some ("4294967296 0\n".toList, []))
      (by decide) (by decide) (by decide)
  obtain ⟨over, h⟩ := get_move_of_loop hloop (by decide)
  refine ⟨over, _, h, ?_⟩
  show (if (0 : Int) = 0 ∧ (0 : Int) = 0 then manualGame.players0.playerName
    else manualGame.board 0 0) = 'O'
  decide

/-- C21 (code defect): a visited log longer than its blocks.  On the 2x6 board full of
'X' with the in-bounds seed (0,0) holding 'X', `check_game_over(0, 0, 'X', game)` reaches,
in its bottom search, a stack with count 6 and logCount = maxSize = H*W = 12 whose log
blocks hold 48 bytes.  The next `push` calls `realloc(…, logSize * 2)`, a size in bytes
without the factor `sizeof(int)`, so the blocks shrink to 24 bytes while logCount stays 12:
the log no longer fits its blocks, the scan of `add_bottom_cells_to_stack` for the popped
cell reads outside them, and `check_game_over` ends there without an answer.  Same defect
as C6 and C7. -/
theorem C21_log_block_smaller_than_log :
    inBounds fullBoard 0 0 ∧ fullBoard.board 0 0 = 'X' ∧
    (Sized.initialize_stack fullBoard).logBytes =
      intBytes * (fullBoard.height * fullBoard.width) ∧
    fullLogState.map (fun p => (p.1.stack.count, p.1.stack.logCount, p.1.stack.maxSize,
      p.1.stack.logSize, p.1.logBytes)) = .ok (6, 12, 12, 12, 48) ∧
    fullLogState.map (fun p => ((Sized.grow p.1).stack.logCount,
      (Sized.grow p.1).stack.logSize, (Sized.grow p.1).logBytes,
      intBytes * (Sized.grow p.1).stack.logCount)) = .ok (12, 24, 24, 48) ∧
    (fullLogState.bind fun p =>
      (Sized.add_bottom_cells_to_stack p.1 p.2.1 p.2.2 fullBoard 'X').map
        fun s => s.stack.logCount) = .outOfBounds ∧
    (Sized.check_game_over 12 0 0 'X' fullBoard).map Prod.fst = .outOfBounds := by
  refine ⟨by decide, by decide, by decide, by decide!, by decide!, by decide!, by decide!⟩

/-- C22. On a grid with `H, W ≥ 1` (in particular `H, W` in 1..1000), for a counter
`k ≥ 0` with `k * 9 < 2^31`, `get_auto_move_for_o` returns a result (the division by
`max(H, W)` and the remainders by `H` and `W` have non-zero divisors) whose candidate
satisfies `0 ≤ row < H` and `0 ≤ col < W`, and `is_move_valid` on that candidate answers
true exactly when the cell is empty; likewise `get_auto_move_for_x` with `k * 7 < 2^31`. -/
theorem C22_auto_candidates_in_bounds (game : Game) (hH : 1 ≤ game.height)
    (hW : 1 ≤ game.width) :
    (0 ≤ game.players0.moveCounter → game.players0.moveCounter * 9 < 2 ^ 31 →
      ∃ row column g', get_auto_move_for_o game = .ok (row, column, g') ∧
        0 ≤ row ∧ row < game.height ∧ 0 ≤ column ∧ column < game.width ∧
        is_move_valid row column g' = .ok (decide (game.board row column = '.')) ∧
        is_move_valid row column game = .ok (decide (game.board row column = '.'))) ∧
    (0 ≤ game.players1.moveCounter → game.players1.moveCounter * 7 < 2 ^ 31 →
      ∃ row column g', get_auto_move_for_x game = .ok (row, column, g') ∧
        0 ≤ row ∧ row < game.height ∧ 0 ≤ column ∧ column < game.width ∧
        is_move_valid row column g' = .ok (decide (game.board row column = '.')) ∧
        is_move_valid row column game = .ok (decide (game.board row column = '.'))) := by
  have hvalid : ∀ (g : Game) (row column : Int), g.height = game.height →
      g.width = game.width → g.board = game.board → 0 ≤ row → row < game.height →
      0 ≤ column → column < game.width →
      is_move_valid row column g = .ok (decide (game.board row column = '.')) := by
    intro g row column h1 h2 h3 r0 r1 c0 c1
    rw [is_move_valid_eq, h1, h2, h3]
    congr 1
    simp only [r0, r1, c0, c1, true_and]
  constructor
  · intro hk hk9
    obtain ⟨e1, e2, e3, e4⟩ := auto_move_value game.height game.width game.players0.moveCounter
      9 1000037 17 hH hW hk (by norm_num) (by norm_num) (by norm_num) (by norm_num)
      (by norm_num) (by norm_num at hk9; exact hk9)
    have r0 := Int.emod_nonneg ((game.players0.moveCounter * 9 % 1000037 + 17) /
      max game.height game.width) (by omega : game.height ≠ 0)
    have r1 := Int.emod_lt_of_pos ((game.players0.moveCounter * 9 % 1000037 + 17) /
      max game.height game.width) (by omega : 0 < game.height)
    have c0 := Int.emod_nonneg (game.players0.moveCounter * 9 % 1000037 + 17)
      (by omega : game.width ≠ 0)
    have c1 := Int.emod_lt_of_pos (game.players0.moveCounter * 9 % 1000037 + 17)
      (by omega : 0 < game.width)
    have hrun : get_auto_move_for_o game = .ok
        ((game.players0.moveCounter * 9 % 1000037 + 17) / max game.height game.width % game.height,
        (game.players0.moveCounter * 9 % 1000037 + 17) % game.width,
        { game with players0 :=
          { game.players0 with moveCounter := wrap32 (game.players0.moveCounter + 1) } }) := by
      unfold get_auto_move_for_o
      simp only [e1, e2, e3, e4, ok_bind, pure_eq_ok]
    exact ⟨_, _, _, hrun, r0, r1, c0, c1, hvalid _ _ _ rfl rfl rfl r0 r1 c0 c1,
      hvalid _ _ _ rfl rfl rfl r0 r1 c0 c1⟩
  · intro hk hk7
    obtain ⟨e1, e2, e3, e4⟩ := auto_move_value game.height game.width game.players1.moveCounter
      7 1000213 81 hH hW hk (by norm_num) (by norm_num) (by norm_num) (by norm_num)
      (by norm_num) (by norm_num at hk7; exact hk7)
    have r0 := Int.emod_nonneg ((game.players1.moveCounter * 7 % 1000213 + 81) /
      max game.height game.width) (by omega : game.height ≠ 0)
    have r1 := Int.emod_lt_of_pos ((game.players1.moveCounter * 7 % 1000213 + 81) /
      max game.height game.width) (by omega : 0 < game.height)
    have c0 := Int.emod_nonneg (game.players1.moveCounter * 7 % 1000213 + 81)
      (by omega : game.width ≠ 0)
    have c1 := Int.emod_lt_of_pos (game.players1.moveCounter * 7 % 1000213 + 81)
      (by omega : 0 < game.width)
    have hrun : get_auto_move_for_x game = .ok
        ((game.players1.moveCounter * 7 % 1000213 + 81) / max game.height game.width % game.height,
        (game.players1.moveCounter * 7 % 1000213 + 81) % game.width,
        { game with players1 :=
          { game.players1 with moveCounter := wrap32 (game.players1.moveCounter + 1) } }) := by
      unfold get_auto_move_for_x
      simp only [e1, e2, e3, e4, ok_bind, pure_eq_ok]
    exact ⟨_, _, _, hrun, r0, r1, c0, c1, hvalid _ _ _ rfl rfl rfl r0 r1 c0 c1,
      hvalid _ _ _ rfl rfl rfl r0 r1 c0 c1⟩

/-- C22 witness: on the 3x3 board of `detourGame` (counters 0) the candidate of 'O' is in
bounds and `is_move_valid` answers whether its cell is empty. -/
theorem C22_auto_candidates_in_bounds_witness :
    ∃ row column g', get_auto_move_for_o detourGame = .ok (row, column, g') ∧
      0 ≤ row ∧ row < detourGame.height ∧ 0 ≤ column ∧ column < detourGame.width ∧
      is_move_valid row column g' = .ok (decide (detourGame.board row column = '.')) ∧
      is_move_valid row column detourGame =
        .ok (decide (detourGame.board row column = '.')) :=
  (C22_auto_candidates_in_bounds detourGame (by decide) (by decide)).1 (by decide) (by decide)

end Hex
